import Mathlib

/-!
# Tic-tac-toe game-tree enumerator: embedding and verification

Shallow embedding of `computer/tictoc.go`.

* `uint32` values are natural numbers below `2 ^ 32`; every operation that can
  leave that range in Go is followed by an explicit `% 2 ^ 32`.
* `int32` values are integers, decoded from their two's-complement bytes.
* A Go `map[uint32]V` is an association list with distinct keys
  (`AList`); the order of its entries stands for Go's unspecified iteration
  order and no definition below depends on it except through `keys`.
* The recursion of `walkRecurse` is driven by an explicit fuel argument and
  returns `none` when the fuel runs out.
* A Go `string` is the list of its bytes and a `rune` is an integer. The UTF-8
  decoding done by a `range` loop and by `utf8.RuneCountInString`, and the
  encoding done by the conversion `string([]rune)`, are `decodeRune` and
  `encodeRune`.
* A run-time panic is an outcome of its own: `DeserializeResult.panicked` for
  `Deserialize`, `none` for `BoardToVector`.
-/

namespace TicTacToe

/-! # Definitions -/

/-! ## Board codec -/

/-- Source `getSlot(board, number) = uint32(board >> (number << 1)) & 0b11`. -/
def getSlot (board : Nat) (number : Nat) : Nat :=
  (board >>> (number <<< 1)) &&& 3

/-- Source `putSlot(board, number, piece) =
  (board & ^(0b11 << (number << 1))) | uint32(piece << (number << 1))`,
all operands being `uint32`. -/
def putSlot (board : Nat) (number : Nat) (piece : Nat) : Nat :=
  (board &&& (((3 <<< (number <<< 1)) % 2 ^ 32) ^^^ (2 ^ 32 - 1))) |||
    ((piece <<< (number <<< 1)) % 2 ^ 32)

/-- Source `WhichTurn(board)`: the number of cells `0..8` holding a non-zero
value. -/
def WhichTurn (board : Nat) : Nat :=
  (List.range 9).foldl (fun t i => if getSlot board i ≠ 0 then t + 1 else t) 0

/-- The eight index triples tested by `hasWinner`, in source order. -/
def stensils : List (Nat × Nat × Nat) :=
  [(8, 7, 6), (5, 4, 3), (2, 1, 0), (8, 5, 2), (7, 4, 1), (6, 3, 0), (8, 4, 0), (6, 4, 2)]

/-- Source `hasWinner(board)`: the loop over `stensils` returning `true` at the
first triple whose cells are equal and non-zero. -/
def hasWinner (board : Nat) : Bool :=
  stensils.any fun stensil =>
    decide (getSlot board stensil.1 ≠ 0 ∧
      getSlot board stensil.1 = getSlot board stensil.2.1 ∧
      getSlot board stensil.2.1 = getSlot board stensil.2.2)

/-! ## Statistics and the computer structure -/

/-- Source `type Stats struct{ X, O, T uint32 }`. -/
structure Stats where
  X : Nat
  O : Nat
  T : Nat
deriving DecidableEq, Repr

/-- Source `Stats.add`: field-wise `uint32` addition. -/
def Stats.add (s nextStats : Stats) : Stats :=
  { X := (s.X + nextStats.X) % 2 ^ 32
    O := (s.O + nextStats.O) % 2 ^ 32
    T := (s.T + nextStats.T) % 2 ^ 32 }

/-- Source `type Computer struct`, with fields `tree map[uint32][]uint32` and
`statsMap map[uint32]Stats`. -/
structure Computer where
  tree : AList (fun _ : Nat => List Nat)
  statsMap : AList (fun _ : Nat => Stats)

/-- Source `Computer.Next(board) = c.tree[board]` (the nil slice for an absent key). -/
def Computer.Next (c : Computer) (board : Nat) : List Nat :=
  (c.tree.lookup board).getD []

/-- Source `Computer.Stats(board) = c.statsMap[board]` (the zero value for an
absent key). -/
def Computer.Stats (c : Computer) (board : Nat) : Stats :=
  (c.statsMap.lookup board).getD ⟨0, 0, 0⟩

/-! ## Enumeration -/

/-- Source `walkRecurse(current, level)`, threading the two maps that the Go
method mutates through its receiver. The first argument is the recursion fuel. -/
def walkRecurse : Nat → Computer → Nat → Nat → Option (Stats × Computer)
  | 0, _, _, _ => none
  | fuel + 1, c, current, level =>
    if level > 4 ∧ hasWinner current = true then
      if level % 2 = 0 then some (⟨0, 1, 0⟩, c) else some (⟨1, 0, 0⟩, c)
    else if level = 9 then some (⟨0, 0, 1⟩, c)
    else
      (List.range 9).foldlM (fun (acc : Stats × Computer) i =>
        if getSlot current i ≠ 0 then some acc
        else
          let next := putSlot current i (level % 2 + 1)
          let c1 : Computer :=
            { acc.2 with tree := acc.2.tree.insert current (acc.2.Next current ++ [next]) }
          match walkRecurse fuel c1 next ((level + 1) % 2 ^ 32) with
          | none => none
          | some (nextStats, c2) =>
            some (acc.1.add nextStats,
              { c2 with statsMap := c2.statsMap.insert next nextStats }))
        (⟨0, 0, 0⟩, c)

/-- Source `Walk()`: enumerate from the empty board at level 0 with both maps
empty, then record the returned total under key 0. The recursion is at most ten calls
deep, since every level fills one of the nine cells; `walkRecurse_eq` shows that
this fuel is enough. -/
def Walk : Option Computer :=
  (walkRecurse 10 ⟨∅, ∅⟩ 0 0).map fun (stats, c) =>
    { c with statsMap := c.statsMap.insert 0 stats }

/-! ## Binary persistence -/

/-- Source `const magic uint64 = 0xb5dead0115145103`. -/
def magic : Nat := 0xb5dead0115145103

/-- Big-endian bytes of a `uint32` (`binary.BigEndian.PutUint32`). -/
def be32 (v : Nat) : List Nat :=
  [v / 2 ^ 24 % 256, v / 2 ^ 16 % 256, v / 2 ^ 8 % 256, v % 256]

/-- Big-endian bytes of a `uint64` (`binary.BigEndian.PutUint64`). -/
def be64 (v : Nat) : List Nat :=
  [v / 2 ^ 56 % 256, v / 2 ^ 48 % 256, v / 2 ^ 40 % 256, v / 2 ^ 32 % 256,
    v / 2 ^ 24 % 256, v / 2 ^ 16 % 256, v / 2 ^ 8 % 256, v % 256]

/-- The Go conversion `int32(n)` of a non-negative `int`: wrap into
`[-2 ^ 31, 2 ^ 31)`. -/
def toInt32 (n : Nat) : Int :=
  ((n + 2 ^ 31) % 2 ^ 32 : Nat) - 2 ^ 31

/-- Big-endian bytes of an `int32`: those of its two's-complement word. -/
def beInt32 (z : Int) : List Nat :=
  be32 (z % 2 ^ 32).toNat

/-- Bytes that `binary.Write` emits for a `Stats` value: the fields in
declaration order. -/
def Stats.bytes (v : Stats) : List Nat :=
  be32 v.X ++ be32 v.O ++ be32 v.T

/-- An `io.Writer`: `Write` either accepts the bytes, giving the next state of
the writer, or fails with an error. -/
structure Writer (σ ε : Type) where
  Write : σ → List Nat → Except ε σ

/-- Model of `bytes.Buffer` as a writer: appends and never fails. -/
def bufferWriter (ε : Type) : Writer (List Nat) ε where
  Write buf p := .ok (buf ++ p)

/-- Model of `slices.Sort` on a `[]uint32`. -/
def sortKeys (ks : List Nat) : List Nat :=
  ks.insertionSort (· ≤ ·)

/-- Source `Computer.Serialize(w)`: every `binary.Write` is one `Write` of the
encoded datum and every error is returned at once. -/
def Computer.Serialize {σ ε : Type} (c : Computer) (w : Writer σ ε) (s : σ) : Except ε σ := do
  let s ← w.Write s (beInt32 (toInt32 c.statsMap.keys.length))
  let s ← w.Write s (beInt32 (toInt32 c.tree.keys.length))
  let s ← w.Write s (be64 magic)
  let statsKeys := sortKeys c.statsMap.keys
  let s ← statsKeys.foldlM (fun s k => do
    let v := c.Stats k
    let s ← w.Write s (be32 k)
    w.Write s v.bytes) s
  let treeKeys := sortKeys c.tree.keys
  treeKeys.foldlM (fun s node => do
    let children := c.Next node
    let s ← w.Write s (be32 node)
    let s ← w.Write s (beInt32 (toInt32 children.length))
    w.Write s (children.flatMap be32)) s

/-- The `error` values `Deserialize` can return. -/
inductive DecodeError where
  | EOF
  | ErrUnexpectedEOF
  | corruptFile
deriving DecidableEq, Repr

/-- Ways in which the body of `Deserialize` stops early: a returned error or a
runtime panic. -/
inductive Abort where
  | err (e : DecodeError)
  | panic
deriving DecidableEq, Repr

/-- Model of `io.ReadFull` on a finite byte stream: the next `n` bytes and the
rest, or `EOF` when nothing is left, or `ErrUnexpectedEOF` when fewer than `n` are. -/
def readFull (n : Nat) (r : List Nat) : Except Abort (List Nat × List Nat) :=
  if n ≤ r.length then .ok (r.take n, r.drop n)
  else if r.length = 0 then .error (.err .EOF)
  else .error (.err .ErrUnexpectedEOF)

/-- Model of `binary.BigEndian.Uint32`/`Uint64`: the value of a big-endian byte
string. -/
def beValue (bs : List Nat) : Nat :=
  bs.foldl (fun acc b => acc * 256 + b) 0

/-- Model of `binary.Read` into a `uint32`. -/
def readUint32 (r : List Nat) : Except Abort (Nat × List Nat) := do
  let (bs, r) ← readFull 4 r
  pure (beValue bs, r)

/-- Model of `binary.Read` into an `int32`. -/
def readInt32 (r : List Nat) : Except Abort (Int × List Nat) := do
  let (bs, r) ← readFull 4 r
  let v := beValue bs
  pure (if v < 2 ^ 31 then (v : Int) else (v : Int) - 2 ^ 32, r)

/-- Model of `binary.Read` into a `uint64`. -/
def readUint64 (r : List Nat) : Except Abort (Nat × List Nat) := do
  let (bs, r) ← readFull 8 r
  pure (beValue bs, r)

/-- Model of `binary.Read` into a `Stats`: one read of 12 bytes, three `uint32`
fields. -/
def readStats (r : List Nat) : Except Abort (Stats × List Nat) := do
  let (bs, r) ← readFull 12 r
  pure (⟨beValue (bs.take 4), beValue ((bs.drop 4).take 4), beValue (bs.drop 8)⟩, r)

/-- The loop `for range statsLen` of `Deserialize`, with `n` iterations left. -/
def readStatsEntries : Nat → AList (fun _ : Nat => Stats) → List Nat →
    Except Abort (AList (fun _ : Nat => Stats) × List Nat)
  | 0, m, r => .ok (m, r)
  | n + 1, m, r => do
    let (k, r) ← readUint32 r
    let (v, r) ← readStats r
    readStatsEntries n (m.insert k v) r

/-- The loop `for i := range children` of `Deserialize`, with `n` elements left
to fill; `acc` holds the elements read so far. -/
def readChildren : Nat → List Nat → List Nat → Except Abort (List Nat × List Nat)
  | 0, acc, r => .ok (acc, r)
  | n + 1, acc, r => do
    let (child, r) ← readUint32 r
    readChildren n (acc ++ [child]) r

/-- The loop `for range treeLen` of `Deserialize`, with `n` iterations left.
`make([]uint32, childrenLen)` panics on a negative length. -/
def readTreeEntries : Nat → AList (fun _ : Nat => List Nat) → List Nat →
    Except Abort (AList (fun _ : Nat => List Nat) × List Nat)
  | 0, m, r => .ok (m, r)
  | n + 1, m, r => do
    let (node, r) ← readUint32 r
    let (childrenLen, r) ← readInt32 r
    if childrenLen < 0 then .error .panic
    else
      let (children, r) ← readChildren childrenLen.toNat [] r
      readTreeEntries n (m.insert node children) r

/-- The body of `Deserialize` up to its final `return`. -/
def deserializeBody (r : List Nat) : Except Abort Computer := do
  let (statsLen, r) ← readInt32 r
  let (treeLen, r) ← readInt32 r
  let (magicValue, r) ← readUint64 r
  if magicValue ≠ magic then .error (.err .corruptFile)
  else
    let (newStatsMap, r) ← readStatsEntries statsLen.toNat ∅ r
    let (newTree, _) ← readTreeEntries treeLen.toNat ∅ r
    pure { tree := newTree, statsMap := newStatsMap }

/-- What a call of `Deserialize` does: return a `(Computer, error)` pair or panic. -/
inductive DeserializeResult where
  | returned (c : Computer) (err : Option DecodeError)
  | panicked

/-- Source `Deserialize(r)` on a reader over the finite byte stream `r`. Every
error path returns `Computer{}` with the error. -/
def Deserialize (r : List Nat) : DeserializeResult :=
  match deserializeBody r with
  | .ok c => .returned c none
  | .error (.err e) => .returned ⟨∅, ∅⟩ (some e)
  | .error .panic => .panicked

/-- One statistics record of the file: key, then the three counters. -/
def statsRecord (c : Computer) (k : Nat) : List Nat :=
  be32 k ++ (be32 (c.Stats k).X ++ be32 (c.Stats k).O ++ be32 (c.Stats k).T)

/-- One tree record of the file: node, child count, children in stored order. -/
def treeRecord (c : Computer) (node : Nat) : List Nat :=
  be32 node ++ beInt32 ((c.Next node).length : Int) ++ (c.Next node).flatMap be32

/-- The file layout of the specification for given lists of statistics keys
and tree keys: the two int32 counts, the magic, the statistics records, the tree
records. -/
def fileLayout (c : Computer) (statsKeys treeKeys : List Nat) : List Nat :=
  beInt32 (c.statsMap.keys.length : Int) ++ beInt32 (c.tree.keys.length : Int) ++
    be64 0xB5DEAD0115145103 ++ statsKeys.flatMap (statsRecord c) ++
    treeKeys.flatMap (treeRecord c)

/-- Every key, counter and child of the structure is a `uint32`. -/
def Computer.WellTyped (c : Computer) : Prop :=
  (∀ e ∈ c.statsMap.entries, e.1 < 2 ^ 32 ∧ e.2.X < 2 ^ 32 ∧ e.2.O < 2 ^ 32 ∧ e.2.T < 2 ^ 32) ∧
  (∀ e ∈ c.tree.entries, e.1 < 2 ^ 32 ∧ ∀ child ∈ e.2, child < 2 ^ 32)

instance (c : Computer) : Decidable c.WellTyped := by
  unfold Computer.WellTyped; infer_instance

/-! ## Pure views of the enumeration -/

/-- The guard of the two base cases of `walkRecurse`: the call returns without
looping. -/
def terminalAt (current level : Nat) : Prop :=
  (level > 4 ∧ hasWinner current = true) ∨ level = 9

instance (current level : Nat) : Decidable (terminalAt current level) := by
  unfold terminalAt; infer_instance

/-- The boards that the loop of `walkRecurse(current, level)` builds, in loop
order: one per empty cell, holding the piece `level % 2 + 1`. -/
def moves (current level : Nat) : List Nat :=
  (List.range 9).filterMap fun i =>
    if getSlot current i ≠ 0 then none else some (putSlot current i (level % 2 + 1))

/-- The value returned by `walkRecurse(current, level)`, without the maps. -/
def walkStats : Nat → Nat → Nat → Stats
  | 0, _, _ => ⟨0, 0, 0⟩
  | fuel + 1, current, level =>
    if level > 4 ∧ hasWinner current = true then
      if level % 2 = 0 then ⟨0, 1, 0⟩ else ⟨1, 0, 0⟩
    else if level = 9 then ⟨0, 0, 1⟩
    else
      (moves current level).foldl
        (fun stats next => stats.add (walkStats fuel next ((level + 1) % 2 ^ 32))) ⟨0, 0, 0⟩

/-- The predicate `Path d current level k`: the call
`walkRecurse(current, level)` reaches a call on board `k` exactly `d` recursion levels further down. -/
def Path : Nat → Nat → Nat → Nat → Prop
  | 0, current, _, k => k = current
  | d + 1, current, level, k =>
    ¬ terminalAt current level ∧
      ∃ next ∈ moves current level, Path d next ((level + 1) % 2 ^ 32) k

/-- The `(parent, child)` pairs of the appends `tree[parent] = append(tree[parent],
child)` made by `walkRecurse(current, level)`, in execution order. -/
def edges : Nat → Nat → Nat → List (Nat × Nat)
  | 0, _, _ => []
  | fuel + 1, current, level =>
    if terminalAt current level then []
    else
      (moves current level).flatMap fun next =>
        (current, next) :: edges fuel next ((level + 1) % 2 ^ 32)

/-- The `(board, stats)` pairs of the assignments `statsMap[board] = stats` made
by `walkRecurse(current, level)`, in execution order. -/
def recs : Nat → Nat → Nat → List (Nat × Stats)
  | 0, _, _ => []
  | fuel + 1, current, level =>
    if terminalAt current level then []
    else
      (moves current level).flatMap fun next =>
        recs fuel next ((level + 1) % 2 ^ 32) ++
          [(next, walkStats fuel next ((level + 1) % 2 ^ 32))]

/-- Replaying a list of appends on a tree map. -/
def applyEdges (tree : AList (fun _ : Nat => List Nat)) (es : List (Nat × Nat)) :
    AList (fun _ : Nat => List Nat) :=
  es.foldl (fun t e => t.insert e.1 ((t.lookup e.1).getD [] ++ [e.2])) tree

/-- Replaying a list of assignments on a statistics map. -/
def applyRecs (statsMap : AList (fun _ : Nat => Stats)) (rs : List (Nat × Stats)) :
    AList (fun _ : Nat => Stats) :=
  rs.foldl (fun m r => m.insert r.1 r.2) statsMap

/-- One iteration of the loop of `walkRecurse` on an empty cell. -/
def walkStep (fuel current level : Nat) (acc : Stats × Computer) (next : Nat) :
    Option (Stats × Computer) :=
  match walkRecurse fuel
      { acc.2 with tree := acc.2.tree.insert current (acc.2.Next current ++ [next]) }
      next ((level + 1) % 2 ^ 32) with
  | none => none
  | some (nextStats, c2) =>
    some (acc.1.add nextStats, { c2 with statsMap := c2.statsMap.insert next nextStats })

/-! ## Packed tables over all board words

A table gives a 32-bit field to each of the `2 ^ 18` board words: field `b` is
bits `32 * b .. 32 * b + 31` of one natural number. Whole-table operations are
single bitwise or arithmetic operations on that number. -/

/-- Field `b` of the table `V`. -/
def fld (V b : Nat) : Nat := (V >>> (32 * b)) % 2 ^ 32

/-- The table over `2 ^ m` boards whose fields all hold 1. -/
def onesUpTo : Nat → Nat
  | 0 => 1
  | m + 1 => onesUpTo m ||| (onesUpTo m <<< (32 * 2 ^ m))

/-- The table over `2 ^ m` boards whose field `b` holds `b`. -/
def identUpTo : Nat → Nat
  | 0 => 0
  | m + 1 => identUpTo m ||| ((identUpTo m ||| (onesUpTo m <<< m)) <<< (32 * 2 ^ m))

/-- Every field holds 1. -/
def onesVec : Nat := onesUpTo 18

/-- Field `b` holds `b`. -/
def identVec : Nat := identUpTo 18

/-- Field `b` holds `getSlot b i`. -/
def cellVec (i : Nat) : Nat := (identVec >>> (2 * i)) &&& (onesVec ||| (onesVec <<< 1))

/-- Field `b` holds 1 when the 2-bit field `b` of `V` is non-zero, else 0. -/
def nzVec (V : Nat) : Nat := (V ||| (V >>> 1)) &&& onesVec

/-- Field `b` holds 1 when cell `i` of `b` is empty. -/
def emptyVec (i : Nat) : Nat := onesVec ^^^ nzVec (cellVec i)

/-- Field `b` holds 1 when cells `x` and `y` of `b` are equal. -/
def eqVec (x y : Nat) : Nat := onesVec ^^^ nzVec (cellVec x ^^^ cellVec y)

/-- Field `b` holds 1 when the triple `t` is a completed line of `b`. -/
def lineVec (t : Nat × Nat × Nat) : Nat :=
  nzVec (cellVec t.1) &&& eqVec t.1 t.2.1 &&& eqVec t.2.1 t.2.2

/-- Field `b` holds 1 when `hasWinner b`. -/
def winVec : Nat := stensils.foldl (fun acc t => acc ||| lineVec t) 0

/-- Field `b` holds 1 when cell `x` of `b` holds piece 1 (`q = 1`) or piece 2 (`q = 2`). -/
def pieceVec (q x : Nat) : Nat :=
  onesVec ^^^ nzVec (cellVec x ^^^ (onesVec <<< (q - 1)))

/-- Field `b` holds 1 when some triple of `stensils` holds piece `q` three times. -/
def ownVec (q : Nat) : Nat :=
  stensils.foldl (fun acc t => acc ||| (pieceVec q t.1 &&& pieceVec q t.2.1 &&& pieceVec q t.2.2)) 0

/-- Keep the fields of the boards on which a call at `level` loops. -/
def liveVec (level L : Nat) : Nat :=
  if level = 9 then 0 else if level > 4 then L &&& (onesVec ^^^ winVec) else L

/-- From the boards called at `level` to the boards called at `level + 1`. -/
def stepReach (level L : Nat) : Nat :=
  (List.range 9).foldl
    (fun acc i => acc ||| ((liveVec level L &&& emptyVec i) <<< (32 * ((level % 2 + 1) * 4 ^ i)))) 0

/-- Field `b` holds 1 when `walkRecurse` is called on `b` at recursion depth `d`. -/
def reachVec : Nat → Nat
  | 0 => 1
  | d + 1 => stepReach d (reachVec d)

/-- The sum of the fields of a table of at most `2 ^ 32 - 2` in total. -/
def fieldSum (V : Nat) : Nat := V % (2 ^ 32 - 1)

/-- The boards called at any depth up to 9. -/
def visitedVec : Nat := (List.range 10).foldl (fun acc d => acc ||| reachVec d) 0

/-- The boards on which some call loops. -/
def parentVec : Nat := (List.range 10).foldl (fun acc d => acc ||| liveVec d (reachVec d)) 0

/-- Turn a 0/1 table into a table of all-zero and all-one fields. -/
def maskVec (V : Nat) : Nat := V * (2 ^ 32 - 1)

/-- The sum over the empty cells `i` of `S` read at the board with the mover's
piece put in cell `i`. -/
def sumStep (level S : Nat) : Nat :=
  (List.range 9).foldl
    (fun acc i => acc + (maskVec (emptyVec i) &&& (S >>> (32 * ((level % 2 + 1) * 4 ^ i))))) 0

/-- Component `k` of a `Stats` value: 0 is `X`, 1 is `O`, anything else `T`. -/
def Stats.get (s : Stats) (k : Nat) : Nat :=
  if k = 0 then s.X else if k = 1 then s.O else s.T

/-- The table of component `k` of the base-case results at `level`. -/
def leafVec (k level : Nat) : Nat :=
  if level > 4 then
    (if (k = 0 ∧ level % 2 ≠ 0) ∨ (k = 1 ∧ level % 2 = 0) then winVec else 0) |||
      (if level = 9 ∧ k ≠ 0 ∧ k ≠ 1 then onesVec ^^^ winVec else 0)
  else 0

/-- The table of component `k` of `walkStats fuel b level` over all boards `b`. -/
def statsVec (k : Nat) : Nat → Nat → Nat
  | 0, _ => 0
  | fuel + 1, level =>
    if level = 9 then leafVec k level
    else if level > 4 then
      leafVec k level ||| (maskVec (onesVec ^^^ winVec) &&& sumStep level (statsVec k fuel (level + 1)))
    else sumStep level (statsVec k fuel (level + 1))

/-- The predicate `Ind V P`: the table `V` holds 1 in the fields of the boards
satisfying `P` and 0 in all others. -/
def Ind (V : Nat) (P : Nat → Prop) : Prop :=
  ∀ j, V.testBit j = true ↔ (j % 32 = 0 ∧ P (j / 32))

/-- The predicate `Val V f`: field `b` of the table `V` holds `f b` for every
board `b`, and nothing is set beyond the last board. -/
def Val (V : Nat) (f : Nat → Nat) : Prop :=
  ∀ j, V.testBit j = (decide (j / 32 < 2 ^ 18) && (f (j / 32)).testBit (j % 32))

/-- Some triple of `stensils` holds piece `q` in its three cells. -/
def ownsLine (b q : Nat) : Prop :=
  ∃ t ∈ stensils, getSlot b t.1 = q ∧ getSlot b t.2.1 = q ∧ getSlot b t.2.2 = q

/-! ### The structure built by `Walk` -/

/-- The structure that `Walk` returns, in closed form. -/
def walked : Computer :=
  ⟨applyEdges ∅ (edges 10 0 0), (applyRecs ∅ (recs 10 0 0)).insert 0 (walkStats 10 0 0)⟩

/-! ### The children list of one board -/

/-- What the calls exactly `d` levels below `walkRecurse(current, level)` append
to `tree[k]`, in execution order. -/
def nextAt (k : Nat) : Nat → Nat → Nat → List Nat
  | 0, current, level =>
    if current = k ∧ ¬ terminalAt current level then moves current level else []
  | d + 1, current, level =>
    if terminalAt current level then []
    else (moves current level).flatMap fun next => nextAt k d next ((level + 1) % 2 ^ 32)

/-- The cells `x`, `y`, `z` of `b` hold one and the same non-zero value. -/
def sameNonZero (b x y z : Nat) : Prop :=
  ∃ v, v ≠ 0 ∧ getSlot b x = v ∧ getSlot b y = v ∧ getSlot b z = v

/-- The structure of the serialization test: one tree entry, two statistics
entries. -/
def sampleComputer : Computer :=
  { tree := (∅ : AList (fun _ : Nat => List Nat)).insert 123 [50, 50]
    statsMap := ((∅ : AList (fun _ : Nat => Stats)).insert 123 ⟨1, 9, 8⟩).insert 69 ⟨1, 6, 9⟩ }

/-! ## Truncated input -/

/-- The result is one of the two end-of-input errors of `io.ReadFull`. -/
def EndOfInput {α : Type} (x : Except Abort α) : Prop :=
  x = .error (.err .EOF) ∨ x = .error (.err .ErrUnexpectedEOF)

/-! ## Text codec -/

/-- Go `utf8.RuneError`, the rune U+FFFD that stands for an invalid encoding. -/
def RuneError : Int := 0xFFFD

/-- The table `first` of Go package `unicode/utf8` for a non-ASCII lead byte:
`none` for a byte that starts no encoding, otherwise the length of the encoding
and the accepted range of its second byte. -/
def firstByte (b : Nat) : Option (Nat × Nat × Nat) :=
  if b < 0xC2 then none
  else if b ≤ 0xDF then some (2, 0x80, 0xBF)
  else if b = 0xE0 then some (3, 0xA0, 0xBF)
  else if b = 0xED then some (3, 0x80, 0x9F)
  else if b ≤ 0xEF then some (3, 0x80, 0xBF)
  else if b = 0xF0 then some (4, 0x90, 0xBF)
  else if b ≤ 0xF3 then some (4, 0x80, 0xBF)
  else if b = 0xF4 then some (4, 0x80, 0x8F)
  else none

/-- Model of `utf8.DecodeRuneInString`, which is also one step of a `range`
loop over a string: the first rune of the bytes and its width. An invalid or
short encoding gives `RuneError` with width 1. The masks and shifts of Go are
written with `%`, `*` and `+`. -/
def decodeRune : List Nat → Int × Nat
  | [] => (RuneError, 0)
  | s0 :: t =>
    if s0 < 0x80 then ((s0 : Int), 1)
    else
      match firstByte s0 with
      | none => (RuneError, 1)
      | some (sz, lo, hi) =>
        if t.length + 1 < sz then (RuneError, 1)
        else
          match t with
          | [] => (RuneError, 1)
          | s1 :: t =>
            if s1 < lo ∨ hi < s1 then (RuneError, 1)
            else if sz ≤ 2 then (((s0 % 32 * 64 + s1 % 64 : Nat) : Int), 2)
            else
              match t with
              | [] => (RuneError, 1)
              | s2 :: t =>
                if s2 < 0x80 ∨ 0xBF < s2 then (RuneError, 1)
                else if sz ≤ 3 then
                  (((s0 % 16 * 4096 + s1 % 64 * 64 + s2 % 64 : Nat) : Int), 3)
                else
                  match t with
                  | [] => (RuneError, 1)
                  | s3 :: _ =>
                    if s3 < 0x80 ∨ 0xBF < s3 then (RuneError, 1)
                    else
                      (((s0 % 8 * 262144 + s1 % 64 * 4096 + s2 % 64 * 64 + s3 % 64 : Nat) : Int),
                        4)

/-- The runes that a `range` loop over the string `s` yields, the first
argument bounding the number of iterations. -/
def runesFrom : Nat → List Nat → List Int
  | 0, _ => []
  | fuel + 1, s =>
    if s = [] then []
    else (decodeRune s).1 :: runesFrom fuel (s.drop (decodeRune s).2)

/-- The runes of a string: every iteration consumes at least one byte, so the
length of the string bounds the number of iterations (`runesFrom_fuel`). -/
def runes (s : List Nat) : List Int :=
  runesFrom s.length s

/-- Model of `utf8.RuneCountInString`: the number of runes of the string, an
invalid or short encoding counting as one rune of width 1. -/
def RuneCountInString (s : List Nat) : Nat :=
  (runes s).length

/-- Model of the UTF-8 encoding of one rune in the conversion `string(s)` of a
`[]rune`: a rune outside the Unicode range or in the surrogate range is written
as `RuneError`. -/
def encodeRune (r : Int) : List Nat :=
  if 0 ≤ r ∧ r ≤ 0x7F then [r.toNat]
  else if 0 ≤ r ∧ r ≤ 0x7FF then [0xC0 + r.toNat / 64, 0x80 + r.toNat % 64]
  else if r < 0 ∨ 0x10FFFF < r ∨ (0xD800 ≤ r ∧ r ≤ 0xDFFF) then [0xEF, 0xBF, 0xBD]
  else if r ≤ 0xFFFF then
    [0xE0 + r.toNat / 4096, 0x80 + r.toNat / 64 % 64, 0x80 + r.toNat % 64]
  else
    [0xF0 + r.toNat / 262144, 0x80 + r.toNat / 4096 % 64, 0x80 + r.toNat / 64 % 64,
      0x80 + r.toNat % 64]

/-- Model of the conversion `string(s)` of a `[]rune`. -/
def stringOfRunes (rs : List Int) : List Nat :=
  rs.flatMap encodeRune

/-- Go `utf8.ValidRune`: a code point that UTF-8 can encode, that is, one in
the Unicode range and outside the surrogate range. -/
def ValidRune (r : Int) : Prop :=
  (0 ≤ r ∧ r < 0xD800) ∨ (0xDFFF < r ∧ r ≤ 0x10FFFF)

instance (r : Int) : Decidable (ValidRune r) := by
  unfold ValidRune; infer_instance

/-- The parameter `seq [3]rune` of `VectorToBoard` and `BoardToVector`. -/
structure Alphabet where
  s0 : Int
  s1 : Int
  s2 : Int
deriving DecidableEq, Repr

/-- The index expression `seq[c]` on a `[3]rune`: `none` stands for the
run-time panic "index out of range". -/
def Alphabet.index (seq : Alphabet) (c : Nat) : Option Int :=
  match c with
  | 0 => some seq.s0
  | 1 => some seq.s1
  | 2 => some seq.s2
  | _ => none

/-- The rune `c` is one of the three symbols of the alphabet. -/
def Alphabet.Has (seq : Alphabet) (c : Int) : Prop :=
  c = seq.s0 ∨ c = seq.s1 ∨ c = seq.s2

instance (seq : Alphabet) (c : Int) : Decidable (seq.Has c) := by
  unfold Alphabet.Has; infer_instance

/-- The errors of `VectorToBoard`: `ErrLength`, and `ErrIllegalChar` wrapped by
`fmt.Errorf("at position %v: %w", i, ErrIllegalChar)`. -/
inductive TextError where
  | ErrLength
  | illegalChar (position : Nat)
deriving DecidableEq, Repr

/-- The loop `for _, c := range s` of `VectorToBoard` over the runes still to
come, with the counter `i` and the board built so far. -/
def vectorLoop (seq : Alphabet) : List Int → Nat → Nat → Nat × Option TextError
  | [], _, board => (board, none)
  | c :: cs, i, board =>
    if c = seq.s0 then vectorLoop seq cs (i + 1) board
    else if c = seq.s1 then vectorLoop seq cs (i + 1) (putSlot board i 1)
    else if c = seq.s2 then vectorLoop seq cs (i + 1) (putSlot board i 2)
    else (0, some (.illegalChar i))

/-- Source `VectorToBoard(s, seq)`, returning the pair `(board, error)`. -/
def VectorToBoard (s : List Nat) (seq : Alphabet) : Nat × Option TextError :=
  if RuneCountInString s ≠ 9 then (0, some .ErrLength)
  else vectorLoop seq (runes s) 0 0

/-- Source `BoardToVector(board, seq)`: the string of the nine runes
`seq[getSlot(board, i)]`, or `none` when an index expression panics. -/
def BoardToVector (board : Nat) (seq : Alphabet) : Option (List Nat) :=
  ((List.range 9).mapM fun i => seq.index (getSlot board i)).map stringOfRunes

/-- The cell value that `VectorToBoard` writes for a rune of the alphabet. -/
def cellCode (seq : Alphabet) (c : Int) : Nat :=
  if c = seq.s0 then 0 else if c = seq.s1 then 1 else 2

/-! ## A children list longer than an `int32` -/

/-- A structure with no statistics and the one tree entry `0 ↦ children`. -/
def singleNode (children : List Nat) : Computer :=
  { tree := (∅ : AList (fun _ : Nat => List Nat)).insert 0 children
    statsMap := ∅ }

/-- A structure with no statistics and one tree node, board 0, whose children
list holds `2 ^ 32` entries, all of them board 0. -/
def wrappedChildren : Computer :=
  singleNode (List.replicate (2 ^ 32) 0)

/-! # Theorems -/

theorem shl_one (n : Nat) : n <<< 1 = 2 * n := by
  simp [Nat.shiftLeft_eq, Nat.mul_comm]

theorem testBit_three (j : Nat) : Nat.testBit 3 j = decide (j < 2) := by
  have : (3 : Nat) = 2 ^ 2 - 1 := by norm_num
  rw [this, Nat.testBit_two_pow_sub_one]

theorem testBit_of_lt_four {p : Nat} (hp : p < 4) {j : Nat} (hj : 2 ≤ j) :
    p.testBit j = false := by
  apply Nat.testBit_eq_false_of_lt
  calc p < 2 ^ 2 := by simpa using hp
    _ ≤ 2 ^ j := Nat.pow_le_pow_right (by norm_num) hj

theorem testBit_getSlot (b i k : Nat) :
    (getSlot b i).testBit k = (decide (k < 2) && b.testBit (2 * i + k)) := by
  unfold getSlot
  rw [shl_one, Nat.testBit_land, Nat.testBit_shiftRight, testBit_three, Bool.and_comm]

theorem testBit_putSlot (b i p k : Nat) (hb : b < 2 ^ 32) (hi : i ≤ 15) (hp : p < 4) :
    (putSlot b i p).testBit k =
      if k = 2 * i then p.testBit 0 else if k = 2 * i + 1 then p.testBit 1 else b.testBit k := by
  unfold putSlot
  rw [shl_one, Nat.testBit_lor, Nat.testBit_land, Nat.testBit_xor, Nat.testBit_mod_two_pow,
    Nat.testBit_mod_two_pow, Nat.testBit_shiftLeft, Nat.testBit_shiftLeft,
    Nat.testBit_two_pow_sub_one, testBit_three]
  by_cases h32 : k < 32
  · by_cases h0 : k = 2 * i
    · subst h0; simp [h32]
    · by_cases h1 : k = 2 * i + 1
      · subst h1; simp [h32]
      · simp only [h0, h1, if_false]
        by_cases hk : 2 * i ≤ k
        · have h2 : 2 ≤ k - 2 * i := by omega
          have h3 : ¬ (k - 2 * i < 2) := by omega
          simp [h32, hk, h3, testBit_of_lt_four hp h2]
        · simp [h32, hk]
  · have hbk : b.testBit k = false :=
      Nat.testBit_eq_false_of_lt (lt_of_lt_of_le hb (Nat.pow_le_pow_right (by norm_num) (by omega)))
    have h0 : k ≠ 2 * i := by omega
    have h1 : k ≠ 2 * i + 1 := by omega
    simp [h32, hbk, h0, h1]

theorem putSlot_lt (b i p : Nat) (hb : b < 2 ^ 32) : putSlot b i p < 2 ^ 32 := by
  unfold putSlot
  apply Nat.or_lt_two_pow
  · exact lt_of_le_of_lt Nat.and_le_left hb
  · exact Nat.mod_lt _ (by norm_num)

theorem getSlot_lt (b i : Nat) : getSlot b i < 4 := by
  unfold getSlot
  exact lt_of_le_of_lt Nat.and_le_right (by norm_num)

theorem getSlot_putSlot_same (b i p : Nat) (hb : b < 2 ^ 32) (hi : i ≤ 15) (hp : p < 4) :
    getSlot (putSlot b i p) i = p := by
  apply Nat.eq_of_testBit_eq
  intro k
  rw [testBit_getSlot, testBit_putSlot b i p _ hb hi hp]
  by_cases hk : k < 2
  · have : k = 0 ∨ k = 1 := by omega
    rcases this with rfl | rfl <;> simp
  · simp [hk, testBit_of_lt_four hp (by omega : 2 ≤ k)]

theorem getSlot_putSlot_other (b i p j : Nat) (hb : b < 2 ^ 32) (hi : i ≤ 15) (hp : p < 4)
    (hj : j ≠ i) : getSlot (putSlot b i p) j = getSlot b j := by
  apply Nat.eq_of_testBit_eq
  intro k
  rw [testBit_getSlot, testBit_getSlot, testBit_putSlot b i p _ hb hi hp]
  by_cases hk : k < 2
  · have h0 : 2 * j + k ≠ 2 * i := by omega
    have h1 : 2 * j + k ≠ 2 * i + 1 := by omega
    simp [h0, h1]
  · simp [hk]

/-- C7. For every 32-bit board `b`, cell `i` in 0..8 and piece `p` in 0..3:
reading cell `i` of `putSlot b i p` gives `p`, every other cell `j` in 0..8 reads
as in `b`, and `putSlot b i p` agrees with `b` on every bit other than bits `2i`
and `2i + 1`. -/
theorem putSlot_getSlot_spec (b i p : Nat) (hb : b < 2 ^ 32) (hi : i ≤ 8) (hp : p ≤ 3) :
    getSlot (putSlot b i p) i = p ∧
    (∀ j, j ≤ 8 → j ≠ i → getSlot (putSlot b i p) j = getSlot b j) ∧
    (∀ k, k ≠ 2 * i → k ≠ 2 * i + 1 → (putSlot b i p).testBit k = b.testBit k) := by
  refine ⟨getSlot_putSlot_same b i p hb (by omega) (by omega), ?_, ?_⟩
  · intro j _ hj
    exact getSlot_putSlot_other b i p j hb (by omega) (by omega) hj
  · intro k h0 h1
    rw [testBit_putSlot b i p k hb (by omega) (by omega)]
    simp [h0, h1]

theorem toInt32_of_lt {n : Nat} (h : n < 2 ^ 31) : toInt32 n = (n : Int) := by
  unfold toInt32
  have : (n + 2 ^ 31) % 2 ^ 32 = n + 2 ^ 31 := Nat.mod_eq_of_lt (by omega)
  rw [this]
  push_cast
  ring

theorem foldlM_buffer {ε : Type} (f : List Nat → Nat → Except ε (List Nat))
    (g : Nat → List Nat) (l : List Nat)
    (h : ∀ k ∈ l, ∀ s, f s k = .ok (s ++ g k)) (buf : List Nat) :
    l.foldlM f buf = .ok (buf ++ l.flatMap g) := by
  induction l generalizing buf with
  | nil => simp [pure, Except.pure]
  | cons a t ih =>
    simp only [List.foldlM, bind, Except.bind]
    rw [h a (List.mem_cons_self _ _)]
    simp only []
    rw [ih (fun k hk => h k (List.mem_cons_of_mem _ hk))]
    simp

theorem mem_sortKeys {ks : List Nat} {k : Nat} : k ∈ sortKeys ks ↔ k ∈ ks :=
  (List.perm_insertionSort (· ≤ ·) ks).mem_iff

theorem serialize_buffer (ε : Type) (c : Computer) (buf : List Nat)
    (hs : c.statsMap.keys.length < 2 ^ 31) (ht : c.tree.keys.length < 2 ^ 31)
    (hc : ∀ node ∈ c.tree.keys, (c.Next node).length < 2 ^ 31) :
    c.Serialize (bufferWriter ε) buf =
      .ok (buf ++ fileLayout c (sortKeys c.statsMap.keys) (sortKeys c.tree.keys)) := by
  unfold Computer.Serialize
  simp only [bufferWriter, bind, Except.bind]
  rw [foldlM_buffer _ (statsRecord c) _ (fun k _ s => by simp [statsRecord, Stats.bytes])]
  simp only []
  rw [foldlM_buffer _ (treeRecord c) _ (fun k hk s => by
    simp [treeRecord, toInt32_of_lt (hc k (mem_sortKeys.mp hk))])]
  simp [fileLayout, toInt32_of_lt hs, toInt32_of_lt ht, magic]

theorem sortKeys_sorted_lt {ks : List Nat} (h : ks.Nodup) : (sortKeys ks).Sorted (· < ·) :=
  (List.sorted_insertionSort (· ≤ ·) ks).lt_of_le
    ((List.perm_insertionSort (· ≤ ·) ks).nodup_iff.mpr h)

theorem sortKeys_perm {ks ks' : List Nat} (h : ks.Perm ks') : sortKeys ks = sortKeys ks' :=
  List.eq_of_perm_of_sorted
    (((List.perm_insertionSort (· ≤ ·) ks).trans h).trans (List.perm_insertionSort (· ≤ ·) ks').symm)
    (List.sorted_insertionSort (· ≤ ·) ks) (List.sorted_insertionSort (· ≤ ·) ks')

theorem keys_perm {β : Type} {m m' : AList (fun _ : Nat => β)} (h : m'.entries.Perm m.entries) :
    m'.keys.Perm m.keys := by
  unfold AList.keys List.keys
  exact h.map _

theorem serialize_perm {σ ε : Type} (c c' : Computer) (w : Writer σ ε) (s : σ)
    (hs : c'.statsMap.entries.Perm c.statsMap.entries)
    (ht : c'.tree.entries.Perm c.tree.entries) :
    c'.Serialize w s = c.Serialize w s := by
  have e1 : c'.statsMap.keys.length = c.statsMap.keys.length := (keys_perm hs).length_eq
  have e2 : c'.tree.keys.length = c.tree.keys.length := (keys_perm ht).length_eq
  have e3 : sortKeys c'.statsMap.keys = sortKeys c.statsMap.keys := sortKeys_perm (keys_perm hs)
  have e4 : sortKeys c'.tree.keys = sortKeys c.tree.keys := sortKeys_perm (keys_perm ht)
  have e5 : c'.Stats = c.Stats := by
    funext k; unfold Computer.Stats; rw [AList.perm_lookup hs]
  have e6 : c'.Next = c.Next := by
    funext k; unfold Computer.Next; rw [AList.perm_lookup ht]
  unfold Computer.Serialize
  rw [e1, e2, e3, e4, e5, e6]

/-- C9. For a structure with fewer than 2^31 entries in each map and in each
children list, `Serialize` on a buffer returns no error and appends exactly the
layout: int32 count of statistics entries, int32 count of tree entries, the
8-byte magic, one record per statistics key in strictly ascending order, one
record per tree key in strictly ascending order with the children in stored
order. The key lists are fixed by being ascending and holding exactly the keys,
and two structures whose maps list the same entries in different orders write
the same bytes. -/
theorem serialize_layout (ε : Type) (c : Computer) (buf : List Nat)
    (hs : c.statsMap.keys.length < 2 ^ 31) (ht : c.tree.keys.length < 2 ^ 31)
    (hc : ∀ node ∈ c.tree.keys, (c.Next node).length < 2 ^ 31) :
    ∃ statsKeys treeKeys : List Nat,
      statsKeys.Sorted (· < ·) ∧ (∀ k, k ∈ statsKeys ↔ k ∈ c.statsMap.keys) ∧
      treeKeys.Sorted (· < ·) ∧ (∀ k, k ∈ treeKeys ↔ k ∈ c.tree.keys) ∧
      c.Serialize (bufferWriter ε) buf = .ok (buf ++ fileLayout c statsKeys treeKeys) ∧
      ∀ c' : Computer, c'.statsMap.entries.Perm c.statsMap.entries →
        c'.tree.entries.Perm c.tree.entries →
        c'.Serialize (bufferWriter ε) buf = c.Serialize (bufferWriter ε) buf :=
  ⟨sortKeys c.statsMap.keys, sortKeys c.tree.keys,
    sortKeys_sorted_lt c.statsMap.keys_nodup, fun _ => mem_sortKeys,
    sortKeys_sorted_lt c.tree.keys_nodup, fun _ => mem_sortKeys,
    serialize_buffer ε c buf hs ht hc,
    fun c' h1 h2 => serialize_perm c c' _ buf h1 h2⟩

theorem beValue_be32 {v : Nat} (h : v < 2 ^ 32) : beValue (be32 v) = v := by
  simp only [beValue, be32, List.foldl]
  omega

theorem beValue_be64 {v : Nat} (h : v < 2 ^ 64) : beValue (be64 v) = v := by
  simp only [beValue, be64, List.foldl]
  omega

theorem readUint32_be32 {v : Nat} (h : v < 2 ^ 32) (rest : List Nat) :
    readUint32 (be32 v ++ rest) = .ok (v, rest) := by
  have hl : (be32 v).length = 4 := rfl
  have h1 : readFull 4 (be32 v ++ rest) = .ok (be32 v, rest) := by
    unfold readFull
    rw [if_pos (by simp [hl])]
    simp [be32]
  simp [readUint32, h1, bind, Except.bind, pure, Except.pure, beValue_be32 h]

theorem readInt32_beInt32 {n : Nat} (h : n < 2 ^ 31) (rest : List Nat) :
    readInt32 (beInt32 (n : Int) ++ rest) = .ok ((n : Int), rest) := by
  have e : ((n : Int) % 2 ^ 32).toNat = n := by omega
  have hl : (be32 n).length = 4 := rfl
  have h1 : readFull 4 (be32 n ++ rest) = .ok (be32 n, rest) := by
    unfold readFull
    rw [if_pos (by simp [hl])]
    simp [be32]
  unfold readInt32 beInt32
  rw [e, h1]
  simp only [bind, Except.bind, pure, Except.pure, beValue_be32 (show n < 2 ^ 32 by omega)]
  rw [if_pos h]

theorem readUint64_magic (rest : List Nat) :
    readUint64 (be64 0xB5DEAD0115145103 ++ rest) = .ok (magic, rest) := by
  have h1 : readFull 8 (be64 0xB5DEAD0115145103 ++ rest) =
      .ok (be64 0xB5DEAD0115145103, rest) := by
    unfold readFull
    rw [if_pos (by simp [be64])]
    simp [be64]
  unfold readUint64
  rw [h1]
  simp only [bind, Except.bind, pure, Except.pure]
  rw [beValue_be64 (by norm_num)]
  rfl

theorem readStats_bytes (v : Stats) (hX : v.X < 2 ^ 32) (hO : v.O < 2 ^ 32) (hT : v.T < 2 ^ 32)
    (rest : List Nat) :
    readStats (be32 v.X ++ be32 v.O ++ be32 v.T ++ rest) = .ok (v, rest) := by
  have h1 : readFull 12 (be32 v.X ++ be32 v.O ++ be32 v.T ++ rest) =
      .ok (be32 v.X ++ be32 v.O ++ be32 v.T, rest) := by
    unfold readFull
    rw [if_pos (by simp [be32])]
    simp [be32]
  have e1 : (be32 v.X ++ be32 v.O ++ be32 v.T).take 4 = be32 v.X := by simp [be32]
  have e2 : ((be32 v.X ++ be32 v.O ++ be32 v.T).drop 4).take 4 = be32 v.O := by simp [be32]
  have e3 : (be32 v.X ++ be32 v.O ++ be32 v.T).drop 8 = be32 v.T := by simp [be32]
  simp only [readStats, h1, bind, Except.bind, pure, Except.pure, e1, e2, e3,
    beValue_be32 hX, beValue_be32 hO, beValue_be32 hT]

theorem readChildren_flatMap (l : List Nat) (hl : ∀ x ∈ l, x < 2 ^ 32) (acc rest : List Nat) :
    readChildren l.length acc (l.flatMap be32 ++ rest) = .ok (acc ++ l, rest) := by
  induction l generalizing acc with
  | nil => simp [readChildren]
  | cons a t ih =>
    simp only [List.length_cons, readChildren, List.flatMap_cons, List.append_assoc]
    rw [readUint32_be32 (hl a (List.mem_cons_self _ _))]
    simp only [bind, Except.bind]
    rw [ih (fun x hx => hl x (List.mem_cons_of_mem _ hx))]
    simp

theorem lookup_foldl_insert {β : Type} (f : Nat → β) (l : List Nat)
    (m : AList (fun _ : Nat => β)) (k : Nat) :
    (l.foldl (fun m k => m.insert k (f k)) m).lookup k =
      if k ∈ l then some (f k) else m.lookup k := by
  induction l generalizing m with
  | nil => simp
  | cons a t ih =>
    rw [List.foldl_cons, ih]
    by_cases hk : k ∈ t
    · simp [hk]
    · by_cases hka : k = a
      · subst hka; simp [hk]
      · simp [hk, hka, AList.lookup_insert_ne hka]

theorem stats_lt_of_wellTyped {c : Computer} (h : c.WellTyped) (k : Nat) :
    (k ∈ c.statsMap.keys → k < 2 ^ 32) ∧
      (c.Stats k).X < 2 ^ 32 ∧ (c.Stats k).O < 2 ^ 32 ∧ (c.Stats k).T < 2 ^ 32 := by
  unfold Computer.Stats
  cases hl : c.statsMap.lookup k with
  | none =>
    refine ⟨fun hk => ?_, by simp, by simp, by simp⟩
    exact absurd (AList.mem_keys.mpr hk) (AList.lookup_eq_none.mp hl)
  | some v =>
    have hm : (⟨k, v⟩ : Sigma fun _ : Nat => Stats) ∈ c.statsMap.entries :=
      AList.mem_lookup_iff.mp hl
    have := h.1 _ hm
    exact ⟨fun _ => this.1, this.2⟩

theorem next_lt_of_wellTyped {c : Computer} (h : c.WellTyped) (k : Nat) :
    (k ∈ c.tree.keys → k < 2 ^ 32) ∧ ∀ child ∈ c.Next k, child < 2 ^ 32 := by
  unfold Computer.Next
  cases hl : c.tree.lookup k with
  | none =>
    refine ⟨fun hk => ?_, by simp⟩
    exact absurd (AList.mem_keys.mpr hk) (AList.lookup_eq_none.mp hl)
  | some v =>
    have hm : (⟨k, v⟩ : Sigma fun _ : Nat => List Nat) ∈ c.tree.entries :=
      AList.mem_lookup_iff.mp hl
    have := h.2 _ hm
    exact ⟨fun _ => this.1, this.2⟩

theorem readStatsEntries_flatMap (c : Computer) (hw : c.WellTyped) (l : List Nat)
    (hl : ∀ k ∈ l, k ∈ c.statsMap.keys) (m : AList (fun _ : Nat => Stats)) (rest : List Nat) :
    readStatsEntries l.length m (l.flatMap (statsRecord c) ++ rest) =
      .ok (l.foldl (fun m k => m.insert k (c.Stats k)) m, rest) := by
  induction l generalizing m with
  | nil => simp [readStatsEntries]
  | cons a t ih =>
    have ha := stats_lt_of_wellTyped hw a
    simp only [List.length_cons, readStatsEntries, List.flatMap_cons, statsRecord,
      List.append_assoc]
    rw [readUint32_be32 (ha.1 (hl a (List.mem_cons_self _ _)))]
    simp only [bind, Except.bind]
    have := readStats_bytes (c.Stats a) ha.2.1 ha.2.2.1 ha.2.2.2
      (t.flatMap (statsRecord c) ++ rest)
    simp only [List.append_assoc] at this
    rw [this]
    simp only []
    have := ih (fun k hk => hl k (List.mem_cons_of_mem _ hk)) (m.insert a (c.Stats a))
    simp only [statsRecord, List.append_assoc] at this
    rw [this, List.foldl_cons]

theorem readTreeEntries_flatMap (c : Computer) (hw : c.WellTyped) (l : List Nat)
    (hl : ∀ k ∈ l, k ∈ c.tree.keys) (hc : ∀ k ∈ l, (c.Next k).length < 2 ^ 31)
    (m : AList (fun _ : Nat => List Nat)) (rest : List Nat) :
    readTreeEntries l.length m (l.flatMap (treeRecord c) ++ rest) =
      .ok (l.foldl (fun m k => m.insert k (c.Next k)) m, rest) := by
  induction l generalizing m with
  | nil => simp [readTreeEntries]
  | cons a t ih =>
    have ha := next_lt_of_wellTyped hw a
    simp only [List.length_cons, readTreeEntries, List.flatMap_cons, treeRecord,
      List.append_assoc]
    rw [readUint32_be32 (ha.1 (hl a (List.mem_cons_self _ _)))]
    simp only [bind, Except.bind]
    rw [readInt32_beInt32 (hc a (List.mem_cons_self _ _))]
    simp only []
    rw [if_neg (by omega)]
    simp only [Int.toNat_ofNat]
    rw [readChildren_flatMap _ ha.2]
    simp only [List.nil_append]
    have := ih (fun k hk => hl k (List.mem_cons_of_mem _ hk))
      (fun k hk => hc k (List.mem_cons_of_mem _ hk)) (m.insert a (c.Next a))
    simp only [treeRecord, List.append_assoc] at this
    rw [this, List.foldl_cons]

theorem length_sortKeys (ks : List Nat) : (sortKeys ks).length = ks.length :=
  (List.perm_insertionSort (· ≤ ·) ks).length_eq

/-- C10. For a structure of `uint32` keys, counters and children with fewer
than 2^31 entries in each map and in each children list, `Serialize` on an empty
buffer succeeds and `Deserialize` of the bytes written returns no error and a
structure whose two maps hold the same keys with the same values: equal `Stats`
triples and equal children lists, in the same order. -/
theorem deserialize_serialize (ε : Type) (c : Computer) (hw : c.WellTyped)
    (hs : c.statsMap.keys.length < 2 ^ 31) (ht : c.tree.keys.length < 2 ^ 31)
    (hc : ∀ node ∈ c.tree.keys, (c.Next node).length < 2 ^ 31) :
    ∃ (file : List Nat) (c' : Computer),
      c.Serialize (bufferWriter ε) [] = .ok file ∧
      Deserialize file = .returned c' none ∧
      (∀ k, c'.statsMap.lookup k = c.statsMap.lookup k) ∧
      (∀ k, c'.tree.lookup k = c.tree.lookup k) := by
  refine ⟨_, ⟨(sortKeys c.tree.keys).foldl (fun m k => m.insert k (c.Next k)) ∅,
    (sortKeys c.statsMap.keys).foldl (fun m k => m.insert k (c.Stats k)) ∅⟩,
    serialize_buffer ε c [] hs ht hc, ?_, ?_, ?_⟩
  · have hbody : deserializeBody
        ([] ++ fileLayout c (sortKeys c.statsMap.keys) (sortKeys c.tree.keys)) =
        .ok ⟨(sortKeys c.tree.keys).foldl (fun m k => m.insert k (c.Next k)) ∅,
          (sortKeys c.statsMap.keys).foldl (fun m k => m.insert k (c.Stats k)) ∅⟩ := by
      unfold deserializeBody fileLayout
      simp only [List.nil_append, List.append_assoc]
      rw [readInt32_beInt32 hs]
      simp only [bind, Except.bind]
      rw [readInt32_beInt32 ht]
      simp only []
      rw [readUint64_magic]
      simp only [ne_eq, not_true_eq_false, if_false, Int.toNat_ofNat]
      have h1 := readStatsEntries_flatMap c hw (sortKeys c.statsMap.keys)
        (fun k hk => mem_sortKeys.mp hk) ∅
        ((sortKeys c.tree.keys).flatMap (treeRecord c))
      rw [length_sortKeys] at h1
      rw [h1]
      simp only []
      have h2 := readTreeEntries_flatMap c hw (sortKeys c.tree.keys)
        (fun k hk => mem_sortKeys.mp hk) (fun k hk => hc k (mem_sortKeys.mp hk)) ∅ []
      rw [length_sortKeys, List.append_nil] at h2
      rw [h2]
      rfl
    unfold Deserialize
    rw [hbody]
  · intro k
    simp only [lookup_foldl_insert, mem_sortKeys, AList.lookup_empty]
    by_cases hk : k ∈ c.statsMap.keys
    · rw [if_pos hk]
      obtain ⟨v, hv⟩ := Option.isSome_iff_exists.mp (AList.lookup_isSome.mpr (AList.mem_keys.mpr hk))
      simp [Computer.Stats, hv]
    · rw [if_neg hk]
      exact (AList.lookup_eq_none.mpr (fun h => hk (AList.mem_keys.mp h))).symm
  · intro k
    simp only [lookup_foldl_insert, mem_sortKeys, AList.lookup_empty]
    by_cases hk : k ∈ c.tree.keys
    · rw [if_pos hk]
      obtain ⟨v, hv⟩ := Option.isSome_iff_exists.mp (AList.lookup_isSome.mpr (AList.mem_keys.mpr hk))
      simp [Computer.Next, hv]
    · rw [if_neg hk]
      exact (AList.lookup_eq_none.mpr (fun h => hk (AList.mem_keys.mp h))).symm

theorem foldlM_filterMap {α β γ : Type} (h : α → Option β) (F : γ → β → Option γ)
    (l : List α) (init : γ) :
    l.foldlM (fun acc a => match h a with | none => some acc | some x => F acc x) init =
      (l.filterMap h).foldlM F init := by
  induction l generalizing init with
  | nil => rfl
  | cons a t ih =>
    cases ha : h a with
    | none => simp [List.filterMap_cons, ha, ih]
    | some x =>
      simp only [List.foldlM, List.filterMap_cons, ha]
      cases F init x with
      | none => rfl
      | some y => simp [ih]

theorem walkRecurse_succ (fuel : Nat) (c : Computer) (current level : Nat) :
    walkRecurse (fuel + 1) c current level =
      if level > 4 ∧ hasWinner current = true then
        if level % 2 = 0 then some (⟨0, 1, 0⟩, c) else some (⟨1, 0, 0⟩, c)
      else if level = 9 then some (⟨0, 0, 1⟩, c)
      else (moves current level).foldlM (walkStep fuel current level) (⟨0, 0, 0⟩, c) := by
  rw [walkRecurse]
  split
  · rfl
  · split
    · rfl
    · unfold moves
      rw [← foldlM_filterMap]
      congr 1
      funext acc i
      by_cases h : getSlot current i ≠ 0
      · simp [h]
      · simp only [h, if_false]
        rfl

theorem applyEdges_append (t : AList (fun _ : Nat => List Nat)) (e1 e2 : List (Nat × Nat)) :
    applyEdges t (e1 ++ e2) = applyEdges (applyEdges t e1) e2 := by
  simp [applyEdges, List.foldl_append]

theorem applyRecs_append (m : AList (fun _ : Nat => Stats)) (r1 r2 : List (Nat × Stats)) :
    applyRecs m (r1 ++ r2) = applyRecs (applyRecs m r1) r2 := by
  simp [applyRecs, List.foldl_append]

theorem walkFold_eq (fuel current level : Nat)
    (ih : ∀ (c : Computer) (next : Nat),
      walkRecurse fuel c next ((level + 1) % 2 ^ 32) =
        some (walkStats fuel next ((level + 1) % 2 ^ 32),
          ⟨applyEdges c.tree (edges fuel next ((level + 1) % 2 ^ 32)),
            applyRecs c.statsMap (recs fuel next ((level + 1) % 2 ^ 32))⟩))
    (ms : List Nat) (acc : Stats × Computer) :
    ms.foldlM (walkStep fuel current level) acc =
      some (ms.foldl (fun stats next => stats.add (walkStats fuel next ((level + 1) % 2 ^ 32)))
          acc.1,
        ⟨applyEdges acc.2.tree
            (ms.flatMap fun next => (current, next) :: edges fuel next ((level + 1) % 2 ^ 32)),
          applyRecs acc.2.statsMap
            (ms.flatMap fun next => recs fuel next ((level + 1) % 2 ^ 32) ++
              [(next, walkStats fuel next ((level + 1) % 2 ^ 32))])⟩) := by
  induction ms generalizing acc with
  | nil => simp [applyEdges, applyRecs, pure]
  | cons n t iht =>
    rw [List.foldlM_cons]
    have hstep : walkStep fuel current level acc n =
        some (acc.1.add (walkStats fuel n ((level + 1) % 2 ^ 32)),
          ⟨applyEdges acc.2.tree ((current, n) :: edges fuel n ((level + 1) % 2 ^ 32)),
            applyRecs acc.2.statsMap (recs fuel n ((level + 1) % 2 ^ 32) ++
              [(n, walkStats fuel n ((level + 1) % 2 ^ 32))])⟩) := by
      unfold walkStep
      rw [ih]
      simp only [applyRecs_append]
      rfl
    rw [hstep]
    simp only [Option.bind_eq_bind, Option.some_bind]
    rw [iht]
    simp only [List.foldl_cons, List.flatMap_cons]
    rw [← applyEdges_append, ← applyRecs_append]

/-- The result of `walkRecurse`, in closed form. -/
theorem walkRecurse_eq (fuel : Nat) (c : Computer) (current level : Nat)
    (hl : level ≤ 9) (hf : 10 ≤ fuel + level) :
    walkRecurse fuel c current level =
      some (walkStats fuel current level,
        ⟨applyEdges c.tree (edges fuel current level),
          applyRecs c.statsMap (recs fuel current level)⟩) := by
  induction fuel generalizing c current level with
  | zero => omega
  | succ fuel ih =>
    rw [walkRecurse_succ, walkStats, edges, recs]
    by_cases hw : level > 4 ∧ hasWinner current = true
    · have ht : terminalAt current level := Or.inl hw
      simp only [hw, ht, and_self, if_true]
      split <;> rfl
    · by_cases h9 : level = 9
      · have ht : terminalAt current level := Or.inr h9
        rw [if_neg hw, if_neg hw, if_pos h9, if_pos h9, if_pos ht, if_pos ht]
        rfl
      · have ht : ¬ terminalAt current level := fun h => h.elim hw h9
        simp only [hw, ht, h9, if_false]
        have hm : (level + 1) % 2 ^ 32 = level + 1 := Nat.mod_eq_of_lt (by omega)
        rw [walkFold_eq fuel current level (fun c next => by
          rw [hm]; exact ih c next (level + 1) (by omega) (by omega))]

/-! ### Replaying assignments and appends -/

theorem mem_applyRecs (m : AList (fun _ : Nat => Stats)) (rs : List (Nat × Stats)) (k : Nat) :
    k ∈ applyRecs m rs ↔ k ∈ m ∨ ∃ r ∈ rs, r.1 = k := by
  induction rs generalizing m with
  | nil => simp [applyRecs]
  | cons r t ih =>
    have : applyRecs m (r :: t) = applyRecs (m.insert r.1 r.2) t := rfl
    rw [this, ih, AList.mem_insert]
    constructor
    · rintro ((h | h) | ⟨x, hx, h⟩)
      · exact Or.inr ⟨r, List.mem_cons_self _ _, h.symm⟩
      · exact Or.inl h
      · exact Or.inr ⟨x, List.mem_cons_of_mem _ hx, h⟩
    · rintro (h | ⟨x, hx, h⟩)
      · exact Or.inl (Or.inr h)
      · rcases List.mem_cons.mp hx with rfl | hx
        · exact Or.inl (Or.inl h.symm)
        · exact Or.inr ⟨x, hx, h⟩

theorem lookup_applyRecs (m : AList (fun _ : Nat => Stats)) (rs : List (Nat × Stats))
    (k : Nat) (v : Stats) (h : (applyRecs m rs).lookup k = some v) :
    m.lookup k = some v ∨ (k, v) ∈ rs := by
  induction rs generalizing m with
  | nil => exact Or.inl h
  | cons r t ih =>
    have e : applyRecs m (r :: t) = applyRecs (m.insert r.1 r.2) t := rfl
    rw [e] at h
    rcases ih _ h with h1 | h1
    · by_cases hk : k = r.1
      · subst hk
        rw [AList.lookup_insert] at h1
        right
        have : r.2 = v := Option.some.inj h1
        rw [← this]
        exact List.mem_cons_self _ _
      · rw [AList.lookup_insert_ne hk] at h1
        exact Or.inl h1
    · exact Or.inr (List.mem_cons_of_mem _ h1)

theorem mem_applyEdges (t : AList (fun _ : Nat => List Nat)) (es : List (Nat × Nat)) (k : Nat) :
    k ∈ applyEdges t es ↔ k ∈ t ∨ ∃ e ∈ es, e.1 = k := by
  induction es generalizing t with
  | nil => simp [applyEdges]
  | cons r tl ih =>
    have : applyEdges t (r :: tl) =
        applyEdges (t.insert r.1 ((t.lookup r.1).getD [] ++ [r.2])) tl := rfl
    rw [this, ih, AList.mem_insert]
    constructor
    · rintro ((h | h) | ⟨x, hx, h⟩)
      · exact Or.inr ⟨r, List.mem_cons_self _ _, h.symm⟩
      · exact Or.inl h
      · exact Or.inr ⟨x, List.mem_cons_of_mem _ hx, h⟩
    · rintro (h | ⟨x, hx, h⟩)
      · exact Or.inl (Or.inr h)
      · rcases List.mem_cons.mp hx with rfl | hx
        · exact Or.inl (Or.inl h.symm)
        · exact Or.inr ⟨x, hx, h⟩

theorem lookup_applyEdges (t : AList (fun _ : Nat => List Nat)) (es : List (Nat × Nat))
    (k : Nat) :
    ((applyEdges t es).lookup k).getD [] =
      (t.lookup k).getD [] ++ (es.filter fun e => e.1 = k).map (·.2) := by
  induction es generalizing t with
  | nil => simp [applyEdges]
  | cons r tl ih =>
    have : applyEdges t (r :: tl) =
        applyEdges (t.insert r.1 ((t.lookup r.1).getD [] ++ [r.2])) tl := rfl
    rw [this, ih]
    by_cases hk : r.1 = k
    · subst hk
      simp [AList.lookup_insert]
    · have hk' : k ≠ r.1 := fun h => hk h.symm
      simp [AList.lookup_insert_ne hk', hk]

/-! ### Arithmetic of `putSlot` on an empty cell -/

theorem add_eq_or_of_and_eq_zero (a b : Nat) (h : a &&& b = 0) : a + b = a ||| b := by
  have ha : a < 2 ^ (a + b + 1) := lt_of_lt_of_le (Nat.lt_two_pow a)
    (Nat.pow_le_pow_right (by norm_num) (by omega))
  have hb : b < 2 ^ (a + b + 1) := lt_of_lt_of_le (Nat.lt_two_pow b)
    (Nat.pow_le_pow_right (by norm_num) (by omega))
  have hz : BitVec.ofNat (a + b + 1) a &&& BitVec.ofNat (a + b + 1) b = 0#(a + b + 1) := by
    apply BitVec.eq_of_toNat_eq
    simp [Nat.mod_eq_of_lt ha, Nat.mod_eq_of_lt hb, h]
  have h1 := BitVec.toNat_add_of_and_eq_zero hz
  have h2 := congrArg BitVec.toNat (BitVec.add_eq_or_of_and_eq_zero _ _ hz)
  rw [h1] at h2
  simpa [Nat.mod_eq_of_lt ha, Nat.mod_eq_of_lt hb] using h2

theorem testBit_of_getSlot_eq_zero {b i : Nat} (h : getSlot b i = 0) (k : Nat) (hk : k < 2) :
    b.testBit (2 * i + k) = false := by
  have := testBit_getSlot b i k
  rw [h] at this
  simpa [hk] using this.symm

theorem putSlot_eq_add (b i p : Nat) (hb : b < 2 ^ 32) (hi : i ≤ 15) (hp : p < 4)
    (h : getSlot b i = 0) : putSlot b i p = b + p * 4 ^ i := by
  have e4 : p * 4 ^ i = p <<< (2 * i) := by
    rw [Nat.shiftLeft_eq, Nat.pow_mul]
  rw [e4]
  have hand : b &&& (p <<< (2 * i)) = 0 := by
    apply Nat.eq_of_testBit_eq
    intro k
    rw [Nat.testBit_land, Nat.testBit_shiftLeft, Nat.zero_testBit]
    by_cases hk : 2 * i ≤ k
    · by_cases hk2 : k - 2 * i < 2
      · have := testBit_of_getSlot_eq_zero h (k - 2 * i) hk2
        rw [show 2 * i + (k - 2 * i) = k by omega] at this
        simp [this]
      · simp [testBit_of_lt_four hp (by omega : 2 ≤ k - 2 * i)]
    · simp [hk]
  rw [add_eq_or_of_and_eq_zero _ _ hand]
  apply Nat.eq_of_testBit_eq
  intro k
  rw [testBit_putSlot b i p k hb hi hp, Nat.testBit_lor, Nat.testBit_shiftLeft]
  by_cases h0 : k = 2 * i
  · subst h0
    have := testBit_of_getSlot_eq_zero h 0 (by norm_num)
    simp at this
    simp [this]
  · by_cases h1 : k = 2 * i + 1
    · subst h1
      have := testBit_of_getSlot_eq_zero h 1 (by norm_num)
      simp [this]
    · simp only [h0, h1, if_false]
      by_cases hk : 2 * i ≤ k
      · simp [hk, testBit_of_lt_four hp (by omega : 2 ≤ k - 2 * i)]
      · simp [hk]

theorem putSlot_lt_of_lt (b i p : Nat) (hb : b < 2 ^ 18) (hi : i ≤ 8) (hp : p < 4) :
    putSlot b i p < 2 ^ 18 := by
  apply Nat.lt_pow_two_of_testBit
  intro k hk
  have hb32 : b < 2 ^ 32 := lt_of_lt_of_le hb (by norm_num)
  rw [testBit_putSlot b i p k hb32 (by omega) hp]
  have h0 : k ≠ 2 * i := by omega
  have h1 : k ≠ 2 * i + 1 := by omega
  simp only [h0, h1, if_false]
  exact Nat.testBit_eq_false_of_lt (lt_of_lt_of_le hb (Nat.pow_le_pow_right (by norm_num) hk))

/-! ### `WhichTurn` -/

theorem foldl_count (c : Nat → Prop) [DecidablePred c] (l : List Nat) (a : Nat) :
    l.foldl (fun t i => if c i then t + 1 else t) a = a + l.countP (fun i => decide (c i)) := by
  induction l generalizing a with
  | nil => simp
  | cons x t ih =>
    rw [List.foldl_cons, ih, List.countP_cons]
    by_cases hx : c x
    · simp [hx]; omega
    · simp [hx]

theorem WhichTurn_eq (b : Nat) :
    WhichTurn b = (List.range 9).countP (fun i => decide (getSlot b i ≠ 0)) := by
  unfold WhichTurn
  rw [foldl_count (fun i => getSlot b i ≠ 0)]
  simp

theorem WhichTurn_putSlot (b i p : Nat) (hb : b < 2 ^ 32) (hi : i < 9) (hp : p < 4)
    (hp0 : p ≠ 0) (h : getSlot b i = 0) : WhichTurn (putSlot b i p) = WhichTurn b + 1 := by
  rw [WhichTurn_eq, WhichTurn_eq]
  have hsame := getSlot_putSlot_same b i p hb (by omega) hp
  have hoth := fun j (hj : j ≠ i) => getSlot_putSlot_other b i p j hb (by omega) hp hj
  have e9 : List.range 9 = [0, 1, 2, 3, 4, 5, 6, 7, 8] := by decide
  rw [e9]
  interval_cases i <;> simp [List.countP_cons, hsame, hoth, h, hp0] <;> try omega

theorem WhichTurn_lt_nine_iff (b : Nat) : WhichTurn b < 9 ↔ ∃ i < 9, getSlot b i = 0 := by
  rw [WhichTurn_eq]
  have hlen : (List.range 9).length = 9 := List.length_range 9
  have hle : (List.range 9).countP (fun i => decide (getSlot b i ≠ 0)) ≤ (List.range 9).length :=
    List.countP_le_length _
  have hiff := @List.countP_eq_length _ (List.range 9) (fun i => decide (getSlot b i ≠ 0))
  rw [hlen] at hle hiff
  constructor
  · intro h
    by_contra hne
    push_neg at hne
    have : (List.range 9).countP (fun i => decide (getSlot b i ≠ 0)) = 9 := by
      rw [hiff]
      intro i hi
      exact decide_eq_true (hne i (List.mem_range.mp hi))
    omega
  · rintro ⟨i, hi, h0⟩
    have hlt : (List.range 9).countP (fun i => decide (getSlot b i ≠ 0)) ≠ 9 := by
      rw [Ne, hiff]
      intro hall
      have := of_decide_eq_true (hall i (List.mem_range.mpr hi))
      exact this h0
    omega

/-! ### `moves` -/

theorem mem_moves {b l n : Nat} :
    n ∈ moves b l ↔ ∃ i < 9, getSlot b i = 0 ∧ n = putSlot b i (l % 2 + 1) := by
  unfold moves
  rw [List.mem_filterMap]
  constructor
  · rintro ⟨i, hi, h⟩
    by_cases h0 : getSlot b i ≠ 0
    · simp [h0] at h
    · rw [if_neg h0] at h
      exact ⟨i, List.mem_range.mp hi, not_not.mp h0, (Option.some.inj h).symm⟩
  · rintro ⟨i, hi, h0, rfl⟩
    exact ⟨i, List.mem_range.mpr hi, by simp [h0]⟩

theorem moves_ne_nil_iff (b l : Nat) : moves b l ≠ [] ↔ WhichTurn b < 9 := by
  rw [WhichTurn_lt_nine_iff]
  constructor
  · intro h
    obtain ⟨n, hn⟩ := List.exists_mem_of_ne_nil _ h
    obtain ⟨i, hi, h0, _⟩ := mem_moves.mp hn
    exact ⟨i, hi, h0⟩
  · rintro ⟨i, hi, h0⟩
    exact List.ne_nil_of_mem (mem_moves.mpr ⟨i, hi, h0, rfl⟩)

theorem moves_spec {b l n : Nat} (hb : b < 2 ^ 18) (h : n ∈ moves b l) :
    n < 2 ^ 18 ∧ WhichTurn n = WhichTurn b + 1 := by
  obtain ⟨i, hi, h0, rfl⟩ := mem_moves.mp h
  have hb32 : b < 2 ^ 32 := lt_of_lt_of_le hb (by norm_num)
  exact ⟨putSlot_lt_of_lt b i _ hb (by omega) (by omega),
    WhichTurn_putSlot b i _ hb32 hi (by omega) (by omega) h0⟩

/-! ### Paths of the recursion -/

theorem not_terminalAt_lt {b l : Nat} (hl : l ≤ 9) (h : ¬ terminalAt b l) : l ≤ 8 := by
  have : l ≠ 9 := fun h9 => h (Or.inr h9)
  omega

theorem succ_mod {l : Nat} (hl : l ≤ 9) : (l + 1) % 2 ^ 32 = l + 1 :=
  Nat.mod_eq_of_lt (by omega)

theorem Path_succ {d cur lvl k : Nat} (hl : lvl ≤ 9) :
    Path (d + 1) cur lvl k ↔
      ¬ terminalAt cur lvl ∧ ∃ next ∈ moves cur lvl, Path d next (lvl + 1) k := by
  rw [Path, succ_mod hl]

theorem Path_level {d cur lvl k : Nat} (hl : lvl ≤ 9) (h : Path d cur lvl k) :
    d = 0 ∨ lvl + d ≤ 9 := by
  induction d generalizing cur lvl with
  | zero => exact Or.inl rfl
  | succ d ih =>
    obtain ⟨ht, n, _, hp⟩ := (Path_succ hl).mp h
    have h8 := not_terminalAt_lt hl ht
    rcases ih (by omega) hp with h0 | h0
    · right; omega
    · right; omega

theorem Path_spec {d cur lvl k : Nat} (hl : lvl ≤ 9) (hc : cur < 2 ^ 18)
    (h : Path d cur lvl k) : k < 2 ^ 18 ∧ WhichTurn k = WhichTurn cur + d := by
  induction d generalizing cur lvl with
  | zero =>
    have : k = cur := h
    subst this
    exact ⟨hc, rfl⟩
  | succ d ih =>
    obtain ⟨ht, n, hn, hp⟩ := (Path_succ hl).mp h
    have h8 := not_terminalAt_lt hl ht
    obtain ⟨h1, h2⟩ := moves_spec hc hn
    obtain ⟨h3, h4⟩ := ih (by omega) h1 hp
    exact ⟨h3, by omega⟩

/-- A path grows at its far end. -/
theorem Path_succ_last {d cur lvl k : Nat} (hl : lvl + d ≤ 9) :
    Path (d + 1) cur lvl k ↔
      ∃ p, Path d cur lvl p ∧ ¬ terminalAt p (lvl + d) ∧ k ∈ moves p (lvl + d) := by
  induction d generalizing cur lvl with
  | zero =>
    rw [Path_succ (by omega)]
    constructor
    · rintro ⟨ht, n, hn, hp⟩
      have : k = n := hp
      subst this
      exact ⟨cur, rfl, ht, hn⟩
    · rintro ⟨p, hp, ht, hk⟩
      have : p = cur := hp
      subst this
      exact ⟨ht, k, hk, rfl⟩
  | succ d ih =>
    rw [Path_succ (by omega)]
    constructor
    · rintro ⟨ht, n, hn, hp⟩
      obtain ⟨p, hp1, hp2, hp3⟩ := (ih (by omega)).mp hp
      refine ⟨p, (Path_succ (by omega)).mpr ⟨ht, n, hn, hp1⟩, ?_, ?_⟩
      · rwa [show lvl + (d + 1) = lvl + 1 + d by omega]
      · rwa [show lvl + (d + 1) = lvl + 1 + d by omega]
    · rintro ⟨p, hp, ht, hk⟩
      obtain ⟨ht0, n, hn, hp1⟩ := (Path_succ (by omega)).mp hp
      refine ⟨ht0, n, hn, (ih (by omega)).mpr ⟨p, hp1, ?_, ?_⟩⟩
      · rwa [show lvl + 1 + d = lvl + (d + 1) by omega]
      · rwa [show lvl + 1 + d = lvl + (d + 1) by omega]

theorem mem_recs {fuel cur lvl : Nat} (hl : lvl ≤ 9) (hf : 10 ≤ fuel + lvl) (r : Nat × Stats) :
    r ∈ recs fuel cur lvl ↔
      ∃ d, 0 < d ∧ Path d cur lvl r.1 ∧ r.2 = walkStats (fuel - d) r.1 (lvl + d) := by
  induction fuel generalizing cur lvl with
  | zero => omega
  | succ fuel ih =>
    rw [recs]
    by_cases ht : terminalAt cur lvl
    · rw [if_pos ht]
      constructor
      · intro h; cases h
      · rintro ⟨d, hd, hp, _⟩
        obtain ⟨d', rfl⟩ : ∃ d', d = d' + 1 := ⟨d - 1, by omega⟩
        exact absurd ht ((Path_succ hl).mp hp).1
    · rw [if_neg ht, succ_mod hl]
      have h8 := not_terminalAt_lt hl ht
      rw [List.mem_flatMap]
      constructor
      · rintro ⟨n, hn, hr⟩
        rcases List.mem_append.mp hr with hr | hr
        · obtain ⟨d, hd, hp, hv⟩ := (ih (by omega) (by omega)).mp hr
          refine ⟨d + 1, by omega, (Path_succ hl).mpr ⟨ht, n, hn, hp⟩, ?_⟩
          rw [hv]
          congr 1
          · omega
          · omega
        · have : r = (n, walkStats fuel n (lvl + 1)) := by simpa using hr
          subst this
          exact ⟨1, by omega, (Path_succ hl).mpr ⟨ht, n, hn, rfl⟩, rfl⟩
      · rintro ⟨d, hd, hp, hv⟩
        obtain ⟨d', rfl⟩ : ∃ d', d = d' + 1 := ⟨d - 1, by omega⟩
        obtain ⟨_, n, hn, hp'⟩ := (Path_succ hl).mp hp
        refine ⟨n, hn, List.mem_append.mpr ?_⟩
        rcases Nat.eq_zero_or_pos d' with h0 | h0
        · subst h0
          right
          have h1 : r.1 = n := hp'
          have h2 : r.2 = walkStats fuel n (lvl + 1) := by rw [hv, h1]; rfl
          simp [Prod.ext_iff, h1, h2]
        · left
          refine (ih (by omega) (by omega)).mpr ⟨d', h0, hp', ?_⟩
          rw [hv]
          congr 1
          · omega
          · omega

theorem mem_edges {fuel cur lvl : Nat} (hl : lvl ≤ 9) (hf : 10 ≤ fuel + lvl) (e : Nat × Nat) :
    e ∈ edges fuel cur lvl ↔
      ∃ d, Path d cur lvl e.1 ∧ ¬ terminalAt e.1 (lvl + d) ∧ e.2 ∈ moves e.1 (lvl + d) := by
  induction fuel generalizing cur lvl with
  | zero => omega
  | succ fuel ih =>
    rw [edges]
    by_cases ht : terminalAt cur lvl
    · rw [if_pos ht]
      constructor
      · intro h; cases h
      · rintro ⟨d, hp, hnt, _⟩
        rcases Nat.eq_zero_or_pos d with h0 | h0
        · subst h0
          have : e.1 = cur := hp
          rw [this] at hnt
          exact absurd ht hnt
        · obtain ⟨d', rfl⟩ : ∃ d', d = d' + 1 := ⟨d - 1, by omega⟩
          exact absurd ht ((Path_succ hl).mp hp).1
    · rw [if_neg ht, succ_mod hl]
      have h8 := not_terminalAt_lt hl ht
      rw [List.mem_flatMap]
      constructor
      · rintro ⟨n, hn, hr⟩
        rcases List.mem_cons.mp hr with hr | hr
        · subst hr
          exact ⟨0, rfl, ht, hn⟩
        · obtain ⟨d, hp, hnt, hm⟩ := (ih (by omega) (by omega)).mp hr
          refine ⟨d + 1, (Path_succ hl).mpr ⟨ht, n, hn, hp⟩, ?_, ?_⟩
          · rwa [show lvl + (d + 1) = lvl + 1 + d by omega]
          · rwa [show lvl + (d + 1) = lvl + 1 + d by omega]
      · rintro ⟨d, hp, hnt, hm⟩
        rcases Nat.eq_zero_or_pos d with h0 | h0
        · subst h0
          have h1 : e.1 = cur := hp
          rw [h1] at hm
          refine ⟨e.2, hm, List.mem_cons.mpr (Or.inl ?_)⟩
          simp [Prod.ext_iff, h1]
        · obtain ⟨d', rfl⟩ : ∃ d', d = d' + 1 := ⟨d - 1, by omega⟩
          obtain ⟨_, n, hn, hp'⟩ := (Path_succ hl).mp hp
          refine ⟨n, hn, List.mem_cons.mpr (Or.inr ?_)⟩
          refine (ih (by omega) (by omega)).mpr ⟨d', hp', ?_, ?_⟩
          · rwa [show lvl + 1 + d' = lvl + (d' + 1) by omega]
          · rwa [show lvl + 1 + d' = lvl + (d' + 1) by omega]

/-! ### Bits of the basic tables -/

theorem testBit_onesUpTo (m j : Nat) :
    (onesUpTo m).testBit j = decide (j % 32 = 0 ∧ j / 32 < 2 ^ m) := by
  induction m generalizing j with
  | zero =>
    have : (1 : Nat) = 2 ^ 0 := rfl
    rw [onesUpTo, this, Nat.testBit_two_pow]
    rw [decide_eq_decide]
    simp only [pow_zero]
    omega
  | succ m ih =>
    rw [onesUpTo, Nat.testBit_lor, Nat.testBit_shiftLeft, ih, ih, pow_succ]
    generalize 2 ^ m = t
    rw [← Bool.decide_and, ← Bool.decide_or, decide_eq_decide]
    omega

theorem testBit_two_pow_add {m x : Nat} (hx : x < 2 ^ m) (k : Nat) :
    (2 ^ m + x).testBit k = (decide (m = k) || x.testBit k) := by
  have h := Nat.testBit_mul_pow_two_add 1 hx k
  rw [Nat.mul_one] at h
  rw [h]
  by_cases hk : k < m
  · have : ¬ m = k := by omega
    simp [hk, this]
  · have hlt : x.testBit k = false :=
      Nat.testBit_eq_false_of_lt
        (lt_of_lt_of_le hx (Nat.pow_le_pow_right (by norm_num) (by omega)))
    rw [if_neg hk, hlt, Bool.or_false]
    have one : (1 : Nat) = 2 ^ 0 := rfl
    rw [one, Nat.testBit_two_pow, decide_eq_decide]
    omega

theorem testBit_identUpTo (m j : Nat) (hm : m < 32) :
    (identUpTo m).testBit j = (decide (j / 32 < 2 ^ m) && (j / 32).testBit (j % 32)) := by
  induction m generalizing j with
  | zero =>
    rw [identUpTo, Nat.zero_testBit]
    by_cases h : j / 32 < 2 ^ 0
    · have : j / 32 = 0 := by simpa using h
      rw [this, Nat.zero_testBit, Bool.and_false]
    · rw [decide_eq_false h, Bool.false_and]
  | succ m ih =>
    rw [identUpTo, Nat.testBit_lor, Nat.testBit_shiftLeft, Nat.testBit_lor,
      Nat.testBit_shiftLeft, ih _ (by omega), ih _ (by omega), testBit_onesUpTo, pow_succ]
    by_cases hj : 32 * 2 ^ m ≤ j
    · have e1 : (j - 32 * 2 ^ m) / 32 = j / 32 - 2 ^ m := by omega
      have e2 : (j - 32 * 2 ^ m) % 32 = j % 32 := by omega
      have h1 : ¬ j / 32 < 2 ^ m := by omega
      rw [e1, e2]
      by_cases hb : j / 32 - 2 ^ m < 2 ^ m
      · have hb2 : j / 32 < 2 ^ m * 2 := by omega
        have e3 : j / 32 = 2 ^ m + (j / 32 - 2 ^ m) := by omega
        have e4 : (j / 32).testBit (j % 32) =
            (decide (m = j % 32) || (j / 32 - 2 ^ m).testBit (j % 32)) := by
          conv_lhs => rw [e3]
          exact testBit_two_pow_add hb _
        rw [e4]
        have e5 : (decide (j - 32 * 2 ^ m ≥ m) &&
            decide ((j - 32 * 2 ^ m - m) % 32 = 0 ∧ (j - 32 * 2 ^ m - m) / 32 < 2 ^ m)) =
            decide (m = j % 32) := by
          rw [← Bool.decide_and, decide_eq_decide]
          generalize 2 ^ m = t at *
          omega
        rw [e5]
        simp [h1, hj, hb, hb2, Bool.or_comm]
      · have hb2 : ¬ j / 32 < 2 ^ m * 2 := by omega
        have e5 : decide ((j - 32 * 2 ^ m - m) % 32 = 0 ∧ (j - 32 * 2 ^ m - m) / 32 < 2 ^ m) =
            false := by
          rw [decide_eq_false_iff_not]
          generalize 2 ^ m = t at *
          omega
        simp [h1, hb, hb2, e5]
    · have h1 : j / 32 < 2 ^ m := by omega
      have h2 : j / 32 < 2 ^ m * 2 := by omega
      simp [hj, h1, h2]

/-! ### Tables of indicators and of cell values -/

theorem ind_ones : Ind onesVec (fun b => b < 2 ^ 18) := by
  intro j
  rw [onesVec, testBit_onesUpTo]
  simp

theorem ind_zero : Ind 0 (fun _ => False) := by
  intro j
  simp

theorem ind_one : Ind 1 (fun b => b = 0) := by
  intro j
  have : (1 : Nat) = 2 ^ 0 := rfl
  rw [this, Nat.testBit_two_pow]
  simp only [decide_eq_true_eq]
  omega

theorem ind_congr {V : Nat} {P Q : Nat → Prop} (h : Ind V P) (hpq : ∀ b, P b ↔ Q b) :
    Ind V Q := by
  intro j
  rw [h j, hpq]

theorem ind_and {A B : Nat} {P Q : Nat → Prop} (ha : Ind A P) (hb : Ind B Q) :
    Ind (A &&& B) (fun b => P b ∧ Q b) := by
  intro j
  rw [Nat.testBit_land, Bool.and_eq_true, ha j, hb j]
  tauto

theorem ind_or {A B : Nat} {P Q : Nat → Prop} (ha : Ind A P) (hb : Ind B Q) :
    Ind (A ||| B) (fun b => P b ∨ Q b) := by
  intro j
  rw [Nat.testBit_lor, Bool.or_eq_true, ha j, hb j]
  tauto

theorem xor_eq_true_iff (a b : Bool) :
    (a ^^ b) = true ↔ (a = true ∧ ¬ b = true) ∨ (¬ a = true ∧ b = true) := by
  cases a <;> cases b <;> simp

theorem ind_compl {A : Nat} {P : Nat → Prop} (ha : Ind A P) (hp : ∀ b, P b → b < 2 ^ 18) :
    Ind (onesVec ^^^ A) (fun b => b < 2 ^ 18 ∧ ¬ P b) := by
  intro j
  have h3 := hp (j / 32)
  rw [Nat.testBit_xor, xor_eq_true_iff, ind_ones j, ha j]
  tauto

theorem ind_shift {A : Nat} {P : Nat → Prop} (ha : Ind A P) (d : Nat) :
    Ind (A <<< (32 * d)) (fun b => d ≤ b ∧ P (b - d)) := by
  intro j
  rw [Nat.testBit_shiftLeft, Bool.and_eq_true, decide_eq_true_eq, ha]
  constructor
  · rintro ⟨h1, h2, h3⟩
    have e : (j - 32 * d) / 32 = j / 32 - d := by omega
    rw [e] at h3
    exact ⟨by omega, by omega, h3⟩
  · rintro ⟨h1, h2, h3⟩
    have e : (j - 32 * d) / 32 = j / 32 - d := by omega
    rw [e]
    exact ⟨by omega, by omega, h3⟩

theorem ind_foldl_or {α : Type} (g : α → Nat) (Q : α → Nat → Prop) (l : List α)
    (hg : ∀ a ∈ l, Ind (g a) (Q a)) {A : Nat} {P : Nat → Prop} (ha : Ind A P) :
    Ind (l.foldl (fun acc a => acc ||| g a) A) (fun b => P b ∨ ∃ a ∈ l, Q a b) := by
  induction l generalizing A P with
  | nil => exact ind_congr ha (fun b => by simp)
  | cons x t ih =>
    rw [List.foldl_cons]
    refine ind_congr (ih (fun a h => hg a (List.mem_cons_of_mem _ h))
      (ind_or ha (hg x (List.mem_cons_self _ _)))) (fun b => ?_)
    simp only [List.mem_cons, exists_eq_or_imp]
    tauto

theorem val_ident : Val identVec (fun b => b) := by
  intro j
  rw [identVec, testBit_identUpTo _ _ (by norm_num)]

theorem val_cell (i : Nat) (hi : i ≤ 8) : Val (cellVec i) (fun b => getSlot b i) := by
  intro j
  rw [cellVec, Nat.testBit_land, Nat.testBit_shiftRight, val_ident, Nat.testBit_lor,
    Nat.testBit_shiftLeft, testBit_getSlot]
  have h0 := ind_ones j
  have h1 := ind_ones (j - 1)
  by_cases hk : j % 32 < 2
  · have e1 : (2 * i + j) / 32 = j / 32 := by omega
    have e2 : (2 * i + j) % 32 = 2 * i + j % 32 := by omega
    rw [e1, e2]
    by_cases hN : j / 32 < 2 ^ 18
    · have : (onesVec.testBit j || decide (j ≥ 1) && onesVec.testBit (j - 1)) = true := by
        rw [Bool.or_eq_true, Bool.and_eq_true, decide_eq_true_eq, h0, h1]
        have e3 : j % 32 = 1 → (j - 1) / 32 = j / 32 := by omega
        by_cases hz : j % 32 = 0
        · exact Or.inl ⟨hz, hN⟩
        · right
          have h1' : j % 32 = 1 := by omega
          refine ⟨by omega, by omega, ?_⟩
          rw [e3 h1']
          exact hN
      simp [this, hk, hN]
    · rw [decide_eq_false hN, Bool.false_and, Bool.false_and, Bool.false_and]
  · have : (onesVec.testBit j || decide (j ≥ 1) && onesVec.testBit (j - 1)) = false := by
      rw [Bool.eq_false_iff]
      intro h
      rw [Bool.or_eq_true, Bool.and_eq_true, decide_eq_true_eq, h0, h1] at h
      omega
    simp [this, hk]

theorem val_xor {A B : Nat} {f g : Nat → Nat} (ha : Val A f) (hb : Val B g) :
    Val (A ^^^ B) (fun b => f b ^^^ g b) := by
  intro j
  rw [Nat.testBit_xor, ha j, hb j, Nat.testBit_xor]
  cases decide (j / 32 < 2 ^ 18) <;> simp

theorem val_const (q : Nat) (hq : q = 1 ∨ q = 2) : Val (onesVec <<< (q - 1)) (fun _ => q) := by
  intro j
  rw [Nat.testBit_shiftLeft]
  have h1 := ind_ones (j - (q - 1))
  rcases hq with rfl | rfl
  · have one : (1 : Nat) = 2 ^ 0 := rfl
    have e : Nat.testBit 1 (j % 32) = decide (j % 32 = 0) := by
      rw [one, Nat.testBit_two_pow, decide_eq_decide]; omega
    rw [e]
    simp only [Nat.sub_self, Nat.sub_zero] at h1 ⊢
    rw [Bool.eq_iff_iff]
    simp only [Bool.and_eq_true, decide_eq_true_eq, h1]
    omega
  · have two : (2 : Nat) = 2 ^ 1 := rfl
    have e : Nat.testBit 2 (j % 32) = decide (j % 32 = 1) := by
      rw [two, Nat.testBit_two_pow, decide_eq_decide]; omega
    rw [e]
    simp only [Nat.add_one_sub_one] at h1 ⊢
    rw [Bool.eq_iff_iff]
    simp only [Bool.and_eq_true, decide_eq_true_eq, h1]
    omega

theorem testBit_lt_four {v : Nat} (hv : v < 4) :
    (v.testBit 0 || v.testBit 1) = true ↔ v ≠ 0 := by
  interval_cases v <;> decide

theorem ind_nz {V : Nat} {f : Nat → Nat} (hv : Val V f) (hf : ∀ b, f b < 4) :
    Ind (nzVec V) (fun b => b < 2 ^ 18 ∧ f b ≠ 0) := by
  intro j
  rw [nzVec, Nat.testBit_land, Nat.testBit_lor, Nat.testBit_shiftRight, Bool.and_eq_true,
    ind_ones j, hv j, hv (1 + j)]
  constructor
  · rintro ⟨h, hz, hN⟩
    have e1 : (1 + j) / 32 = j / 32 := by omega
    have e2 : (1 + j) % 32 = 1 := by omega
    have hN' : decide (j / 32 < 2 ^ 18) = true := decide_eq_true hN
    rw [e1, e2, hz, hN', Bool.true_and, Bool.true_and] at h
    exact ⟨hz, hN, (testBit_lt_four (hf _)).mp h⟩
  · rintro ⟨hz, hN, hne⟩
    have e1 : (1 + j) / 32 = j / 32 := by omega
    have e2 : (1 + j) % 32 = 1 := by omega
    have hN' : decide (j / 32 < 2 ^ 18) = true := decide_eq_true hN
    refine ⟨?_, hz, hN⟩
    rw [e1, e2, hz, hN', Bool.true_and, Bool.true_and]
    exact (testBit_lt_four (hf _)).mpr hne

/-! ### Tables of board predicates -/

theorem xor_lt_four {a b : Nat} (ha : a < 4) (hb : b < 4) : a ^^^ b < 4 :=
  @Nat.xor_lt_two_pow a b 2 ha hb

theorem xor_ne_zero_iff {a b : Nat} (ha : a < 4) (hb : b < 4) : a ^^^ b ≠ 0 ↔ a ≠ b := by
  interval_cases a <;> interval_cases b <;> decide

theorem ind_empty (i : Nat) (hi : i ≤ 8) :
    Ind (emptyVec i) (fun b => b < 2 ^ 18 ∧ getSlot b i = 0) := by
  refine ind_congr (ind_compl (ind_nz (val_cell i hi) (fun b => getSlot_lt b i))
    (fun b h => h.1)) (fun b => ?_)
  constructor
  · rintro ⟨h1, h2⟩
    exact ⟨h1, by_contra fun h => h2 ⟨h1, h⟩⟩
  · rintro ⟨h1, h2⟩
    exact ⟨h1, fun h => h.2 h2⟩

theorem ind_eq (x y : Nat) (hx : x ≤ 8) (hy : y ≤ 8) :
    Ind (eqVec x y) (fun b => b < 2 ^ 18 ∧ getSlot b x = getSlot b y) := by
  refine ind_congr (ind_compl (ind_nz (val_xor (val_cell x hx) (val_cell y hy))
    (fun b => xor_lt_four (getSlot_lt b x) (getSlot_lt b y))) (fun b h => h.1)) (fun b => ?_)
  have := xor_ne_zero_iff (getSlot_lt b x) (getSlot_lt b y)
  constructor
  · rintro ⟨h1, h2⟩
    exact ⟨h1, by_contra fun h => h2 ⟨h1, this.mpr h⟩⟩
  · rintro ⟨h1, h2⟩
    exact ⟨h1, fun h => this.mp h.2 h2⟩

theorem ind_piece (q x : Nat) (hq : q = 1 ∨ q = 2) (hx : x ≤ 8) :
    Ind (pieceVec q x) (fun b => b < 2 ^ 18 ∧ getSlot b x = q) := by
  have hq4 : q < 4 := by omega
  refine ind_congr (ind_compl (ind_nz (val_xor (val_cell x hx) (val_const q hq))
    (fun b => xor_lt_four (getSlot_lt b x) hq4)) (fun b h => h.1)) (fun b => ?_)
  have := xor_ne_zero_iff (getSlot_lt b x) hq4
  constructor
  · rintro ⟨h1, h2⟩
    exact ⟨h1, by_contra fun h => h2 ⟨h1, this.mpr h⟩⟩
  · rintro ⟨h1, h2⟩
    exact ⟨h1, fun h => this.mp h.2 h2⟩

theorem stensils_le {t : Nat × Nat × Nat} (h : t ∈ stensils) :
    t.1 ≤ 8 ∧ t.2.1 ≤ 8 ∧ t.2.2 ≤ 8 := by
  simp only [stensils, List.mem_cons, List.mem_singleton, List.not_mem_nil, or_false] at h
  rcases h with rfl | rfl | rfl | rfl | rfl | rfl | rfl | rfl <;> decide

theorem ind_line (t : Nat × Nat × Nat) (h : t ∈ stensils) :
    Ind (lineVec t) (fun b => b < 2 ^ 18 ∧ (getSlot b t.1 ≠ 0 ∧
      getSlot b t.1 = getSlot b t.2.1 ∧ getSlot b t.2.1 = getSlot b t.2.2)) := by
  obtain ⟨h1, h2, h3⟩ := stensils_le h
  refine ind_congr (ind_and (ind_and (ind_nz (val_cell t.1 h1) (fun b => getSlot_lt b _))
    (ind_eq t.1 t.2.1 h1 h2)) (ind_eq t.2.1 t.2.2 h2 h3)) (fun b => ?_)
  tauto

theorem ind_win : Ind winVec (fun b => b < 2 ^ 18 ∧ hasWinner b = true) := by
  have h := ind_foldl_or lineVec
    (fun t b => b < 2 ^ 18 ∧ (getSlot b t.1 ≠ 0 ∧
      getSlot b t.1 = getSlot b t.2.1 ∧ getSlot b t.2.1 = getSlot b t.2.2))
    stensils (fun t ht => ind_line t ht) ind_zero
  rw [winVec]
  refine ind_congr h (fun b => ?_)
  rw [hasWinner, List.any_eq_true]
  constructor
  · rintro (h | ⟨t, ht, hN, hl⟩)
    · exact h.elim
    · exact ⟨hN, t, ht, decide_eq_true hl⟩
  · rintro ⟨hN, t, ht, hl⟩
    exact Or.inr ⟨t, ht, hN, of_decide_eq_true hl⟩

theorem ind_own (q : Nat) (hq : q = 1 ∨ q = 2) :
    Ind (ownVec q) (fun b => b < 2 ^ 18 ∧ ownsLine b q) := by
  have h := ind_foldl_or
    (fun t : Nat × Nat × Nat => pieceVec q t.1 &&& pieceVec q t.2.1 &&& pieceVec q t.2.2)
    (fun t b => ((b < 2 ^ 18 ∧ getSlot b t.1 = q) ∧ (b < 2 ^ 18 ∧ getSlot b t.2.1 = q)) ∧
      (b < 2 ^ 18 ∧ getSlot b t.2.2 = q)) stensils
    (fun t ht => ind_and (ind_and (ind_piece q _ hq (stensils_le ht).1)
      (ind_piece q _ hq (stensils_le ht).2.1)) (ind_piece q _ hq (stensils_le ht).2.2)) ind_zero
  rw [ownVec]
  refine ind_congr h (fun b => ?_)
  rw [ownsLine]
  constructor
  · rintro (h | ⟨t, ht, ⟨⟨hN, h1⟩, ⟨_, h2⟩⟩, ⟨_, h3⟩⟩)
    · exact h.elim
    · exact ⟨hN, t, ht, h1, h2, h3⟩
  · rintro ⟨hN, t, ht, h1, h2, h3⟩
    exact Or.inr ⟨t, ht, ⟨⟨hN, h1⟩, ⟨hN, h2⟩⟩, ⟨hN, h3⟩⟩

theorem ind_live {L : Nat} {P : Nat → Prop} (hL : Ind L P) (hP : ∀ b, P b → b < 2 ^ 18)
    (level : Nat) : Ind (liveVec level L) (fun b => P b ∧ ¬ terminalAt b level) := by
  unfold liveVec terminalAt
  by_cases h9 : level = 9
  · rw [if_pos h9]
    exact ind_congr ind_zero (fun b => by tauto)
  · rw [if_neg h9]
    by_cases h4 : level > 4
    · rw [if_pos h4]
      refine ind_congr (ind_and hL (ind_compl ind_win (fun b h => h.1))) (fun b => ?_)
      have := hP b
      tauto
    · rw [if_neg h4]
      exact ind_congr hL (fun b => by tauto)

theorem ind_stepReach {L : Nat} {P : Nat → Prop} (hL : Ind L P) (hP : ∀ b, P b → b < 2 ^ 18)
    (level : Nat) :
    Ind (stepReach level L)
      (fun n => ∃ p, P p ∧ ¬ terminalAt p level ∧ n ∈ moves p level) := by
  have h := ind_foldl_or
    (fun i => (liveVec level L &&& emptyVec i) <<< (32 * ((level % 2 + 1) * 4 ^ i)))
    (fun i n => (level % 2 + 1) * 4 ^ i ≤ n ∧
      ((P (n - (level % 2 + 1) * 4 ^ i) ∧ ¬ terminalAt (n - (level % 2 + 1) * 4 ^ i) level) ∧
        (n - (level % 2 + 1) * 4 ^ i < 2 ^ 18 ∧ getSlot (n - (level % 2 + 1) * 4 ^ i) i = 0)))
    (List.range 9)
    (fun i hi => ind_shift (ind_and (ind_live hL hP level)
      (ind_empty i (Nat.le_of_lt_succ (List.mem_range.mp hi)))) _) ind_zero
  rw [stepReach]
  refine ind_congr h (fun n => ?_)
  constructor
  · rintro (h | ⟨i, hi, hle, ⟨hp, hnt⟩, hN, h0⟩)
    · exact h.elim
    · have hi' := List.mem_range.mp hi
      refine ⟨_, hp, hnt, mem_moves.mpr ⟨i, hi', h0, ?_⟩⟩
      rw [putSlot_eq_add _ i _ (lt_of_lt_of_le hN (by norm_num)) (by omega) (by omega) h0]
      omega
  · rintro ⟨p, hp, hnt, hm⟩
    obtain ⟨i, hi, h0, rfl⟩ := mem_moves.mp hm
    have hN := hP p hp
    rw [putSlot_eq_add _ i _ (lt_of_lt_of_le hN (by norm_num)) (by omega) (by omega) h0]
    refine Or.inr ⟨i, List.mem_range.mpr hi, by omega, ?_⟩
    rw [Nat.add_sub_cancel]
    exact ⟨⟨hp, hnt⟩, hN, h0⟩

theorem Path_lt {d k : Nat} (h : Path d 0 0 k) : k < 2 ^ 18 :=
  (Path_spec (Nat.zero_le 9) (by norm_num) h).1

/-- The table `reachVec d` marks exactly the boards called at depth `d`. -/
theorem ind_reach (d : Nat) (hd : d ≤ 9) : Ind (reachVec d) (fun b => Path d 0 0 b) := by
  induction d with
  | zero => exact ind_congr ind_one (fun b => Iff.rfl)
  | succ d ih =>
    rw [reachVec]
    refine ind_congr (ind_stepReach (ih (by omega)) (fun b h => Path_lt h) d) (fun n => ?_)
    have := @Path_succ_last d 0 0 n (by omega)
    simp only [Nat.zero_add] at this
    exact this.symm

/-! ### Fields of a table -/

theorem fld_lt (V b : Nat) : fld V b < 2 ^ 32 := Nat.mod_lt _ (by norm_num)

theorem testBit_fld (V b k : Nat) :
    (fld V b).testBit k = (decide (k < 32) && V.testBit (32 * b + k)) := by
  rw [fld, Nat.testBit_mod_two_pow, Nat.testBit_shiftRight]

theorem fld_and (A C b : Nat) : fld (A &&& C) b = fld A b &&& fld C b := by
  apply Nat.eq_of_testBit_eq
  intro k
  simp only [testBit_fld, Nat.testBit_land]
  cases decide (k < 32) <;> simp

theorem fld_or (A C b : Nat) : fld (A ||| C) b = fld A b ||| fld C b := by
  apply Nat.eq_of_testBit_eq
  intro k
  simp only [testBit_fld, Nat.testBit_lor]
  cases decide (k < 32) <;> simp

theorem fld_shiftRight (A d b : Nat) : fld (A >>> (32 * d)) b = fld A (b + d) := by
  rw [fld, fld, ← Nat.shiftRight_add]
  congr 2
  ring

theorem fld_zero (V : Nat) : fld V 0 = V % 2 ^ 32 := by
  simp [fld]

theorem fld_succ (V b : Nat) : fld V (b + 1) = fld (V / 2 ^ 32) b := by
  rw [fld, fld, Nat.mul_add, Nat.mul_one, Nat.add_comm, Nat.shiftRight_add,
    Nat.shiftRight_eq_div_pow V 32]

theorem fld_add (A C b : Nat) (h : ∀ j ≤ b, fld A j + fld C j < 2 ^ 32) :
    fld (A + C) b = fld A b + fld C b := by
  induction b generalizing A C with
  | zero =>
    have h0 := h 0 (Nat.le_refl 0)
    rw [fld_zero, fld_zero] at h0
    rw [fld_zero, fld_zero, fld_zero, Nat.add_mod, Nat.mod_eq_of_lt h0]
  | succ b ih =>
    have h0 := h 0 (Nat.zero_le _)
    rw [fld_zero, fld_zero] at h0
    have hdiv : (A + C) / 2 ^ 32 = A / 2 ^ 32 + C / 2 ^ 32 := by omega
    rw [fld_succ, fld_succ, fld_succ, hdiv]
    apply ih
    intro j hj
    have := h (j + 1) (by omega)
    rwa [fld_succ, fld_succ] at this

theorem fld_mul (c V b : Nat) (hc : c < 2 ^ 32) (h : ∀ j ≤ b, fld V j * c < 2 ^ 32) :
    fld (V * c) b = fld V b * c := by
  induction b generalizing V with
  | zero =>
    have h0 := h 0 (Nat.le_refl 0)
    rw [fld_zero] at h0
    rw [fld_zero, fld_zero, Nat.mul_mod, Nat.mod_eq_of_lt hc, Nat.mod_eq_of_lt h0]
  | succ b ih =>
    have h0 := h 0 (Nat.zero_le _)
    rw [fld_zero] at h0
    have hdiv : (V * c) / 2 ^ 32 = (V / 2 ^ 32) * c := by
      have e : V * c = V % 2 ^ 32 * c + 2 ^ 32 * (V / 2 ^ 32 * c) := by
        conv_lhs => rw [← Nat.mod_add_div V (2 ^ 32)]
        ring
      rw [e, Nat.add_mul_div_left _ _ (by norm_num), Nat.div_eq_of_lt h0, Nat.zero_add]
    rw [fld_succ, fld_succ, hdiv]
    apply ih
    intro j hj
    have := h (j + 1) (by omega)
    rwa [fld_succ] at this

theorem fld_ind {V : Nat} {P : Nat → Prop} [DecidablePred P] (h : Ind V P) (b : Nat) :
    fld V b = if P b then 1 else 0 := by
  apply Nat.eq_of_testBit_eq
  intro k
  rw [testBit_fld]
  have e1 : (32 * b + k) % 32 = k % 32 := by omega
  have hb := h (32 * b + k)
  rw [e1] at hb
  rw [Bool.eq_iff_iff, Bool.and_eq_true, decide_eq_true_eq, hb]
  have one : (1 : Nat) = 2 ^ 0 := rfl
  by_cases hp : P b
  · rw [if_pos hp, one, Nat.testBit_two_pow, decide_eq_true_eq]
    constructor
    · rintro ⟨h1, h2, _⟩; omega
    · intro h0
      have e2 : (32 * b + k) / 32 = b := by omega
      rw [e2]
      exact ⟨by omega, by omega, hp⟩
  · rw [if_neg hp, Nat.zero_testBit]
    constructor
    · rintro ⟨h1, h2, h3⟩
      have e2 : (32 * b + k) / 32 = b := by omega
      rw [e2] at h3
      exact absurd h3 hp
    · intro h0; cases h0

theorem fld_mask {V : Nat} {P : Nat → Prop} [DecidablePred P] (h : Ind V P) (b : Nat) :
    fld (maskVec V) b = if P b then 2 ^ 32 - 1 else 0 := by
  rw [maskVec, fld_mul _ _ _ (by norm_num), fld_ind h]
  · split <;> simp
  · intro j _
    rw [fld_ind h]
    split <;> simp

theorem and_mask (P : Prop) [Decidable P] (x : Nat) (hx : x < 2 ^ 32) :
    (if P then 2 ^ 32 - 1 else 0) &&& x = if P then x else 0 := by
  by_cases hp : P
  · rw [if_pos hp, if_pos hp, Nat.land_comm, Nat.and_pow_two_sub_one_eq_mod, Nat.mod_eq_of_lt hx]
  · rw [if_neg hp, if_neg hp, Nat.zero_and]

/-! ### The sum of the fields -/

theorem sum_fld_modEq (n V : Nat) (h : V < (2 ^ 32) ^ n) :
    (∑ b in Finset.range n, fld V b) ≡ V [MOD 2 ^ 32 - 1] := by
  induction n generalizing V with
  | zero =>
    have : V = 0 := by simpa using h
    subst this
    simp [Nat.ModEq]
  | succ n ih =>
    rw [Finset.sum_range_succ']
    have hdiv : V / 2 ^ 32 < (2 ^ 32) ^ n := by
      rw [Nat.div_lt_iff_lt_mul (by norm_num)]
      rwa [pow_succ] at h
    have h1 := ih (V / 2 ^ 32) hdiv
    have e : ∀ b, fld V (b + 1) = fld (V / 2 ^ 32) b := fun b => fld_succ V b
    simp only [e, fld_zero]
    have h3 : V / 2 ^ 32 + V % 2 ^ 32 ≡ V [MOD 2 ^ 32 - 1] := by
      unfold Nat.ModEq
      omega
    exact (Nat.ModEq.add_right _ h1).trans h3

theorem lt_of_ind {V : Nat} {P : Nat → Prop} (h : Ind V P) (hP : ∀ b, P b → b < 2 ^ 18) :
    V < (2 ^ 32) ^ (2 ^ 18) := by
  rw [← pow_mul]
  apply Nat.lt_pow_two_of_testBit
  intro i hi
  rw [Bool.eq_false_iff]
  intro ht
  have := hP _ ((h i).mp ht).2
  omega

/-- The field sum of an indicator table counts the marked boards. -/
theorem fieldSum_ind {V : Nat} {P : Nat → Prop} [DecidablePred P] (h : Ind V P)
    (hP : ∀ b, P b → b < 2 ^ 18) :
    fieldSum V = ((Finset.range (2 ^ 18)).filter P).card := by
  have h1 := sum_fld_modEq (2 ^ 18) V (lt_of_ind h hP)
  have h2 : ∑ b in Finset.range (2 ^ 18), fld V b = ((Finset.range (2 ^ 18)).filter P).card := by
    rw [Finset.card_filter]
    exact Finset.sum_congr rfl (fun b _ => fld_ind h b)
  rw [h2] at h1
  have h3 : ((Finset.range (2 ^ 18)).filter P).card ≤ 2 ^ 18 := by
    have := Finset.card_filter_le (Finset.range (2 ^ 18)) P
    rwa [Finset.card_range] at this
  unfold fieldSum
  unfold Nat.ModEq at h1
  rw [← h1]
  exact Nat.mod_eq_of_lt (lt_of_le_of_lt h3 (by norm_num))

/-! ### Components of `walkStats` -/

theorem get_add (s t : Stats) (k : Nat) : (s.add t).get k = (s.get k + t.get k) % 2 ^ 32 := by
  unfold Stats.add Stats.get
  split
  · rfl
  · split <;> rfl

theorem get_foldl_add (h : Nat → Stats) (ms : List Nat) (s0 : Stats) (k : Nat) :
    ((ms.foldl (fun s n => s.add (h n)) s0).get k) % 2 ^ 32 =
      (s0.get k + (ms.map fun n => (h n).get k).sum) % 2 ^ 32 := by
  induction ms generalizing s0 with
  | nil => simp
  | cons n t ih =>
    rw [List.foldl_cons, ih, get_add, List.map_cons, List.sum_cons]
    omega

theorem get_foldl_lt (h : Nat → Stats) (ms : List Nat) (s0 : Stats) (k : Nat)
    (h0 : s0.get k < 2 ^ 32) : (ms.foldl (fun s n => s.add (h n)) s0).get k < 2 ^ 32 := by
  induction ms generalizing s0 with
  | nil => exact h0
  | cons n t ih =>
    rw [List.foldl_cons]
    apply ih
    rw [get_add]
    exact Nat.mod_lt _ (by norm_num)

theorem sum_map_le (F : Nat → Nat) (ms : List Nat) (M : Nat) (h : ∀ n ∈ ms, F n ≤ M) :
    (ms.map F).sum ≤ ms.length * M := by
  induction ms with
  | nil => simp
  | cons n t ih =>
    rw [List.map_cons, List.sum_cons, List.length_cons, Nat.succ_mul]
    have := h n (List.mem_cons_self _ _)
    have := ih (fun x hx => h x (List.mem_cons_of_mem _ hx))
    omega

theorem moves_length_le (b l : Nat) : (moves b l).length ≤ 9 := by
  unfold moves
  exact le_trans (List.length_filterMap_le _ _) (by simp)

theorem pow_nine_succ {l : Nat} (h : l ≤ 8) : 9 * 9 ^ (9 - (l + 1)) = 9 ^ (9 - l) := by
  have : 9 - l = (9 - (l + 1)) + 1 := by omega
  rw [this, pow_succ, Nat.mul_comm]

theorem pow_nine_lt (l : Nat) : 9 ^ (9 - l) < 2 ^ 32 :=
  lt_of_le_of_lt (Nat.pow_le_pow_right (by norm_num) (Nat.sub_le 9 l)) (by norm_num)

theorem get_unit_le (k : Nat) :
    (Stats.mk 0 1 0).get k ≤ 1 ∧ (Stats.mk 1 0 0).get k ≤ 1 ∧ (Stats.mk 0 0 1).get k ≤ 1 := by
  unfold Stats.get
  by_cases h0 : k = 0
  · simp [h0]
  · by_cases h1 : k = 1
    · simp [h1]
    · simp [h0, h1]

/-- The value `walkStats` returns where the call loops: the plain sum over the
moves, and no counter wraps around. -/
theorem walkStats_get (fuel b l k : Nat) (hl : l ≤ 9) (hf : 10 ≤ fuel + l) :
    (walkStats fuel b l).get k ≤ 9 ^ (9 - l) ∧
    (¬ terminalAt b l → ∀ f', fuel = f' + 1 →
      (walkStats fuel b l).get k =
        ((moves b l).map fun n => (walkStats f' n (l + 1)).get k).sum) := by
  induction fuel generalizing b l with
  | zero => omega
  | succ fuel ih =>
    have hone : 1 ≤ 9 ^ (9 - l) := Nat.one_le_pow _ _ (by norm_num)
    by_cases hw : l > 4 ∧ hasWinner b = true
    · have ht : terminalAt b l := Or.inl hw
      refine ⟨?_, fun h => absurd ht h⟩
      rw [walkStats, if_pos hw]
      have hu := get_unit_le k
      by_cases hpar : l % 2 = 0
      · rw [if_pos hpar]
        exact le_trans hu.1 hone
      · rw [if_neg hpar]
        exact le_trans hu.2.1 hone
    · by_cases h9 : l = 9
      · have ht : terminalAt b l := Or.inr h9
        refine ⟨?_, fun h => absurd ht h⟩
        rw [walkStats, if_neg hw, if_pos h9]
        exact le_trans (get_unit_le k).2.2 hone
      · have h8 : l ≤ 8 := by omega
        have hbound : ((moves b l).map fun n => (walkStats fuel n (l + 1)).get k).sum ≤
            9 ^ (9 - l) := by
          have h1 := sum_map_le (fun n => (walkStats fuel n (l + 1)).get k) (moves b l)
            (9 ^ (9 - (l + 1))) (fun n _ => (ih n (l + 1) (by omega) (by omega)).1)
          have h2 := moves_length_le b l
          have h3 : (moves b l).length * 9 ^ (9 - (l + 1)) ≤ 9 * 9 ^ (9 - (l + 1)) :=
            Nat.mul_le_mul_right _ h2
          rw [pow_nine_succ h8] at h3
          omega
        have heq : (walkStats (fuel + 1) b l).get k =
            ((moves b l).map fun n => (walkStats fuel n (l + 1)).get k).sum := by
          rw [walkStats, if_neg hw, if_neg h9, succ_mod hl]
          have h1 := get_foldl_add (fun n => walkStats fuel n (l + 1)) (moves b l) ⟨0, 0, 0⟩ k
          have h2 := get_foldl_lt (fun n => walkStats fuel n (l + 1)) (moves b l) ⟨0, 0, 0⟩ k
            (by unfold Stats.get; split <;> (try split) <;> simp)
          have h3 : (Stats.mk 0 0 0).get k = 0 := by
            unfold Stats.get; split <;> (try split) <;> rfl
          rw [h3, Nat.zero_add, Nat.mod_eq_of_lt h2,
            Nat.mod_eq_of_lt (lt_of_le_of_lt hbound (pow_nine_lt l))] at h1
          exact h1
        refine ⟨by rw [heq]; exact hbound, fun _ f' hf' => ?_⟩
        have : fuel = f' := by omega
        subst this
        exact heq

theorem sum_moves (F : Nat → Nat) (b l : Nat) :
    ((moves b l).map F).sum =
      ((List.range 9).map fun i =>
        if getSlot b i = 0 then F (putSlot b i (l % 2 + 1)) else 0).sum := by
  unfold moves
  generalize List.range 9 = is
  induction is with
  | nil => rfl
  | cons i t ih =>
    rw [List.filterMap_cons, List.map_cons, List.sum_cons, ← ih]
    by_cases h0 : getSlot b i = 0
    · simp [h0]
    · simp [h0]

/-! ### Sums of shifted tables -/

theorem fld_foldl_add (T : Nat → Nat) (is : List Nat) (M : Nat)
    (hT : ∀ i ∈ is, ∀ j, fld (T i) j ≤ M) (A : Nat)
    (hA : ∀ j, fld A j + is.length * M < 2 ^ 32) (b : Nat) :
    fld (is.foldl (fun acc i => acc + T i) A) b = fld A b + (is.map fun i => fld (T i) b).sum := by
  induction is generalizing A with
  | nil => simp
  | cons x t ih =>
    have hx := hT x (List.mem_cons_self _ _)
    have hadd : ∀ j, fld (A + T x) j = fld A j + fld (T x) j := by
      intro j
      apply fld_add
      intro j' _
      have := hA j'
      have := hx j'
      rw [List.length_cons, Nat.succ_mul] at *
      omega
    rw [List.foldl_cons, ih (fun i hi => hT i (List.mem_cons_of_mem _ hi)), hadd,
      List.map_cons, List.sum_cons, Nat.add_assoc]
    intro j
    rw [hadd]
    have := hA j
    have := hx j
    rw [List.length_cons, Nat.succ_mul] at *
    omega

/-- Fields of `sumStep`: the sum over the empty cells of the next level's
fields at the boards one move away. -/
theorem fld_sumStep (level S : Nat) (G : Nat → Nat) (M : Nat) (hS : ∀ c, fld S c = G c)
    (hG : ∀ c, G c ≤ M) (hM : 9 * M < 2 ^ 32) (b : Nat) :
    fld (sumStep level S) b =
      ((List.range 9).map fun i =>
        if b < 2 ^ 18 ∧ getSlot b i = 0 then G (b + (level % 2 + 1) * 4 ^ i) else 0).sum := by
  have hterm : ∀ i ∈ List.range 9, ∀ j,
      fld (maskVec (emptyVec i) &&& (S >>> (32 * ((level % 2 + 1) * 4 ^ i)))) j =
        if j < 2 ^ 18 ∧ getSlot j i = 0 then G (j + (level % 2 + 1) * 4 ^ i) else 0 := by
    intro i hi j
    have hi' : i ≤ 8 := Nat.le_of_lt_succ (List.mem_range.mp hi)
    rw [fld_and, fld_mask (ind_empty i hi'), fld_shiftRight, and_mask _ _ (fld_lt _ _), hS]
  rw [sumStep, fld_foldl_add _ _ M (fun i hi j => by
      rw [hterm i hi j]
      split
      · exact hG _
      · exact Nat.zero_le _) 0 (fun j => by
      have : fld 0 j = 0 := by simp [fld]
      rw [this, List.length_range]
      omega)]
  have : fld 0 b = 0 := by simp [fld]
  rw [this, Nat.zero_add]
  congr 1
  apply List.map_congr_left
  intro i hi
  exact hterm i hi b

/-! ### The tables of `walkStats` -/

theorem fld_zero_left (b : Nat) : fld 0 b = 0 := by
  simp [fld]

theorem sum_map_zero (is : List Nat) : (is.map fun _ => 0).sum = 0 := by
  induction is with
  | nil => rfl
  | cons _ t ih => rw [List.map_cons, List.sum_cons, ih]

theorem fld_sumStep_moves (k fuel l S : Nat) (hl : l ≤ 8) (hf : 10 ≤ fuel + (l + 1))
    (hS : ∀ c, fld S c = if c < 2 ^ 18 then (walkStats fuel c (l + 1)).get k else 0) (b : Nat) :
    fld (sumStep l S) b =
      if b < 2 ^ 18 then ((moves b l).map fun n => (walkStats fuel n (l + 1)).get k).sum
      else 0 := by
  have hM : 9 * 9 ^ (9 - (l + 1)) < 2 ^ 32 := by
    rw [pow_nine_succ hl]
    exact pow_nine_lt l
  rw [fld_sumStep l S _ (9 ^ (9 - (l + 1))) hS (fun c => by
    split
    · exact (walkStats_get fuel c (l + 1) k (by omega) hf).1
    · exact Nat.zero_le _) hM]
  by_cases hb : b < 2 ^ 18
  · rw [if_pos hb, sum_moves]
    congr 1
    apply List.map_congr_left
    intro i hi
    have hi' := List.mem_range.mp hi
    by_cases h0 : getSlot b i = 0
    · rw [if_pos ⟨hb, h0⟩, if_pos h0,
        ← putSlot_eq_add b i _ (lt_of_lt_of_le hb (by norm_num)) (by omega) (by omega) h0,
        if_pos (putSlot_lt_of_lt b i _ hb (by omega) (by omega))]
    · rw [if_neg (fun h => h0 h.2), if_neg h0]
  · rw [if_neg hb]
    have : ((List.range 9).map fun i =>
        if b < 2 ^ 18 ∧ getSlot b i = 0 then
          (fun c => if c < 2 ^ 18 then (walkStats fuel c (l + 1)).get k else 0)
            (b + (l % 2 + 1) * 4 ^ i)
        else 0) = (List.range 9).map fun _ => 0 := by
      apply List.map_congr_left
      intro i _
      rw [if_neg (fun h => hb h.1)]
    rw [this, sum_map_zero]

theorem fld_leafVec (k l b : Nat) (h4 : 4 < l) :
    fld (leafVec k l) b =
      if b < 2 ^ 18 then
        if hasWinner b = true then
          (if l % 2 = 0 then (⟨0, 1, 0⟩ : Stats) else ⟨1, 0, 0⟩).get k
        else if l = 9 then (⟨0, 0, 1⟩ : Stats).get k else 0
      else 0 := by
  have hw := fld_ind ind_win b
  have hc := fld_ind (ind_compl ind_win (fun b h => h.1)) b
  rw [leafVec, if_pos h4, fld_or]
  by_cases hb : b < 2 ^ 18 <;> by_cases hwin : hasWinner b = true <;>
    by_cases hk0 : k = 0 <;> by_cases hk1 : k = 1 <;> by_cases hp : l % 2 = 0 <;>
    by_cases h9 : l = 9 <;>
    simp [hb, hwin, hk0, hk1, hp, h9, hw, hc, fld_zero_left, Stats.get]

/-- Field `b` of `statsVec k fuel level` is component `k` of the value that
`walkRecurse` returns on board `b` at `level`. -/
theorem fld_statsVec (k fuel l : Nat) (hl : l ≤ 9) (hf : 10 ≤ fuel + l) (b : Nat) :
    fld (statsVec k fuel l) b = if b < 2 ^ 18 then (walkStats fuel b l).get k else 0 := by
  induction fuel generalizing l b with
  | zero => omega
  | succ fuel ih =>
    rw [statsVec]
    by_cases h9 : l = 9
    · rw [if_pos h9, fld_leafVec k l b (by omega), walkStats]
      subst h9
      by_cases hb : b < 2 ^ 18 <;> by_cases hwin : hasWinner b = true <;> simp [hb, hwin]
    · have h8 : l ≤ 8 := by omega
      have hsum := fld_sumStep_moves k fuel l (statsVec k fuel (l + 1)) h8 (by omega)
        (fun c => ih (l + 1) (by omega) (by omega) c) b
      rw [if_neg h9]
      by_cases h4 : l > 4
      · rw [if_pos h4, fld_or, fld_and, fld_leafVec k l b h4,
          fld_mask (ind_compl ind_win (fun b h => h.1)), and_mask _ _ (fld_lt _ _), hsum]
        by_cases hb : b < 2 ^ 18
        · by_cases hwin : hasWinner b = true
          · have hnot : ¬ (b < 2 ^ 18 ∧ ¬ (b < 2 ^ 18 ∧ hasWinner b = true)) :=
              fun h => h.2 ⟨hb, hwin⟩
            rw [if_pos hb, if_pos hwin, if_neg hnot, Nat.or_zero, if_pos hb, walkStats,
              if_pos (show l > 4 ∧ hasWinner b = true from ⟨h4, hwin⟩)]
          · have hyes : b < 2 ^ 18 ∧ ¬ (b < 2 ^ 18 ∧ hasWinner b = true) :=
              ⟨hb, fun h => hwin h.2⟩
            have hnt : ¬ terminalAt b l := fun h => h.elim (fun h => hwin h.2) h9
            rw [if_pos hb, if_neg hwin, if_neg h9, if_pos hyes, if_pos hb, Nat.zero_or,
              if_pos hb, (walkStats_get (fuel + 1) b l k hl hf).2 hnt fuel rfl]
        · have hnot : ¬ (b < 2 ^ 18 ∧ ¬ (b < 2 ^ 18 ∧ hasWinner b = true)) := fun h => hb h.1
          rw [if_neg hb, if_neg hnot, Nat.or_zero, if_neg hb]
      · rw [if_neg h4, hsum]
        by_cases hb : b < 2 ^ 18
        · have hnt : ¬ terminalAt b l := fun h => h.elim (fun h => h4 h.1) h9
          rw [if_pos hb, if_pos hb, (walkStats_get (fuel + 1) b l k hl hf).2 hnt fuel rfl]
        · rw [if_neg hb, if_neg hb]

theorem Walk_eq : Walk = some walked := by
  unfold Walk walked
  rw [walkRecurse_eq 10 ⟨∅, ∅⟩ 0 0 (by omega) (by omega), Option.map_some']

theorem WhichTurn_zero : WhichTurn 0 = 0 := by decide

theorem Path_root {d k : Nat} (h : Path d 0 0 k) :
    d ≤ 9 ∧ k < 2 ^ 18 ∧ WhichTurn k = d := by
  have h1 := Path_level (Nat.zero_le 9) h
  have h2 := Path_spec (Nat.zero_le 9) (by norm_num) h
  rw [WhichTurn_zero, Nat.zero_add] at h2
  exact ⟨by omega, h2.1, h2.2⟩

/-- The keys of the statistics map are the boards on which a call is made. -/
theorem mem_walked_statsMap (k : Nat) : k ∈ walked.statsMap ↔ ∃ d, Path d 0 0 k := by
  unfold walked
  simp only []
  rw [AList.mem_insert, mem_applyRecs]
  constructor
  · rintro (h | h | ⟨r, hr, rfl⟩)
    · exact ⟨0, h⟩
    · exact absurd h (AList.not_mem_empty k)
    · obtain ⟨d, _, hp, _⟩ := (mem_recs (Nat.zero_le 9) (by norm_num) r).mp hr
      exact ⟨d, hp⟩
  · rintro ⟨d, hp⟩
    rcases Nat.eq_zero_or_pos d with h0 | h0
    · subst h0
      exact Or.inl hp
    · right; right
      exact ⟨(k, walkStats (10 - d) k (0 + d)),
        (mem_recs (Nat.zero_le 9) (by norm_num) _).mpr ⟨d, h0, hp, rfl⟩, rfl⟩

/-- The value recorded for a board is the value returned by the call on it. -/
theorem walked_Stats {k : Nat} (h : k ∈ walked.statsMap) :
    walked.statsMap.lookup k = some (walkStats (10 - WhichTurn k) k (WhichTurn k)) := by
  obtain ⟨v, hv⟩ := Option.isSome_iff_exists.mp (AList.lookup_isSome.mpr h)
  rw [hv]
  congr 1
  unfold walked at hv
  simp only [] at hv
  by_cases hk : k = 0
  · subst hk
    rw [AList.lookup_insert] at hv
    rw [WhichTurn_zero]
    exact (Option.some.inj hv).symm
  · rw [AList.lookup_insert_ne hk] at hv
    rcases lookup_applyRecs _ _ _ _ hv with h1 | h1
    · simp at h1
    · obtain ⟨d, _, hp, hval⟩ := (mem_recs (Nat.zero_le 9) (by norm_num) _).mp h1
      have := (Path_root hp).2.2
      simp only [Nat.zero_add] at hval
      rw [this, hval]

/-- The keys of the tree are the boards on which some call loops. -/
theorem mem_walked_tree (k : Nat) :
    k ∈ walked.tree ↔ ∃ d, Path d 0 0 k ∧ ¬ terminalAt k d := by
  unfold walked
  simp only []
  rw [mem_applyEdges]
  constructor
  · rintro (h | ⟨e, he, rfl⟩)
    · exact absurd h (AList.not_mem_empty k)
    · obtain ⟨d, hp, hnt, _⟩ := (mem_edges (Nat.zero_le 9) (by norm_num) e).mp he
      rw [Nat.zero_add] at hnt
      exact ⟨d, hp, hnt⟩
  · rintro ⟨d, hp, hnt⟩
    right
    obtain ⟨hd, _, hw⟩ := Path_root hp
    have h8 := not_terminalAt_lt hd hnt
    have hne : moves k d ≠ [] := (moves_ne_nil_iff k d).mpr (by omega)
    obtain ⟨n, hn⟩ := List.exists_mem_of_ne_nil _ hne
    exact ⟨(k, n), (mem_edges (Nat.zero_le 9) (by norm_num) _).mpr
      ⟨d, hp, by rwa [Nat.zero_add], by rwa [Nat.zero_add]⟩, rfl⟩

theorem walked_Next (k : Nat) :
    walked.Next k = ((edges 10 0 0).filter fun e => e.1 = k).map (·.2) := by
  unfold Computer.Next walked
  simp only []
  rw [lookup_applyEdges]
  simp

theorem walked_Next_eq_nil (k : Nat) : walked.Next k = [] ↔ k ∉ walked.tree := by
  rw [walked_Next]
  unfold walked
  simp only []
  rw [mem_applyEdges]
  constructor
  · intro h
    rintro (h1 | ⟨e, he, rfl⟩)
    · exact absurd h1 (AList.not_mem_empty _)
    · have : e.2 ∈ ((edges 10 0 0).filter fun e' => e'.1 = e.1).map (·.2) :=
        List.mem_map.mpr ⟨e, List.mem_filter.mpr ⟨he, by simp⟩, rfl⟩
      rw [h] at this
      cases this
  · intro h
    rw [List.map_eq_nil_iff, List.filter_eq_nil_iff]
    intro e he h1
    exact h (Or.inr ⟨e, he, by simpa using h1⟩)

/-! ### Evaluated tables -/

theorem tables_root :
    fld (statsVec 0 10 0) 0 = 131184 ∧ fld (statsVec 1 10 0) 0 = 77904 ∧
      fld (statsVec 2 10 0) 0 = 46080 := by
  decide!

theorem tables_count : fieldSum visitedVec = 5478 ∧ fieldSum parentVec = 4520 := by
  decide!

theorem tables_owner :
    (reachVec 5 ||| reachVec 7 ||| reachVec 9) &&&
        (ownVec 2 ||| (winVec &&& (onesVec ^^^ ownVec 1))) = 0 ∧
      (reachVec 6 ||| reachVec 8) &&&
        (ownVec 1 ||| (winVec &&& (onesVec ^^^ ownVec 2))) = 0 := by
  decide!

/-! ### Reading the tables -/

theorem stats_eta (s : Stats) : s = ⟨s.get 0, s.get 1, s.get 2⟩ := by
  cases s
  rfl

theorem walkStats_eq_fields (fuel b l : Nat) (hl : l ≤ 9) (hf : 10 ≤ fuel + l)
    (hb : b < 2 ^ 18) :
    walkStats fuel b l =
      ⟨fld (statsVec 0 fuel l) b, fld (statsVec 1 fuel l) b, fld (statsVec 2 fuel l) b⟩ := by
  rw [fld_statsVec 0 fuel l hl hf, fld_statsVec 1 fuel l hl hf, fld_statsVec 2 fuel l hl hf,
    if_pos hb, if_pos hb, if_pos hb]
  exact stats_eta _

theorem ind_eq_zero {V : Nat} {P : Nat → Prop} (h : Ind V P) (hV : V = 0) (b : Nat) : ¬ P b := by
  intro hp
  have := (h (32 * b)).mpr ⟨by omega, by rwa [Nat.mul_div_cancel_left b (by norm_num)]⟩
  rw [hV, Nat.zero_testBit] at this
  cases this

theorem ind_visited : Ind visitedVec (fun b => ∃ d, Path d 0 0 b) := by
  have h := ind_foldl_or reachVec (fun d b => Path d 0 0 b) (List.range 10)
    (fun d hd => ind_reach d (Nat.le_of_lt_succ (List.mem_range.mp hd))) ind_zero
  rw [visitedVec]
  refine ind_congr h (fun b => ?_)
  constructor
  · rintro (h | ⟨d, _, hp⟩)
    · exact h.elim
    · exact ⟨d, hp⟩
  · rintro ⟨d, hp⟩
    exact Or.inr ⟨d, List.mem_range.mpr (Nat.lt_succ_of_le (Path_root hp).1), hp⟩

theorem ind_parent : Ind parentVec (fun b => ∃ d, Path d 0 0 b ∧ ¬ terminalAt b d) := by
  have h := ind_foldl_or (fun d => liveVec d (reachVec d))
    (fun d b => Path d 0 0 b ∧ ¬ terminalAt b d) (List.range 10)
    (fun d hd => ind_live (ind_reach d (Nat.le_of_lt_succ (List.mem_range.mp hd)))
      (fun b h => Path_lt h) d) ind_zero
  rw [parentVec]
  refine ind_congr h (fun b => ?_)
  constructor
  · rintro (h | ⟨d, _, hp⟩)
    · exact h.elim
    · exact ⟨d, hp⟩
  · rintro ⟨d, hp⟩
    exact Or.inr ⟨d, List.mem_range.mpr (Nat.lt_succ_of_le (Path_root hp.1).1), hp⟩

theorem keys_length_eq {β : Type} (m : AList (fun _ : Nat => β)) (P : Nat → Prop)
    [DecidablePred P] (hP : ∀ k, k ∈ m ↔ P k) (hlt : ∀ k, P k → k < 2 ^ 18) :
    m.keys.length = ((Finset.range (2 ^ 18)).filter P).card := by
  have e : m.keys.toFinset = (Finset.range (2 ^ 18)).filter P := by
    ext k
    rw [List.mem_toFinset, Finset.mem_filter, Finset.mem_range, ← AList.mem_keys, hP]
    exact ⟨fun h => ⟨hlt k h, h⟩, fun h => h.2⟩
  rw [← List.toFinset_card_of_nodup m.keys_nodup, e]

/-- No board called at an odd depth from 5 on holds a line of piece 2, and each
such board with a completed line holds a line of piece 1; the same at the even
depths with the pieces exchanged. -/
theorem owner_of_line {d b : Nat} (hp : Path d 0 0 b) (hd : 4 < d) :
    (d % 2 ≠ 0 → ¬ ownsLine b 2 ∧ (hasWinner b = true → ownsLine b 1)) ∧
    (d % 2 = 0 → ¬ ownsLine b 1 ∧ (hasWinner b = true → ownsLine b 2)) := by
  obtain ⟨hd9, hb, _⟩ := Path_root hp
  have hc1 := ind_compl (ind_own 1 (Or.inl rfl)) (fun b h => h.1)
  have hc2 := ind_compl (ind_own 2 (Or.inr rfl)) (fun b h => h.1)
  have h1 := ind_eq_zero (ind_and
    (ind_or (ind_or (ind_reach 5 (by norm_num)) (ind_reach 7 (by norm_num)))
      (ind_reach 9 (by norm_num)))
    (ind_or (ind_own 2 (Or.inr rfl)) (ind_and ind_win hc1))) tables_owner.1 b
  have h2 := ind_eq_zero (ind_and
    (ind_or (ind_reach 6 (by norm_num)) (ind_reach 8 (by norm_num)))
    (ind_or (ind_own 1 (Or.inl rfl)) (ind_and ind_win hc2))) tables_owner.2 b
  constructor
  · intro hodd
    have hreach : (Path 5 0 0 b ∨ Path 7 0 0 b) ∨ Path 9 0 0 b := by
      have : d = 5 ∨ d = 7 ∨ d = 9 := by omega
      rcases this with rfl | rfl | rfl
      · exact Or.inl (Or.inl hp)
      · exact Or.inl (Or.inr hp)
      · exact Or.inr hp
    refine ⟨fun h => h1 ⟨hreach, Or.inl ⟨hb, h⟩⟩, fun hw => ?_⟩
    by_contra hno
    exact h1 ⟨hreach, Or.inr ⟨⟨hb, hw⟩, hb, fun h => hno h.2⟩⟩
  · intro heven
    have hreach : Path 6 0 0 b ∨ Path 8 0 0 b := by
      have : d = 6 ∨ d = 8 := by omega
      rcases this with rfl | rfl
      · exact Or.inl hp
      · exact Or.inr hp
    refine ⟨fun h => h2 ⟨hreach, Or.inl ⟨hb, h⟩⟩, fun hw => ?_⟩
    by_contra hno
    exact h2 ⟨hreach, Or.inr ⟨⟨hb, hw⟩, hb, fun h => hno h.2⟩⟩

theorem walked_Stats_eq {k : Nat} (h : k ∈ walked.statsMap) :
    walked.Stats k = walkStats (10 - WhichTurn k) k (WhichTurn k) := by
  unfold Computer.Stats
  rw [walked_Stats h]
  rfl

/-! ## Main results -/

/-- C1. `Walk()` returns, and the structure it returns records under key 0
(the empty board) the triple X = 131184, O = 77904, T = 46080. -/
theorem walk_root_stats :
    ∃ c, Walk = some c ∧ c.statsMap.lookup 0 = some ⟨131184, 77904, 46080⟩ ∧
      c.Stats 0 = ⟨131184, 77904, 46080⟩ := by
  have h0 : walked.statsMap.lookup 0 = some (walkStats 10 0 0) := by
    unfold walked
    exact AList.lookup_insert _
  have hv : walkStats 10 0 0 = ⟨131184, 77904, 46080⟩ := by
    rw [walkStats_eq_fields 10 0 0 (by omega) (by omega) (by norm_num), tables_root.1,
      tables_root.2.1, tables_root.2.2]
  refine ⟨walked, Walk_eq, ?_, ?_⟩
  · rw [h0, hv]
  · unfold Computer.Stats
    rw [h0, hv]
    rfl

/-- C2. In the structure returned by `Walk()` the tree has exactly 4520 keys,
which are the boards with at least one child, and the statistics map has exactly
5478 keys, the empty board among them. -/
theorem walk_sizes :
    ∃ c, Walk = some c ∧ c.tree.keys.length = 4520 ∧ c.statsMap.keys.length = 5478 ∧
      (∀ b, b ∈ c.tree.keys ↔ c.Next b ≠ []) ∧ 0 ∈ c.statsMap.keys := by
  classical
  refine ⟨walked, Walk_eq, ?_, ?_, ?_, ?_⟩
  · rw [keys_length_eq walked.tree (fun b => ∃ d, Path d 0 0 b ∧ ¬ terminalAt b d)
      mem_walked_tree (fun b h => by obtain ⟨d, hp, _⟩ := h; exact Path_lt hp),
      ← fieldSum_ind ind_parent (fun b h => by obtain ⟨d, hp, _⟩ := h; exact Path_lt hp)]
    exact tables_count.2
  · rw [keys_length_eq walked.statsMap (fun b => ∃ d, Path d 0 0 b)
      mem_walked_statsMap (fun b h => by obtain ⟨d, hp⟩ := h; exact Path_lt hp),
      ← fieldSum_ind ind_visited (fun b h => by obtain ⟨d, hp⟩ := h; exact Path_lt hp)]
    exact tables_count.1
  · intro b
    rw [← AList.mem_keys, Ne, walked_Next_eq_nil, not_not]
  · rw [← AList.mem_keys, mem_walked_statsMap]
    exact ⟨0, rfl⟩

/-- C5. In the structure returned by `Walk()` every terminal board of the
statistics map has one counter at 1 and two at 0, and the counter is that of the
piece owning the completed line: X when a triple holds piece 1 three times (then
none holds piece 2), O when a triple holds piece 2 three times (then none holds
piece 1), T when the board is full and `hasWinner` is false. -/
theorem walk_terminal_stats :
    ∃ c, Walk = some c ∧ ∀ b, b ∈ c.statsMap.keys →
      ((WhichTurn b > 4 ∧ hasWinner b = true) ∨ WhichTurn b = 9) →
      (ownsLine b 1 ∧ ¬ ownsLine b 2 ∧ c.Stats b = ⟨1, 0, 0⟩) ∨
      (ownsLine b 2 ∧ ¬ ownsLine b 1 ∧ c.Stats b = ⟨0, 1, 0⟩) ∨
      (WhichTurn b = 9 ∧ hasWinner b = false ∧ c.Stats b = ⟨0, 0, 1⟩) := by
  refine ⟨walked, Walk_eq, fun b hb ht => ?_⟩
  have hmem : b ∈ walked.statsMap := AList.mem_keys.mpr hb
  obtain ⟨d, hp⟩ := (mem_walked_statsMap b).mp hmem
  obtain ⟨hd9, _, hw⟩ := Path_root hp
  rw [walked_Stats_eq hmem, hw]
  rw [hw] at ht
  obtain ⟨f, hf⟩ : ∃ f, 10 - d = f + 1 := ⟨9 - d, by omega⟩
  rw [hf, walkStats]
  by_cases hwin : d > 4 ∧ hasWinner b = true
  · have hown := owner_of_line hp hwin.1
    rw [if_pos hwin]
    by_cases hpar : d % 2 = 0
    · rw [if_pos hpar]
      obtain ⟨h1, h2⟩ := hown.2 hpar
      exact Or.inr (Or.inl ⟨h2 hwin.2, h1, rfl⟩)
    · rw [if_neg hpar]
      obtain ⟨h1, h2⟩ := hown.1 hpar
      exact Or.inl ⟨h2 hwin.2, h1, rfl⟩
  · have h9 : d = 9 := ht.elim (fun h => absurd h hwin) id
    rw [if_neg hwin, if_pos h9]
    refine Or.inr (Or.inr ⟨h9, ?_, rfl⟩)
    cases hh : hasWinner b
    · rfl
    · exact absurd ⟨by omega, hh⟩ hwin

/-- C6. In the structure returned by `Walk()`, for every board `b` of the
statistics map, `Next(b)` is empty exactly when `b` is not a key of the tree,
and exactly when `b` is terminal: `WhichTurn(b) > 4` and `hasWinner(b)`, or
`WhichTurn(b) = 9`. -/
theorem walk_leaf_iff_terminal :
    ∃ c, Walk = some c ∧ ∀ b, b ∈ c.statsMap.keys →
      (c.Next b = [] ↔ b ∉ c.tree.keys) ∧
      (c.Next b = [] ↔ ((WhichTurn b > 4 ∧ hasWinner b = true) ∨ WhichTurn b = 9)) := by
  refine ⟨walked, Walk_eq, fun b hb => ?_⟩
  have hmem : b ∈ walked.statsMap := AList.mem_keys.mpr hb
  obtain ⟨d, hp⟩ := (mem_walked_statsMap b).mp hmem
  obtain ⟨_, _, hw⟩ := Path_root hp
  have h1 : walked.Next b = [] ↔ b ∉ walked.tree.keys := by
    rw [walked_Next_eq_nil, AList.mem_keys]
  refine ⟨h1, ?_⟩
  rw [walked_Next_eq_nil, mem_walked_tree]
  constructor
  · intro h
    by_contra hnt
    exact h ⟨d, hp, by rw [hw] at hnt; exact hnt⟩
  · rintro ht ⟨d', hp', hnt⟩
    have := (Path_root hp').2.2
    rw [this] at ht
    exact hnt ht

theorem filter_edges_eq_nil {fuel cur lvl k : Nat} (hl : lvl ≤ 9) (hf : 10 ≤ fuel + lvl)
    (hc : cur < 2 ^ 18) (hk : WhichTurn k < WhichTurn cur) :
    (edges fuel cur lvl).filter (fun e => e.1 = k) = [] := by
  rw [List.filter_eq_nil_iff]
  intro e he h
  obtain ⟨d, hp, _, _⟩ := (mem_edges hl hf e).mp he
  have := (Path_spec hl hc hp).2
  have h1 : e.1 = k := by simpa using h
  rw [h1] at this
  omega

theorem filter_flatMap_edges (fuel cur lvl k : Nat) (ms : List Nat) :
    ((ms.flatMap fun next => (cur, next) :: edges fuel next lvl).filter
        (fun e => e.1 = k)).map (·.2) =
      ms.flatMap fun next =>
        (if cur = k then [next] else []) ++
          ((edges fuel next lvl).filter (fun e => e.1 = k)).map (·.2) := by
  induction ms with
  | nil => rfl
  | cons n t ih =>
    rw [List.flatMap_cons, List.flatMap_cons, List.filter_append, List.map_append, ih]
    congr 1
    by_cases h : cur = k
    · simp [h, List.filter_cons]
    · simp [h, List.filter_cons]

theorem flatMap_singleton_self (ms : List Nat) : (ms.flatMap fun n => [n] ++ []) = ms := by
  induction ms with
  | nil => rfl
  | cons n t ih => rw [List.flatMap_cons, ih]; rfl

theorem flatMap_nil_const (ms : List Nat) : (ms.flatMap fun _ => ([] : List Nat) ++ []) = [] := by
  induction ms with
  | nil => rfl
  | cons n t ih => rw [List.flatMap_cons, ih]; rfl

/-- The appends to `tree[k]` are made by the calls on `k`, all at the depth
given by the number of pieces of `k`. -/
theorem filter_edges_eq_nextAt (k d fuel cur lvl : Nat) (hl : lvl ≤ 9) (hf : 10 ≤ fuel + lvl)
    (hc : cur < 2 ^ 18) (hk : WhichTurn k = WhichTurn cur + d) :
    ((edges fuel cur lvl).filter (fun e => e.1 = k)).map (·.2) = nextAt k d cur lvl := by
  induction d generalizing fuel cur lvl with
  | zero =>
    obtain ⟨f, rfl⟩ : ∃ f, fuel = f + 1 := ⟨fuel - 1, by omega⟩
    rw [edges, nextAt]
    by_cases ht : terminalAt cur lvl
    · rw [if_pos ht, if_neg (fun h => h.2 ht)]
      rfl
    · have h8 := not_terminalAt_lt hl ht
      rw [if_neg ht, succ_mod hl, filter_flatMap_edges]
      have hsub : ∀ n ∈ moves cur lvl,
          ((edges f n (lvl + 1)).filter (fun e => e.1 = k)).map (·.2) = [] := by
        intro n hn
        obtain ⟨h1, h2⟩ := moves_spec hc hn
        rw [filter_edges_eq_nil (by omega) (by omega) h1 (by omega)]
        rfl
      rw [List.flatMap_congr (fun n hn => by rw [hsub n hn])]
      by_cases hck : cur = k
      · rw [if_pos ⟨hck, ht⟩]
        simp only [hck, if_true]
        exact flatMap_singleton_self _
      · rw [if_neg (fun h => hck h.1)]
        simp only [hck, if_false]
        exact flatMap_nil_const _
  | succ d ih =>
    obtain ⟨f, rfl⟩ : ∃ f, fuel = f + 1 := ⟨fuel - 1, by omega⟩
    rw [edges, nextAt]
    by_cases ht : terminalAt cur lvl
    · rw [if_pos ht, if_pos ht]
      rfl
    · have h8 := not_terminalAt_lt hl ht
      have hck : ¬ cur = k := by
        intro h
        rw [h] at hk
        omega
      rw [if_neg ht, if_neg ht, succ_mod hl, filter_flatMap_edges]
      apply List.flatMap_congr
      intro n hn
      obtain ⟨h1, h2⟩ := moves_spec hc hn
      rw [if_neg hck, List.nil_append]
      exact ih f n (lvl + 1) (by omega) (by omega) h1 (by omega)

theorem walked_Next_eq_nextAt (k : Nat) :
    walked.Next k = nextAt k (WhichTurn k) 0 0 := by
  rw [walked_Next]
  exact filter_edges_eq_nextAt k (WhichTurn k) 10 0 0 (by omega) (by omega) (by norm_num)
    (by rw [WhichTurn_zero, Nat.zero_add])

theorem nextAt_25 :
    WhichTurn 25 = 3 ∧
      nextAt 25 3 0 0 =
        [153, 537, 2073, 8217, 32793, 131097, 153, 537, 2073, 8217, 32793, 131097] := by
  decide!

theorem tables_25 :
    (fld (statsVec 0 7 3) 25 = 268 ∧ fld (statsVec 1 7 3) 25 = 144 ∧
      fld (statsVec 2 7 3) 25 = 180) ∧
    [153, 537, 2073, 8217, 32793, 131097].map (fun n =>
      (fld (statsVec 0 6 4) n, fld (statsVec 1 6 4) n, fld (statsVec 2 6 4) n)) =
      [(58, 20, 24), (24, 32, 36), (58, 20, 24), (40, 20, 48), (48, 32, 0), (40, 20, 48)] := by
  decide!

/-- C3, at board 25 (pieces 1, 2, 1 in cells 0, 1, 2; three pieces, six empty
cells). `Walk()` leaves twelve entries in `Next(25)`: the six legal
continuations, then the same six again, one run for each of the two move orders
that reach the board. -/
theorem walk_next_repeats :
    ∃ c, Walk = some c ∧ WhichTurn 25 = 3 ∧ moves 25 3 = [153, 537, 2073, 8217, 32793, 131097] ∧
      c.Next 25 =
        [153, 537, 2073, 8217, 32793, 131097, 153, 537, 2073, 8217, 32793, 131097] := by
  refine ⟨walked, Walk_eq, nextAt_25.1, by decide, ?_⟩
  rw [walked_Next_eq_nextAt, nextAt_25.1, nextAt_25.2]

theorem walked_Stats_of_path {d k : Nat} (hp : Path d 0 0 k) :
    walked.Stats k =
      ⟨fld (statsVec 0 (10 - d) d) k, fld (statsVec 1 (10 - d) d) k,
        fld (statsVec 2 (10 - d) d) k⟩ := by
  obtain ⟨hd, hk, hw⟩ := Path_root hp
  rw [walked_Stats_eq ((mem_walked_statsMap k).mpr ⟨d, hp⟩), hw]
  exact walkStats_eq_fields (10 - d) k d hd (by omega) hk

theorem Path_25 : Path 3 0 0 25 ∧ ¬ terminalAt 25 3 := by
  have hne : walked.Next 25 ≠ [] := by
    rw [walked_Next_eq_nextAt, nextAt_25.1, nextAt_25.2]
    exact List.cons_ne_nil _ _
  have hmem : 25 ∈ walked.tree := by
    by_contra h
    exact hne ((walked_Next_eq_nil 25).mpr h)
  obtain ⟨d, hp, hnt⟩ := (mem_walked_tree 25).mp hmem
  have hd : d = 3 := by
    rw [← (Path_root hp).2.2]
    exact nextAt_25.1
  subst hd
  exact ⟨hp, hnt⟩

theorem tables_25_sum :
    [153, 537, 2073, 8217, 32793, 131097, 153, 537, 2073, 8217, 32793, 131097].foldl
      (fun (s : Stats) n => s.add
        ⟨fld (statsVec 0 6 4) n, fld (statsVec 1 6 4) n, fld (statsVec 2 6 4) n⟩)
      (⟨0, 0, 0⟩ : Stats) = ⟨536, 288, 360⟩ := by
  decide!

/-- C4, at board 25. `Walk()` records `Stats(25) = {268, 144, 180}`, while the
element-wise sum of `Stats` over the twelve entries of `Next(25)` is
`{536, 288, 360}`, twice as much. -/
theorem walk_stats_sum_doubled :
    ∃ c, Walk = some c ∧ 25 ∈ c.tree.keys ∧ c.Stats 25 = ⟨268, 144, 180⟩ ∧
      (c.Next 25).foldl (fun (s : Stats) n => s.add (c.Stats n)) (⟨0, 0, 0⟩ : Stats) =
        ⟨536, 288, 360⟩ := by
  obtain ⟨hp, hnt⟩ := Path_25
  refine ⟨walked, Walk_eq, ?_, ?_, ?_⟩
  · exact AList.mem_keys.mp ((mem_walked_tree 25).mpr ⟨3, hp, hnt⟩)
  · rw [walked_Stats_of_path hp, tables_25.1.1, tables_25.1.2.1, tables_25.1.2.2]
  · have hnext : walked.Next 25 =
        [153, 537, 2073, 8217, 32793, 131097, 153, 537, 2073, 8217, 32793, 131097] := by
      rw [walked_Next_eq_nextAt, nextAt_25.1, nextAt_25.2]
    have hmoves : moves 25 3 = [153, 537, 2073, 8217, 32793, 131097] := by decide
    have hchild : ∀ n ∈ [153, 537, 2073, 8217, 32793, 131097, 153, 537, 2073, 8217, 32793,
        131097], walked.Stats n =
        ⟨fld (statsVec 0 6 4) n, fld (statsVec 1 6 4) n, fld (statsVec 2 6 4) n⟩ := by
      intro n hn
      have hm : n ∈ moves 25 3 := by
        rw [hmoves]
        have hn' : n ∈ [153, 537, 2073, 8217, 32793, 131097] ++
            [153, 537, 2073, 8217, 32793, 131097] := hn
        rcases List.mem_append.mp hn' with h | h <;> exact h
      have hp4 : Path 4 0 0 n :=
        (@Path_succ_last 3 0 0 n (by omega)).mpr ⟨25, hp, hnt, hm⟩
      exact walked_Stats_of_path hp4
    rw [hnext, List.foldl_ext _ _ _ (fun s n hn => by rw [hchild n hn])]
    exact tables_25_sum

theorem line_iff (b x y z : Nat) :
    (getSlot b x ≠ 0 ∧ getSlot b x = getSlot b y ∧ getSlot b y = getSlot b z) ↔
      sameNonZero b x y z := by
  constructor
  · rintro ⟨h0, h1, h2⟩
    exact ⟨getSlot b x, h0, rfl, h1.symm, by rw [← h2, ← h1]⟩
  · rintro ⟨v, hv, h1, h2, h3⟩
    rw [h1, h2, h3]
    exact ⟨hv, rfl, rfl⟩

/-- C7 witness: board `0b100110`, cell 2, piece 3. -/
theorem putSlot_getSlot_spec_witness :
    (38 < 2 ^ 32 ∧ 2 ≤ 8 ∧ 3 ≤ 3) ∧
      (getSlot (putSlot 38 2 3) 2 = 3 ∧
        (∀ j, j ≤ 8 → j ≠ 2 → getSlot (putSlot 38 2 3) j = getSlot 38 j) ∧
        (∀ k, k ≠ 2 * 2 → k ≠ 2 * 2 + 1 → (putSlot 38 2 3).testBit k = Nat.testBit 38 k)) :=
  ⟨⟨by norm_num, by norm_num, by norm_num⟩,
    putSlot_getSlot_spec 38 2 3 (by norm_num) (by norm_num) (by norm_num)⟩

/-- C8. For every board word, `hasWinner` is true exactly when one of the eight
triples {8,7,6}, {5,4,3}, {2,1,0}, {8,5,2}, {7,4,1}, {6,3,0}, {8,4,0}, {6,4,2}
holds one non-zero value in its three cells; so it is false on the empty board,
on two equal pieces in a row and on a lone occupied centre. -/
theorem hasWinner_iff (b : Nat) :
    (hasWinner b = true ↔
      sameNonZero b 8 7 6 ∨ sameNonZero b 5 4 3 ∨ sameNonZero b 2 1 0 ∨
      sameNonZero b 8 5 2 ∨ sameNonZero b 7 4 1 ∨ sameNonZero b 6 3 0 ∨
      sameNonZero b 8 4 0 ∨ sameNonZero b 6 4 2) ∧
    hasWinner 0 = false ∧ hasWinner 0b010001 = false ∧ hasWinner (0b001100 <<< 6) = false := by
  refine ⟨?_, by decide, by decide, by decide⟩
  simp only [← line_iff]
  unfold hasWinner stensils
  simp only [List.any_cons, List.any_nil, Bool.or_false, Bool.or_eq_true, decide_eq_true_eq]

/-- C9 witness: the structure of the serialization test. -/
theorem serialize_layout_witness :
    (sampleComputer.statsMap.keys.length < 2 ^ 31 ∧ sampleComputer.tree.keys.length < 2 ^ 31 ∧
      ∀ node ∈ sampleComputer.tree.keys, (sampleComputer.Next node).length < 2 ^ 31) ∧
    ∃ statsKeys treeKeys : List Nat,
      statsKeys.Sorted (· < ·) ∧ (∀ k, k ∈ statsKeys ↔ k ∈ sampleComputer.statsMap.keys) ∧
      treeKeys.Sorted (· < ·) ∧ (∀ k, k ∈ treeKeys ↔ k ∈ sampleComputer.tree.keys) ∧
      sampleComputer.Serialize (bufferWriter Unit) [] =
        .ok ([] ++ fileLayout sampleComputer statsKeys treeKeys) ∧
      ∀ c' : Computer, c'.statsMap.entries.Perm sampleComputer.statsMap.entries →
        c'.tree.entries.Perm sampleComputer.tree.entries →
        c'.Serialize (bufferWriter Unit) [] = sampleComputer.Serialize (bufferWriter Unit) [] :=
  ⟨⟨by decide, by decide, by decide⟩,
    serialize_layout Unit sampleComputer [] (by decide) (by decide) (by decide)⟩

/-- C10 witness: the structure of the serialization test. -/
theorem deserialize_serialize_witness :
    (sampleComputer.WellTyped ∧ sampleComputer.statsMap.keys.length < 2 ^ 31 ∧
      sampleComputer.tree.keys.length < 2 ^ 31 ∧
      ∀ node ∈ sampleComputer.tree.keys, (sampleComputer.Next node).length < 2 ^ 31) ∧
    ∃ (file : List Nat) (c' : Computer),
      sampleComputer.Serialize (bufferWriter Unit) [] = .ok file ∧
      Deserialize file = .returned c' none ∧
      (∀ k, c'.statsMap.lookup k = sampleComputer.statsMap.lookup k) ∧
      (∀ k, c'.tree.lookup k = sampleComputer.tree.lookup k) :=
  ⟨⟨by decide, by decide, by decide, by decide⟩,
    deserialize_serialize Unit sampleComputer (by decide) (by decide) (by decide) (by decide)⟩

/-- The game X0 O3 X1 O4 X2: five calls deep, ending on board 661. -/
theorem Path_661 : Path 5 0 0 661 :=
  ⟨by decide, 1, by decide, by decide, 129, by decide, by decide, 133, by decide,
    by decide, 645, by decide, by decide, 661, by decide, rfl⟩

/-- C5 witness: board 661, where piece 1 completes the line {2,1,0} at the
fifth move. -/
theorem walk_terminal_stats_witness :
    ∃ c, Walk = some c ∧ 661 ∈ c.statsMap.keys ∧
      ((WhichTurn 661 > 4 ∧ hasWinner 661 = true) ∨ WhichTurn 661 = 9) ∧
      ((ownsLine 661 1 ∧ ¬ ownsLine 661 2 ∧ c.Stats 661 = ⟨1, 0, 0⟩) ∨
        (ownsLine 661 2 ∧ ¬ ownsLine 661 1 ∧ c.Stats 661 = ⟨0, 1, 0⟩) ∨
        (WhichTurn 661 = 9 ∧ hasWinner 661 = false ∧ c.Stats 661 = ⟨0, 0, 1⟩)) := by
  obtain ⟨c, hc, h⟩ := walk_terminal_stats
  have hcw : c = walked := Option.some.inj (hc.symm.trans Walk_eq)
  have hk : 661 ∈ c.statsMap.keys := by
    rw [hcw]
    exact AList.mem_keys.mp ((mem_walked_statsMap 661).mpr ⟨5, Path_661⟩)
  exact ⟨c, hc, hk, Or.inl (by decide), h 661 hk (Or.inl (by decide))⟩

/-- C6 witness: board 661 is terminal and has no children. -/
theorem walk_leaf_iff_terminal_witness :
    ∃ c, Walk = some c ∧ 661 ∈ c.statsMap.keys ∧
      (c.Next 661 = [] ↔ 661 ∉ c.tree.keys) ∧
      (c.Next 661 = [] ↔ ((WhichTurn 661 > 4 ∧ hasWinner 661 = true) ∨ WhichTurn 661 = 9)) := by
  obtain ⟨c, hc, h⟩ := walk_leaf_iff_terminal
  have hcw : c = walked := Option.some.inj (hc.symm.trans Walk_eq)
  have hk : 661 ∈ c.statsMap.keys := by
    rw [hcw]
    exact AList.mem_keys.mp ((mem_walked_statsMap 661).mpr ⟨5, Path_661⟩)
  exact ⟨c, hc, hk, h 661 hk⟩

/-! ### What does hold of the children lists -/

/-- Whatever its repetitions, `Next k` holds exactly the boards one move away
from `k`. -/
theorem walked_Next_mem {k : Nat} (hk : k ∈ walked.tree) (n : Nat) :
    n ∈ walked.Next k ↔ n ∈ moves k (WhichTurn k) := by
  rw [walked_Next, List.mem_map]
  constructor
  · rintro ⟨e, he, rfl⟩
    obtain ⟨he1, he2⟩ := List.mem_filter.mp he
    obtain ⟨d, hp, _, hm⟩ := (mem_edges (Nat.zero_le 9) (by norm_num) e).mp he1
    have hek : e.1 = k := by simpa using he2
    rw [Nat.zero_add, hek] at hm
    rw [hek] at hp
    rwa [(Path_root hp).2.2]
  · intro hn
    obtain ⟨d, hp, hnt⟩ := (mem_walked_tree k).mp hk
    have hw := (Path_root hp).2.2
    rw [hw] at hn
    refine ⟨(k, n), List.mem_filter.mpr ⟨?_, by simp⟩, rfl⟩
    exact (mem_edges (Nat.zero_le 9) (by norm_num) _).mpr
      ⟨d, hp, by rwa [Nat.zero_add], by rwa [Nat.zero_add]⟩

/-- The triple recorded for a board on which a call loops is the sum of the
triples recorded for the boards one move away, each taken once. -/
theorem walked_Stats_sum {k : Nat} (hk : k ∈ walked.tree) :
    walked.Stats k =
      (moves k (WhichTurn k)).foldl (fun (s : Stats) n => s.add (walked.Stats n)) ⟨0, 0, 0⟩ := by
  obtain ⟨d, hp, hnt⟩ := (mem_walked_tree k).mp hk
  obtain ⟨hd, _, hw⟩ := Path_root hp
  have h8 := not_terminalAt_lt hd hnt
  have hchild : ∀ n ∈ moves k d, walked.Stats n = walkStats (9 - d) n (d + 1) := by
    intro n hn
    have hp' : Path (d + 1) 0 0 n :=
      (@Path_succ_last d 0 0 n (by omega)).mpr ⟨k, hp, by rwa [Nat.zero_add],
        by rwa [Nat.zero_add]⟩
    rw [walked_Stats_eq ((mem_walked_statsMap n).mpr ⟨d + 1, hp'⟩), (Path_root hp').2.2]
    congr 1
    omega
  rw [walked_Stats_eq ((mem_walked_statsMap k).mpr ⟨d, hp⟩), hw,
    List.foldl_ext _ _ _ (fun s n hn => by rw [hchild n hn])]
  obtain ⟨f, hf⟩ : ∃ f, 10 - d = f + 1 := ⟨9 - d, by omega⟩
  have hf' : 9 - d = f := by omega
  rw [hf, hf', walkStats, if_neg (fun h => hnt (Or.inl h)), if_neg (fun h => hnt (Or.inr h)),
    succ_mod hd]

/-! ### Files that are not what `Serialize` writes -/

theorem readFull_ok {n : Nat} {r : List Nat} (h : n ≤ r.length) :
    readFull n r = .ok (r.take n, r.drop n) := by
  unfold readFull
  rw [if_pos h]

theorem readInt32_ok {r : List Nat} (h : 4 ≤ r.length) :
    ∃ v, readInt32 r = .ok (v, r.drop 4) := by
  unfold readInt32
  rw [readFull_ok h]
  exact ⟨_, rfl⟩

theorem readUint64_ok {r : List Nat} (h : 8 ≤ r.length) :
    readUint64 r = .ok (beValue (r.take 8), r.drop 8) := by
  unfold readUint64
  rw [readFull_ok h]
  rfl

/-- C11. Every byte stream of at least 16 bytes whose bytes 8..15, read as a
big-endian `uint64`, differ from `0xB5DEAD0115145103` makes `Deserialize` return
the error "corrupt file" with the empty `Computer`, whatever the two count
fields and the bytes after the magic are. -/
theorem deserialize_bad_magic (r : List Nat) (hlen : 16 ≤ r.length)
    (hmagic : beValue ((r.drop 8).take 8) ≠ 0xB5DEAD0115145103) :
    Deserialize r = .returned ⟨∅, ∅⟩ (some .corruptFile) := by
  obtain ⟨v1, h1⟩ := @readInt32_ok r (by omega)
  obtain ⟨v2, h2⟩ := @readInt32_ok (r.drop 4) (by rw [List.length_drop]; omega)
  have h3 := @readUint64_ok ((r.drop 4).drop 4) (by rw [List.length_drop, List.length_drop]; omega)
  have hd : (r.drop 4).drop 4 = r.drop 8 := by rw [List.drop_drop]
  rw [hd] at h3 h2
  have hbody : deserializeBody r = .error (.err .corruptFile) := by
    unfold deserializeBody
    rw [h1]
    simp only [bind, Except.bind]
    rw [h2]
    simp only []
    rw [h3]
    simp only []
    rw [if_pos (by unfold magic; exact hmagic)]
  unfold Deserialize
  rw [hbody]

/-- C11 witness: sixteen zero bytes. -/
theorem deserialize_bad_magic_witness :
    (16 ≤ (List.replicate 16 0).length ∧
      beValue (((List.replicate 16 0).drop 8).take 8) ≠ 0xB5DEAD0115145103) ∧
    Deserialize (List.replicate 16 0) = .returned ⟨∅, ∅⟩ (some .corruptFile) :=
  ⟨⟨by decide, by decide⟩, deserialize_bad_magic (List.replicate 16 0) (by decide) (by decide)⟩

/-- C17. A file of 24 bytes, well-formed up to its one tree entry, whose child
count is `-1`, makes `Deserialize` panic in `make([]uint32, childrenLen)`
instead of returning an error. On every byte stream `Deserialize` either panics,
or returns a structure and no error, or returns the empty `Computer` and an
error. -/
theorem deserialize_negative_count_panics :
    Deserialize [0, 0, 0, 0, 0, 0, 0, 1, 0xb5, 0xde, 0xad, 0x01, 0x15, 0x14, 0x51, 0x03,
      0, 0, 0, 0, 0xff, 0xff, 0xff, 0xff] = .panicked ∧
    ∀ r : List Nat, Deserialize r = .panicked ∨ (∃ c, Deserialize r = .returned c none) ∨
      ∃ e, Deserialize r = .returned ⟨∅, ∅⟩ (some e) := by
  refine ⟨rfl, fun r => ?_⟩
  unfold Deserialize
  cases deserializeBody r with
  | ok c => exact Or.inr (Or.inl ⟨c, rfl⟩)
  | error a =>
    cases a with
    | err e => exact Or.inr (Or.inr ⟨e, rfl⟩)
    | panic => exact Or.inl rfl

/-! ### No recorded triple is zero -/

theorem mem_sum_le (l : List Nat) (x : Nat) (h : x ∈ l) : x ≤ l.sum := by
  induction l with
  | nil => cases h
  | cons a t ih =>
    rw [List.sum_cons]
    rcases List.mem_cons.mp h with rfl | h
    · omega
    · have := ih h
      omega

/-- Every call of the enumeration returns a triple with at least one outcome. -/
theorem walkStats_pos (fuel b l : Nat) (hl : l ≤ 9) (hf : 10 ≤ fuel + l) (hb : b < 2 ^ 18)
    (hw : WhichTurn b = l) :
    1 ≤ (walkStats fuel b l).get 0 + (walkStats fuel b l).get 1 + (walkStats fuel b l).get 2 := by
  induction fuel generalizing b l with
  | zero => omega
  | succ fuel ih =>
    by_cases ht : terminalAt b l
    · rw [walkStats]
      by_cases hwin : l > 4 ∧ hasWinner b = true
      · rw [if_pos hwin]
        by_cases hpar : l % 2 = 0
        · rw [if_pos hpar]; decide
        · rw [if_neg hpar]; decide
      · have h9 : l = 9 := ht.elim (fun h => absurd h hwin) id
        rw [if_neg hwin, if_pos h9]
        decide
    · have h8 := not_terminalAt_lt hl ht
      have hne : moves b l ≠ [] := (moves_ne_nil_iff b l).mpr (by omega)
      obtain ⟨n, hn⟩ := List.exists_mem_of_ne_nil _ hne
      obtain ⟨hn18, hnw⟩ := moves_spec hb hn
      have hchild := ih n (l + 1) (by omega) (by omega) hn18 (by omega)
      have hk : ∀ k, (walkStats fuel n (l + 1)).get k ≤ (walkStats (fuel + 1) b l).get k := by
        intro k
        rw [(walkStats_get (fuel + 1) b l k hl hf).2 ht fuel rfl]
        exact mem_sum_le _ _ (List.mem_map.mpr ⟨n, hn, rfl⟩)
      have := hk 0
      have := hk 1
      have := hk 2
      omega

theorem walked_Stats_pos {b : Nat} (h : b ∈ walked.statsMap) :
    1 ≤ (walked.Stats b).X + (walked.Stats b).O + (walked.Stats b).T := by
  obtain ⟨d, hp⟩ := (mem_walked_statsMap b).mp h
  obtain ⟨hd, hb, hw⟩ := Path_root hp
  rw [walked_Stats_eq h, hw]
  exact walkStats_pos (10 - d) b d hd (by omega) hb hw

/-! ### A child is its parent with one move played -/

/-- C19. In the structure returned by `Walk()`, every entry `ch` of `Next(b)`,
for every tree key `b`, is `b` with one move played: some cell `i` in 0..8 is
empty in `b` and holds the piece `WhichTurn(b) % 2 + 1` in `ch`, it is the only
cell in which the two boards differ, every bit above position 17 is the same, and
`WhichTurn(ch) = WhichTurn(b) + 1`. -/
theorem walk_child_one_move :
    ∃ c, Walk = some c ∧ ∀ b, b ∈ c.tree.keys → ∀ ch, ch ∈ c.Next b →
      ∃ i, i ≤ 8 ∧ getSlot b i = 0 ∧ getSlot ch i = WhichTurn b % 2 + 1 ∧
        (∀ j, j ≤ 8 → j ≠ i → getSlot ch j = getSlot b j) ∧
        (∀ j, j ≤ 8 → (getSlot ch j ≠ getSlot b j ↔ j = i)) ∧
        (∀ k, 17 < k → ch.testBit k = b.testBit k) ∧
        WhichTurn ch = WhichTurn b + 1 := by
  refine ⟨walked, Walk_eq, fun b hb ch hch => ?_⟩
  have hmem : b ∈ walked.tree := AList.mem_keys.mpr hb
  obtain ⟨d, hp, _⟩ := (mem_walked_tree b).mp hmem
  obtain ⟨_, hb18, _⟩ := Path_root hp
  have hb32 : b < 2 ^ 32 := lt_of_lt_of_le hb18 (by norm_num)
  have hmv := (walked_Next_mem hmem ch).mp hch
  obtain ⟨i, hi, h0, rfl⟩ := mem_moves.mp hmv
  have hp4 : WhichTurn b % 2 + 1 < 4 := by omega
  have hsame := getSlot_putSlot_same b i _ hb32 (by omega) hp4
  have hoth := fun j (hj : j ≠ i) => getSlot_putSlot_other b i _ j hb32 (by omega) hp4 hj
  refine ⟨i, by omega, h0, hsame, fun j _ hj => hoth j hj, fun j _ => ?_, fun k hk => ?_,
    WhichTurn_putSlot b i _ hb32 hi hp4 (by omega) h0⟩
  · constructor
    · intro hne
      by_contra hj
      exact hne (hoth j hj)
    · rintro rfl
      rw [hsame, h0]
      omega
  · rw [testBit_putSlot b i _ k hb32 (by omega) hp4, if_neg (by omega), if_neg (by omega)]

/-- C19 witness: the empty board and its first child, the board with piece 1 in
cell 0. -/
theorem walk_child_one_move_witness :
    ∃ c, Walk = some c ∧ 0 ∈ c.tree.keys ∧ 1 ∈ c.Next 0 ∧
      ∃ i, i ≤ 8 ∧ getSlot 0 i = 0 ∧ getSlot 1 i = WhichTurn 0 % 2 + 1 ∧
        (∀ j, j ≤ 8 → j ≠ i → getSlot 1 j = getSlot 0 j) ∧
        (∀ j, j ≤ 8 → (getSlot 1 j ≠ getSlot 0 j ↔ j = i)) ∧
        (∀ k, 17 < k → Nat.testBit 1 k = Nat.testBit 0 k) ∧
        WhichTurn 1 = WhichTurn 0 + 1 := by
  obtain ⟨c, hc, h⟩ := walk_child_one_move
  have hcw : c = walked := Option.some.inj (hc.symm.trans Walk_eq)
  have h0 : (0 : Nat) ∈ walked.tree := (mem_walked_tree 0).mpr ⟨0, rfl, by decide⟩
  have hk : 0 ∈ c.tree.keys := by
    rw [hcw]
    exact AList.mem_keys.mp h0
  have hn : 1 ∈ c.Next 0 := by
    rw [hcw]
    exact (walked_Next_mem h0 1).mpr (by decide)
  exact ⟨c, hc, hk, hn, h 0 hk 1 hn⟩

/-! ### Absent keys and zero triples -/

/-- C20. In the structure returned by `Walk()`, `Stats(b)` is the all-zero
triple exactly when `b` is not a key of the statistics map, for every board word
`b`: every recorded triple has `X + O + T ≥ 1`. -/
theorem walk_stats_zero_iff_absent :
    ∃ c, Walk = some c ∧
      (∀ b, c.Stats b = ⟨0, 0, 0⟩ ↔ b ∉ c.statsMap.keys) ∧
      (∀ b, b ∈ c.statsMap.keys → 1 ≤ (c.Stats b).X + (c.Stats b).O + (c.Stats b).T) := by
  refine ⟨walked, Walk_eq, fun b => ⟨fun h hb => ?_, fun hb => ?_⟩, fun b hb => ?_⟩
  · have := walked_Stats_pos (AList.mem_keys.mpr hb)
    rw [h] at this
    simp at this
  · unfold Computer.Stats
    rw [AList.lookup_eq_none.mpr (fun h => hb (AList.mem_keys.mp h))]
    rfl
  · exact walked_Stats_pos (AList.mem_keys.mpr hb)

/-- C20 witness: board 661, recorded with the triple of a win of piece 1. -/
theorem walk_stats_zero_iff_absent_witness :
    ∃ c, Walk = some c ∧ 661 ∈ c.statsMap.keys ∧
      (c.Stats 661 = ⟨0, 0, 0⟩ ↔ 661 ∉ c.statsMap.keys) ∧
      1 ≤ (c.Stats 661).X + (c.Stats 661).O + (c.Stats 661).T := by
  obtain ⟨c, hc, h1, h2⟩ := walk_stats_zero_iff_absent
  have hcw : c = walked := Option.some.inj (hc.symm.trans Walk_eq)
  have hk : 661 ∈ c.statsMap.keys := by
    rw [hcw]
    exact AList.mem_keys.mp ((mem_walked_statsMap 661).mpr ⟨5, Path_661⟩)
  exact ⟨c, hc, hk, h1 661, h2 661 hk⟩

/-! ### Truncated files -/

theorem endOfInput_bind {α β : Type} {x : Except Abort α} (f : α → Except Abort β)
    (h : EndOfInput x) : EndOfInput (x >>= f) := by
  rcases h with h | h <;> rw [h]
  · exact Or.inl rfl
  · exact Or.inr rfl

theorem readFull_short {n : Nat} {r : List Nat} (h : r.length < n) :
    EndOfInput (readFull n r) := by
  unfold readFull
  rw [if_neg (by omega)]
  by_cases h0 : r.length = 0
  · rw [if_pos h0]; exact Or.inl rfl
  · rw [if_neg h0]; exact Or.inr rfl

theorem readUint32_short {r : List Nat} (h : r.length < 4) : EndOfInput (readUint32 r) :=
  endOfInput_bind _ (readFull_short h)

theorem readInt32_short {r : List Nat} (h : r.length < 4) : EndOfInput (readInt32 r) :=
  endOfInput_bind _ (readFull_short h)

theorem readUint64_short {r : List Nat} (h : r.length < 8) : EndOfInput (readUint64 r) :=
  endOfInput_bind _ (readFull_short h)

theorem readStats_short {r : List Nat} (h : r.length < 12) : EndOfInput (readStats r) :=
  endOfInput_bind _ (readFull_short h)

/-- A proper prefix of `xs ++ ys` either stops inside `xs` or holds all of `xs`
and a proper prefix of `ys`. -/
theorem initial_split {p xs ys : List Nat} (hp : p <+: xs ++ ys)
    (hlt : p.length < (xs ++ ys).length) :
    p.length < xs.length ∨ ∃ q, p = xs ++ q ∧ q <+: ys ∧ q.length < ys.length := by
  rcases List.prefix_or_prefix_of_prefix hp (List.prefix_append xs ys) with h | h
  · rcases Nat.lt_or_ge p.length xs.length with hl | hl
    · exact Or.inl hl
    · have e : p = xs := List.IsPrefix.eq_of_length_le h hl
      subst e
      refine Or.inr ⟨[], by simp, List.nil_prefix, ?_⟩
      rw [List.length_append] at hlt
      simpa using hlt
  · obtain ⟨q, rfl⟩ := h
    refine Or.inr ⟨q, rfl, (List.prefix_append_right_inj xs).mp hp, ?_⟩
    rw [List.length_append, List.length_append] at hlt
    omega

theorem length_be32 (v : Nat) : (be32 v).length = 4 := rfl

theorem length_beInt32 (z : Int) : (beInt32 z).length = 4 := rfl

theorem length_be64 (v : Nat) : (be64 v).length = 8 := rfl

theorem readChildren_truncated (l : List Nat) (hl : ∀ x ∈ l, x < 2 ^ 32) (acc p : List Nat)
    (hp : p <+: l.flatMap be32) (hlt : p.length < (l.flatMap be32).length) :
    EndOfInput (readChildren l.length acc p) := by
  induction l generalizing acc p with
  | nil => simp at hlt
  | cons a t ih =>
    rw [List.flatMap_cons] at hp hlt
    rw [List.length_cons, readChildren]
    rcases initial_split hp hlt with h | ⟨q, rfl, hq, hql⟩
    · exact endOfInput_bind _ (readUint32_short (by rwa [length_be32] at h))
    · rw [readUint32_be32 (hl a (List.mem_cons_self _ _))]
      exact ih (fun x hx => hl x (List.mem_cons_of_mem _ hx)) _ q hq hql

theorem readStatsEntries_truncated (c : Computer) (hw : c.WellTyped) (l : List Nat)
    (hl : ∀ k ∈ l, k ∈ c.statsMap.keys) (m : AList (fun _ : Nat => Stats)) (p : List Nat)
    (hp : p <+: l.flatMap (statsRecord c)) (hlt : p.length < (l.flatMap (statsRecord c)).length) :
    EndOfInput (readStatsEntries l.length m p) := by
  induction l generalizing m p with
  | nil => simp at hlt
  | cons a t ih =>
    have ha := stats_lt_of_wellTyped hw a
    rw [List.flatMap_cons, statsRecord, List.append_assoc] at hp hlt
    rw [List.length_cons, readStatsEntries]
    rcases initial_split hp hlt with h | ⟨q, rfl, hq, hql⟩
    · exact endOfInput_bind _ (readUint32_short (by rwa [length_be32] at h))
    · rw [readUint32_be32 (ha.1 (hl a (List.mem_cons_self _ _)))]
      simp only [bind, Except.bind]
      rcases initial_split hq hql with h | ⟨q2, rfl, hq2, hql2⟩
      · have h12 : q.length < 12 := by
          simpa [length_be32] using h
        rcases readStats_short h12 with e | e <;> rw [e]
        · exact Or.inl rfl
        · exact Or.inr rfl
      · rw [readStats_bytes (c.Stats a) ha.2.1 ha.2.2.1 ha.2.2.2]
        exact ih (fun k hk => hl k (List.mem_cons_of_mem _ hk)) _ q2 hq2 hql2

theorem readTreeEntries_truncated (c : Computer) (hw : c.WellTyped) (l : List Nat)
    (hl : ∀ k ∈ l, k ∈ c.tree.keys) (hc : ∀ k ∈ l, (c.Next k).length < 2 ^ 31)
    (m : AList (fun _ : Nat => List Nat)) (p : List Nat)
    (hp : p <+: l.flatMap (treeRecord c)) (hlt : p.length < (l.flatMap (treeRecord c)).length) :
    EndOfInput (readTreeEntries l.length m p) := by
  induction l generalizing m p with
  | nil => simp at hlt
  | cons a t ih =>
    have ha := next_lt_of_wellTyped hw a
    rw [List.flatMap_cons, treeRecord, List.append_assoc, List.append_assoc] at hp hlt
    rw [List.length_cons, readTreeEntries]
    rcases initial_split hp hlt with h | ⟨q, rfl, hq, hql⟩
    · exact endOfInput_bind _ (readUint32_short (by rwa [length_be32] at h))
    · rw [readUint32_be32 (ha.1 (hl a (List.mem_cons_self _ _)))]
      simp only [bind, Except.bind]
      rcases initial_split hq hql with h | ⟨q2, rfl, hq2, hql2⟩
      · rcases readInt32_short (by rwa [length_beInt32] at h) with e | e <;> rw [e]
        · exact Or.inl rfl
        · exact Or.inr rfl
      · rw [readInt32_beInt32 (hc a (List.mem_cons_self _ _))]
        simp only []
        rw [if_neg (by omega)]
        simp only [Int.toNat_ofNat]
        rcases initial_split hq2 hql2 with h | ⟨q3, rfl, hq3, hql3⟩
        · have hpre : q2 <+: (c.Next a).flatMap be32 := by
            rcases List.prefix_or_prefix_of_prefix hq2 (List.prefix_append _ _) with h' | h'
            · exact h'
            · have := h'.length_le
              omega
          rcases readChildren_truncated _ ha.2 [] q2 hpre h with e | e <;> rw [e]
          · exact Or.inl rfl
          · exact Or.inr rfl
        · rw [readChildren_flatMap _ ha.2]
          exact ih (fun k hk => hl k (List.mem_cons_of_mem _ hk))
            (fun k hk => hc k (List.mem_cons_of_mem _ hk)) _ q3 hq3 hql3

theorem deserializeBody_truncated (c : Computer) (hw : c.WellTyped)
    (hs : c.statsMap.keys.length < 2 ^ 31) (ht : c.tree.keys.length < 2 ^ 31)
    (hc : ∀ node ∈ c.tree.keys, (c.Next node).length < 2 ^ 31) (p : List Nat)
    (hp : p <+: fileLayout c (sortKeys c.statsMap.keys) (sortKeys c.tree.keys))
    (hlt : p.length < (fileLayout c (sortKeys c.statsMap.keys) (sortKeys c.tree.keys)).length) :
    EndOfInput (deserializeBody p) := by
  unfold fileLayout at hp hlt
  simp only [List.append_assoc] at hp hlt
  unfold deserializeBody
  rcases initial_split hp hlt with h | ⟨q, rfl, hq, hql⟩
  · exact endOfInput_bind _ (readInt32_short (by rwa [length_beInt32] at h))
  rw [readInt32_beInt32 hs]
  simp only [bind, Except.bind]
  rcases initial_split hq hql with h | ⟨q2, rfl, hq2, hql2⟩
  · rcases readInt32_short (by rwa [length_beInt32] at h) with e | e <;> rw [e]
    · exact Or.inl rfl
    · exact Or.inr rfl
  rw [readInt32_beInt32 ht]
  simp only []
  rcases initial_split hq2 hql2 with h | ⟨q3, rfl, hq3, hql3⟩
  · rcases readUint64_short (by rwa [length_be64] at h) with e | e <;> rw [e]
    · exact Or.inl rfl
    · exact Or.inr rfl
  rw [readUint64_magic]
  simp only [ne_eq, not_true_eq_false, if_false, Int.toNat_ofNat]
  rcases initial_split hq3 hql3 with h | ⟨q4, rfl, hq4, hql4⟩
  · have hpre : q3 <+: (sortKeys c.statsMap.keys).flatMap (statsRecord c) := by
      rcases List.prefix_or_prefix_of_prefix hq3 (List.prefix_append _ _) with h' | h'
      · exact h'
      · have := h'.length_le
        omega
    have h1 := readStatsEntries_truncated c hw (sortKeys c.statsMap.keys)
      (fun k hk => mem_sortKeys.mp hk) ∅ q3 hpre h
    rw [length_sortKeys] at h1
    rcases h1 with e | e <;> rw [e]
    · exact Or.inl rfl
    · exact Or.inr rfl
  · have h1 := readStatsEntries_flatMap c hw (sortKeys c.statsMap.keys)
      (fun k hk => mem_sortKeys.mp hk) ∅ q4
    rw [length_sortKeys] at h1
    rw [h1]
    simp only []
    have h2 := readTreeEntries_truncated c hw (sortKeys c.tree.keys)
      (fun k hk => mem_sortKeys.mp hk) (fun k hk => hc k (mem_sortKeys.mp hk)) ∅ q4 hq4 hql4
    rw [length_sortKeys] at h2
    rcases h2 with e | e <;> rw [e]
    · exact Or.inl rfl
    · exact Or.inr rfl

/-- C18, with the bound that the counts need. For a structure of `uint32`
keys, counters and children with fewer than 2^31 entries in each map and in each
children list, `Serialize` on an empty buffer writes a file of which every
proper prefix makes `Deserialize` return the empty `Computer` together with an
end-of-input error of the reader, `io.EOF` or `io.ErrUnexpectedEOF`. -/
theorem deserialize_truncated (ε : Type) (c : Computer) (hw : c.WellTyped)
    (hs : c.statsMap.keys.length < 2 ^ 31) (ht : c.tree.keys.length < 2 ^ 31)
    (hc : ∀ node ∈ c.tree.keys, (c.Next node).length < 2 ^ 31) :
    ∃ file : List Nat, c.Serialize (bufferWriter ε) [] = .ok file ∧
      ∀ p : List Nat, p <+: file → p ≠ file →
        Deserialize p = .returned ⟨∅, ∅⟩ (some .EOF) ∨
        Deserialize p = .returned ⟨∅, ∅⟩ (some .ErrUnexpectedEOF) := by
  refine ⟨_, serialize_buffer ε c [] hs ht hc, fun p hp hne => ?_⟩
  rw [List.nil_append] at hp hne
  have hlt : p.length <
      (fileLayout c (sortKeys c.statsMap.keys) (sortKeys c.tree.keys)).length := by
    rcases Nat.lt_or_ge p.length
      (fileLayout c (sortKeys c.statsMap.keys) (sortKeys c.tree.keys)).length with h | h
    · exact h
    · exact absurd (List.IsPrefix.eq_of_length_le hp h) hne
  unfold Deserialize
  rcases deserializeBody_truncated c hw hs ht hc p hp hlt with e | e <;> rw [e]
  · exact Or.inl rfl
  · exact Or.inr rfl

/-- C18 witness: the file of the serialization test cut after 5 bytes, inside
the count of tree entries. -/
theorem deserialize_truncated_witness :
    (sampleComputer.WellTyped ∧ sampleComputer.statsMap.keys.length < 2 ^ 31 ∧
      sampleComputer.tree.keys.length < 2 ^ 31 ∧
      ∀ node ∈ sampleComputer.tree.keys, (sampleComputer.Next node).length < 2 ^ 31) ∧
    ∃ file : List Nat, sampleComputer.Serialize (bufferWriter Unit) [] = .ok file ∧
      (file.take 5 <+: file ∧ file.take 5 ≠ file) ∧
      (Deserialize (file.take 5) = .returned ⟨∅, ∅⟩ (some .EOF) ∨
        Deserialize (file.take 5) = .returned ⟨∅, ∅⟩ (some .ErrUnexpectedEOF)) := by
  obtain ⟨file, hf, h⟩ :=
    deserialize_truncated Unit sampleComputer (by decide) (by decide) (by decide) (by decide)
  have hlen : 16 ≤ file.length := by
    have e : sampleComputer.Serialize (bufferWriter Unit) [] =
        .ok (fileLayout sampleComputer (sortKeys sampleComputer.statsMap.keys)
          (sortKeys sampleComputer.tree.keys)) :=
      serialize_buffer Unit sampleComputer [] (by decide) (by decide) (by decide)
    rw [e] at hf
    rw [← Except.ok.inj hf]
    simp [fileLayout, beInt32, be32, be64]
  have hne : file.take 5 ≠ file := by
    intro he
    have := congrArg List.length he
    rw [List.length_take] at this
    omega
  exact ⟨⟨by decide, by decide, by decide, by decide⟩, file, hf,
    ⟨List.take_prefix 5 file, hne⟩, h _ (List.take_prefix 5 file) hne⟩

/-! ### UTF-8 -/

theorem decodeRune_width_pos (b : Nat) (t : List Nat) : 1 ≤ (decodeRune (b :: t)).2 := by
  simp only [decodeRune]
  repeat' split
  all_goals simp

theorem runesFrom_fuel (f1 f2 : Nat) (s : List Nat) (h1 : s.length ≤ f1) (h2 : s.length ≤ f2) :
    runesFrom f1 s = runesFrom f2 s := by
  induction f1 generalizing f2 s with
  | zero =>
    have hs : s = [] := List.length_eq_zero.mp (by omega)
    subst hs
    cases f2 <;> simp [runesFrom]
  | succ f1 ih =>
    cases s with
    | nil => cases f2 <;> simp [runesFrom]
    | cons b t =>
      cases f2 with
      | zero => simp at h2
      | succ f2 =>
        have hw := decodeRune_width_pos b t
        simp only [runesFrom, List.cons_ne_nil, if_false]
        congr 1
        apply ih
        · rw [List.length_drop]; simp at h1; simp; omega
        · rw [List.length_drop]; simp at h2; simp; omega

theorem runes_nil : runes [] = [] := rfl

theorem runes_cons (b : Nat) (t : List Nat) :
    runes (b :: t) =
      (decodeRune (b :: t)).1 :: runes ((b :: t).drop (decodeRune (b :: t)).2) := by
  have hw := decodeRune_width_pos b t
  unfold runes
  rw [List.length_cons, runesFrom, if_neg (List.cons_ne_nil _ _)]
  congr 1
  apply runesFrom_fuel
  · rw [List.length_drop]; simp; omega
  · exact le_refl _

theorem encodeRune_ne_nil (r : Int) : encodeRune r ≠ [] := by
  unfold encodeRune
  repeat' split
  all_goals simp

/-- Decoding undoes encoding on every valid rune. -/
theorem decodeRune_encodeRune (r : Int) (hr : ValidRune r) (rest : List Nat) :
    decodeRune (encodeRune r ++ rest) = (r, (encodeRune r).length) := by
  unfold ValidRune at hr
  obtain ⟨n, rfl⟩ : ∃ n : Nat, r = (n : Int) := ⟨r.toNat, by omega⟩
  have hn : (n < 0xD800) ∨ (0xDFFF < n ∧ n ≤ 0x10FFFF) := by omega
  unfold encodeRune
  simp only [Int.toNat_ofNat]
  by_cases h1 : n ≤ 0x7F
  · rw [if_pos (by omega)]
    simp only [List.singleton_append, List.length_singleton, decodeRune]
    rw [if_pos (by omega)]
  rw [if_neg (by omega)]
  by_cases h2 : n ≤ 0x7FF
  · rw [if_pos (by omega)]
    have hf : firstByte (0xC0 + n / 64) = some (2, 0x80, 0xBF) := by
      unfold firstByte
      rw [if_neg (by omega), if_pos (by omega)]
    simp only [List.cons_append, List.nil_append, decodeRune, hf, List.length_cons]
    rw [if_neg (by omega), if_neg (by omega), if_neg (by omega), if_pos (by omega)]
    simp only [List.length_nil, Prod.mk.injEq, and_true]
    norm_cast
    omega
  rw [if_neg (by omega), if_neg (by omega)]
  by_cases h3 : n ≤ 0xFFFF
  · rw [if_pos (by omega)]
    have hf : ∃ lo hi, firstByte (0xE0 + n / 4096) = some (3, lo, hi) ∧
        lo ≤ 0x80 + n / 64 % 64 ∧ 0x80 + n / 64 % 64 ≤ hi := by
      unfold firstByte
      rw [if_neg (by omega), if_neg (by omega)]
      by_cases e0 : 0xE0 + n / 4096 = 0xE0
      · rw [if_pos e0]; exact ⟨_, _, rfl, by omega, by omega⟩
      rw [if_neg e0]
      by_cases ed : 0xE0 + n / 4096 = 0xED
      · rw [if_pos ed]; exact ⟨_, _, rfl, by omega, by omega⟩
      rw [if_neg ed, if_pos (by omega)]
      exact ⟨_, _, rfl, by omega, by omega⟩
    obtain ⟨lo, hi, hf, hlo, hhi⟩ := hf
    simp only [List.cons_append, List.nil_append, decodeRune, hf, List.length_cons]
    rw [if_neg (by omega), if_neg (by omega), if_neg (by omega), if_neg (by omega),
      if_neg (by omega), if_pos (by omega)]
    simp only [List.length_nil, Prod.mk.injEq, and_true]
    norm_cast
    omega
  · rw [if_neg (by omega)]
    have hf : ∃ lo hi, firstByte (0xF0 + n / 262144) = some (4, lo, hi) ∧
        lo ≤ 0x80 + n / 4096 % 64 ∧ 0x80 + n / 4096 % 64 ≤ hi := by
      unfold firstByte
      rw [if_neg (by omega), if_neg (by omega), if_neg (by omega), if_neg (by omega),
        if_neg (by omega)]
      by_cases e0 : 0xF0 + n / 262144 = 0xF0
      · rw [if_pos e0]; exact ⟨_, _, rfl, by omega, by omega⟩
      rw [if_neg e0]
      by_cases e3 : 0xF0 + n / 262144 ≤ 0xF3
      · rw [if_pos e3]; exact ⟨_, _, rfl, by omega, by omega⟩
      rw [if_neg e3, if_pos (by omega)]
      exact ⟨_, _, rfl, by omega, by omega⟩
    obtain ⟨lo, hi, hf, hlo, hhi⟩ := hf
    simp only [List.cons_append, List.nil_append, decodeRune, hf, List.length_cons]
    rw [if_neg (by omega), if_neg (by omega), if_neg (by omega), if_neg (by omega),
      if_neg (by omega), if_neg (by omega), if_neg (by omega)]
    simp only [List.length_nil, Prod.mk.injEq, and_true]
    norm_cast
    omega

/-- The runes of the string of a list of valid runes are that list. -/
theorem runes_stringOfRunes (rs : List Int) (h : ∀ r ∈ rs, ValidRune r) :
    runes (stringOfRunes rs) = rs := by
  induction rs with
  | nil => rfl
  | cons r t ih =>
    have hr := h r (List.mem_cons_self _ _)
    have hd := decodeRune_encodeRune r hr (stringOfRunes t)
    obtain ⟨b, u, hbu⟩ : ∃ b u, encodeRune r ++ stringOfRunes t = b :: u := by
      cases he : encodeRune r with
      | nil => exact absurd he (encodeRune_ne_nil r)
      | cons b u => exact ⟨b, u ++ stringOfRunes t, rfl⟩
    have hs : stringOfRunes (r :: t) = encodeRune r ++ stringOfRunes t := by
      simp [stringOfRunes]
    rw [hs, hbu, runes_cons, ← hbu, hd]
    simp only [List.drop_left]
    rw [ih (fun x hx => h x (List.mem_cons_of_mem _ hx))]

/-! ### Lists of optional values -/

theorem mapM_option_some {α β : Type} (f : α → Option β) (g : α → β) (l : List α)
    (h : ∀ a ∈ l, f a = some (g a)) : l.mapM f = some (l.map g) := by
  induction l with
  | nil => rfl
  | cons a t ih =>
    rw [List.mapM_cons, h a (List.mem_cons_self _ _),
      ih (fun x hx => h x (List.mem_cons_of_mem _ hx))]
    rfl

theorem mapM_option_none {α β : Type} (f : α → Option β) (l : List α) :
    l.mapM f = none ↔ ∃ a ∈ l, f a = none := by
  induction l with
  | nil =>
    rw [List.mapM_nil]
    constructor
    · intro h; cases h
    · rintro ⟨a, ha, _⟩; cases ha
  | cons a t ih =>
    rw [List.mapM_cons]
    cases ha : f a with
    | none =>
      constructor
      · intro _; exact ⟨a, List.mem_cons_self _ _, ha⟩
      · intro _; rfl
    | some v =>
      cases ht : t.mapM f with
      | none =>
        obtain ⟨x, hx, hfx⟩ := ih.mp ht
        constructor
        · intro _; exact ⟨x, List.mem_cons_of_mem _ hx, hfx⟩
        · intro _; rfl
      | some w =>
        constructor
        · intro h; cases h
        · rintro ⟨x, hx, hfx⟩
          rcases List.mem_cons.mp hx with rfl | hx
          · rw [ha] at hfx; cases hfx
          · rw [ih.mpr ⟨x, hx, hfx⟩] at ht
            cases ht

theorem mapM_option_map {α β γ : Type} (f : β → Option γ) (h : α → β) (l : List α) :
    (l.map h).mapM f = l.mapM fun a => f (h a) := by
  induction l with
  | nil => rfl
  | cons a t ih => rw [List.map_cons, List.mapM_cons, List.mapM_cons, ih]

/-! ### The loop of `VectorToBoard` -/

theorem index_cellCode (seq : Alphabet) (c : Int) (h : seq.Has c) :
    seq.index (cellCode seq c) = some c := by
  unfold cellCode
  by_cases h0 : c = seq.s0
  · rw [if_pos h0, h0]; rfl
  · rw [if_neg h0]
    by_cases h1 : c = seq.s1
    · rw [if_pos h1, h1]; rfl
    · rw [if_neg h1]
      rcases h with h | h | h
      · exact absurd h h0
      · exact absurd h h1
      · rw [h]; rfl

/-- One iteration of the loop on a rune of the alphabet writes its cell value
into cell `i` and leaves every other cell as it is. -/
theorem vectorLoop_step (seq : Alphabet) (c : Int) (cs : List Int) (i board : Nat)
    (hb : board < 2 ^ 32) (hi : i ≤ 8) (hz : getSlot board i = 0) (hc : seq.Has c) :
    ∃ board1, vectorLoop seq (c :: cs) i board = vectorLoop seq cs (i + 1) board1 ∧
      board1 < 2 ^ 32 ∧ getSlot board1 i = cellCode seq c ∧
      ∀ j, j ≠ i → getSlot board1 j = getSlot board j := by
  unfold cellCode
  rw [vectorLoop]
  by_cases h0 : c = seq.s0
  · rw [if_pos h0, if_pos h0]
    exact ⟨board, rfl, hb, hz, fun _ _ => rfl⟩
  · rw [if_neg h0, if_neg h0]
    by_cases h1 : c = seq.s1
    · rw [if_pos h1, if_pos h1]
      exact ⟨_, rfl, putSlot_lt board i 1 hb,
        getSlot_putSlot_same board i 1 hb (by omega) (by norm_num),
        fun j hj => getSlot_putSlot_other board i 1 j hb (by omega) (by norm_num) hj⟩
    · rw [if_neg h1, if_neg h1]
      have h2 : c = seq.s2 := by
        rcases hc with h | h | h
        · exact absurd h h0
        · exact absurd h h1
        · exact h
      rw [if_pos h2]
      exact ⟨_, rfl, putSlot_lt board i 2 hb,
        getSlot_putSlot_same board i 2 hb (by omega) (by norm_num),
        fun j hj => getSlot_putSlot_other board i 2 j hb (by omega) (by norm_num) hj⟩

/-- On runes of the alphabet the loop ends without error, and the cells from
`i` on hold the cell values of the runes. -/
theorem vectorLoop_ok (seq : Alphabet) (cs : List Int) (i board : Nat) (hb : board < 2 ^ 32)
    (hi : i + cs.length ≤ 9) (hz : ∀ j, i ≤ j → getSlot board j = 0)
    (hmem : ∀ c ∈ cs, seq.Has c) :
    ∃ b, vectorLoop seq cs i board = (b, none) ∧ b < 2 ^ 32 ∧
      (∀ j, j < i → getSlot b j = getSlot board j) ∧
      (List.range cs.length).map (fun j => getSlot b (i + j)) = cs.map (cellCode seq) := by
  induction cs generalizing i board with
  | nil => exact ⟨board, rfl, hb, fun _ _ => rfl, rfl⟩
  | cons c cs ih =>
    rw [List.length_cons] at hi
    obtain ⟨board1, hstep, hb1, hcell, hoth⟩ :=
      vectorLoop_step seq c cs i board hb (by omega) (hz i (le_refl i))
        (hmem c (List.mem_cons_self _ _))
    obtain ⟨b, hrun, hb32, hlow, hcells⟩ := ih (i + 1) board1 hb1 (by omega)
      (fun j hj => by rw [hoth j (by omega)]; exact hz j (by omega))
      (fun x hx => hmem x (List.mem_cons_of_mem _ hx))
    refine ⟨b, hstep.trans hrun, hb32, fun j hj => ?_, ?_⟩
    · rw [hlow j (by omega), hoth j (by omega)]
    · rw [List.length_cons, List.range_succ_eq_map, List.map_cons, List.map_map, List.map_cons,
        Nat.add_zero, hlow i (by omega), hcell, ← hcells]
      congr 1
      apply List.map_congr_left
      intro j _
      simp only [Function.comp, Nat.succ_eq_add_one]
      congr 1
      omega

/-- On a list holding a rune outside the alphabet the loop returns board 0 and
the position of the first such rune. -/
theorem vectorLoop_bad (seq : Alphabet) (cs : List Int) (i board : Nat)
    (hbad : ∃ c ∈ cs, ¬ seq.Has c) :
    ∃ k c, cs[k]? = some c ∧ ¬ seq.Has c ∧ (∀ r ∈ cs.take k, seq.Has r) ∧
      vectorLoop seq cs i board = (0, some (.illegalChar (i + k))) := by
  induction cs generalizing i board with
  | nil =>
    obtain ⟨c, hc, _⟩ := hbad
    cases hc
  | cons c0 cs ih =>
    by_cases h0 : seq.Has c0
    · have hbad1 : ∃ c ∈ cs, ¬ seq.Has c := by
        obtain ⟨c, hc, hn⟩ := hbad
        rcases List.mem_cons.mp hc with rfl | hc
        · exact absurd h0 hn
        · exact ⟨c, hc, hn⟩
      have hstep : ∃ board1, vectorLoop seq (c0 :: cs) i board =
          vectorLoop seq cs (i + 1) board1 := by
        rw [vectorLoop]
        by_cases e0 : c0 = seq.s0
        · rw [if_pos e0]; exact ⟨_, rfl⟩
        · rw [if_neg e0]
          by_cases e1 : c0 = seq.s1
          · rw [if_pos e1]; exact ⟨_, rfl⟩
          · rw [if_neg e1]
            have e2 : c0 = seq.s2 := by
              rcases h0 with h | h | h
              · exact absurd h e0
              · exact absurd h e1
              · exact h
            rw [if_pos e2]; exact ⟨_, rfl⟩
      obtain ⟨board1, hstep⟩ := hstep
      obtain ⟨k, c, hk, hn, hpre, hrun⟩ := ih (i + 1) board1 hbad1
      refine ⟨k + 1, c, by simpa using hk, hn, ?_, ?_⟩
      · intro r hr
        rw [List.take_succ_cons] at hr
        rcases List.mem_cons.mp hr with rfl | hr
        · exact h0
        · exact hpre r hr
      · rw [hstep, hrun]
        congr 3
        omega
    · refine ⟨0, c0, by simp, h0, fun r hr => by simp at hr, ?_⟩
      have e0 : ¬ c0 = seq.s0 := fun h => h0 (Or.inl h)
      have e1 : ¬ c0 = seq.s1 := fun h => h0 (Or.inr (Or.inl h))
      have e2 : ¬ c0 = seq.s2 := fun h => h0 (Or.inr (Or.inr h))
      rw [vectorLoop, if_neg e0, if_neg e1, if_neg e2]
      rfl

/-- For every byte string of nine runes of the alphabet, `VectorToBoard`
succeeds and `BoardToVector` of its board is the string of those runes. -/
theorem roundtrip_runes (s : List Nat) (seq : Alphabet) (hlen : RuneCountInString s = 9)
    (hmem : ∀ c ∈ runes s, seq.Has c) :
    ∃ b, VectorToBoard s seq = (b, none) ∧ b < 2 ^ 32 ∧
      BoardToVector b seq = some (stringOfRunes (runes s)) := by
  unfold RuneCountInString at hlen
  obtain ⟨b, hrun, hb, _, hcells⟩ := vectorLoop_ok seq (runes s) 0 0 (by norm_num)
    (by omega) (fun j _ => by
      unfold getSlot
      simp) hmem
  refine ⟨b, ?_, hb, ?_⟩
  · unfold VectorToBoard RuneCountInString
    rw [if_neg (by omega), hrun]
  · unfold BoardToVector
    rw [hlen] at hcells
    have e : (fun i => seq.index (getSlot b i)) = fun i => seq.index (getSlot b (0 + i)) := by
      funext i
      rw [Nat.zero_add]
    rw [e, ← mapM_option_map seq.index (fun j => getSlot b (0 + j)), hcells, mapM_option_map,
      mapM_option_some _ id _ (fun c hc => index_cellCode seq c (hmem c hc)), List.map_id]
    rfl

/-! ### Results on the text codec -/

theorem vectorLoop_ne_errLength (seq : Alphabet) (cs : List Int) (i board : Nat) :
    (vectorLoop seq cs i board).2 ≠ some .ErrLength := by
  induction cs generalizing i board with
  | nil => simp [vectorLoop]
  | cons c cs ih =>
    rw [vectorLoop]
    split
    · exact ih _ _
    · split
      · exact ih _ _
      · split
        · exact ih _ _
        · simp

theorem validRune_runeError : ValidRune RuneError := by decide

/-- Every rune is encoded as some valid rune is. -/
theorem encodeRune_valid (r : Int) : ∃ v, ValidRune v ∧ encodeRune r = encodeRune v := by
  by_cases h : ValidRune r
  · exact ⟨r, h, rfl⟩
  · refine ⟨RuneError, validRune_runeError, ?_⟩
    have e : encodeRune RuneError = [0xEF, 0xBF, 0xBD] := by decide
    rw [e]
    unfold ValidRune at h
    unfold encodeRune
    rw [if_neg (by omega), if_neg (by omega), if_pos (by omega)]

theorem runes_encodeRune_append (r : Int) (rest : List Nat) :
    ∃ v, runes (encodeRune r ++ rest) = v :: runes rest := by
  obtain ⟨v, hv, he⟩ := encodeRune_valid r
  refine ⟨v, ?_⟩
  have hd := decodeRune_encodeRune v hv rest
  rw [he]
  cases hc : encodeRune v with
  | nil => exact absurd hc (encodeRune_ne_nil v)
  | cons b u =>
    rw [hc] at hd
    rw [List.cons_append, runes_cons, ← List.cons_append, hd]
    simp only [List.drop_left]

theorem runeCount_stringOfRunes (rs : List Int) :
    RuneCountInString (stringOfRunes rs) = rs.length := by
  unfold RuneCountInString
  induction rs with
  | nil => rfl
  | cons r t ih =>
    have hs : stringOfRunes (r :: t) = encodeRune r ++ stringOfRunes t := by
      simp [stringOfRunes]
    obtain ⟨v, hv⟩ := runes_encodeRune_append r (stringOfRunes t)
    rw [hs, hv, List.length_cons, List.length_cons, ih]

theorem getSlot_land_mask (b i : Nat) (hi : i ≤ 8) : getSlot (b &&& 0x3FFFF) i = getSlot b i := by
  apply Nat.eq_of_testBit_eq
  intro k
  rw [testBit_getSlot, testBit_getSlot, Nat.testBit_land]
  by_cases hk : k < 2
  · have e : (0x3FFFF : Nat) = 2 ^ 18 - 1 := by norm_num
    rw [e, Nat.testBit_two_pow_sub_one]
    have : 2 * i + k < 18 := by omega
    simp [this]
  · simp [hk]

/-- C12. For every alphabet and every string made of exactly nine code points
of the alphabet (valid runes, written in UTF-8), `VectorToBoard` succeeds with
some board and `BoardToVector` of that board gives the string back. -/
theorem vectorToBoard_roundtrip (seq : Alphabet) (rs : List Int) (hlen : rs.length = 9)
    (hrs : ∀ r ∈ rs, ValidRune r ∧ seq.Has r) :
    ∃ b, VectorToBoard (stringOfRunes rs) seq = (b, none) ∧
      BoardToVector b seq = some (stringOfRunes rs) := by
  have hrunes := runes_stringOfRunes rs (fun r hr => (hrs r hr).1)
  obtain ⟨b, h1, _, h2⟩ := roundtrip_runes (stringOfRunes rs) seq
    (by rw [runeCount_stringOfRunes, hlen])
    (fun c hc => by rw [hrunes] at hc; exact (hrs c hc).2)
  rw [hrunes] at h2
  exact ⟨b, h1, h2⟩

/-- C12 witness: the string of the Unicode test, blank, U+2B55 and U+274C three
times over, on the alphabet blank, U+274C, U+2B55. -/
theorem vectorToBoard_roundtrip_witness :
    (([0x20, 0x2B55, 0x274C, 0x20, 0x2B55, 0x274C, 0x20, 0x2B55, 0x274C] : List Int).length = 9 ∧
      ∀ r ∈ ([0x20, 0x2B55, 0x274C, 0x20, 0x2B55, 0x274C, 0x20, 0x2B55, 0x274C] : List Int),
        ValidRune r ∧ (Alphabet.mk 0x20 0x274C 0x2B55).Has r) ∧
    ∃ b, VectorToBoard
        (stringOfRunes [0x20, 0x2B55, 0x274C, 0x20, 0x2B55, 0x274C, 0x20, 0x2B55, 0x274C])
        ⟨0x20, 0x274C, 0x2B55⟩ = (b, none) ∧
      BoardToVector b ⟨0x20, 0x274C, 0x2B55⟩ =
        some (stringOfRunes [0x20, 0x2B55, 0x274C, 0x20, 0x2B55, 0x274C, 0x20, 0x2B55, 0x274C]) :=
  ⟨⟨by decide, by decide⟩,
    vectorToBoard_roundtrip ⟨0x20, 0x274C, 0x2B55⟩
      [0x20, 0x2B55, 0x274C, 0x20, 0x2B55, 0x274C, 0x20, 0x2B55, 0x274C] (by decide) (by decide)⟩

/-- C13. For every string and every alphabet, `VectorToBoard` returns board 0
with `ErrLength` exactly when the string does not hold exactly nine runes, and
its error is `ErrLength` in no other case. Runes are counted, not bytes: the
string of `n` code points counts `n`, so ten ASCII digits and three ASCII digits
fail, three code points of three bytes each (nine bytes) fail, and nine code
points written in 21 bytes pass. The count alone decides: the first two examples
hold symbols outside the alphabet as well. -/
theorem vectorToBoard_errLength (s : List Nat) (seq : Alphabet) :
    (VectorToBoard s seq = (0, some .ErrLength) ↔ RuneCountInString s ≠ 9) ∧
    ((VectorToBoard s seq).2 = some .ErrLength ↔ RuneCountInString s ≠ 9) ∧
    (∀ rs : List Int, RuneCountInString (stringOfRunes rs) = rs.length) ∧
    VectorToBoard [0x30, 0x31, 0x32, 0x33, 0x34, 0x35, 0x36, 0x37, 0x38, 0x39] ⟨0x30, 0x31, 0x32⟩ =
      (0, some .ErrLength) ∧
    VectorToBoard [0x31, 0x32, 0x33] ⟨0x30, 0x31, 0x32⟩ = (0, some .ErrLength) ∧
    VectorToBoard [0xE2, 0xAD, 0x95, 0xE2, 0xAD, 0x95, 0xE2, 0xAD, 0x95] ⟨0x20, 0x274C, 0x2B55⟩ =
      (0, some .ErrLength) ∧
    VectorToBoard [0x20, 0xE2, 0xAD, 0x95, 0xE2, 0x9D, 0x8C, 0x20, 0xE2, 0xAD, 0x95, 0xE2, 0x9D,
      0x8C, 0x20, 0xE2, 0xAD, 0x95, 0xE2, 0x9D, 0x8C] ⟨0x20, 0x274C, 0x2B55⟩ =
      (0b011000011000011000, none) := by
  have hiff : (VectorToBoard s seq).2 = some .ErrLength ↔ RuneCountInString s ≠ 9 := by
    unfold VectorToBoard
    by_cases h : RuneCountInString s ≠ 9
    · rw [if_pos h]
      exact ⟨fun _ => h, fun _ => rfl⟩
    · rw [if_neg h]
      exact ⟨fun he => absurd he (vectorLoop_ne_errLength seq _ 0 0), fun h9 => absurd h9 h⟩
  refine ⟨⟨fun h => hiff.mp (by rw [h]), fun h => ?_⟩, hiff, runeCount_stringOfRunes,
    by decide, by decide, by decide, by decide⟩
  unfold VectorToBoard
  rw [if_pos h]

/-- C14. For every string of exactly nine runes one of which is none of the
three alphabet symbols, `VectorToBoard` returns board 0 and the error wrapping
`ErrIllegalChar` with the 0-based position, counted in runes, of the first rune
outside the alphabet; on "010120103" over '0', '1', '2' the position is 8, and
on a string whose third rune is the first one outside the alphabet, after two
runes of three bytes each, the position is 2. -/
theorem vectorToBoard_illegalChar (s : List Nat) (seq : Alphabet)
    (hlen : RuneCountInString s = 9) (hbad : ∃ c ∈ runes s, ¬ seq.Has c) :
    (∃ i c, i < 9 ∧ (runes s)[i]? = some c ∧ ¬ seq.Has c ∧
      (∀ r ∈ (runes s).take i, seq.Has r) ∧
      VectorToBoard s seq = (0, some (.illegalChar i))) ∧
    VectorToBoard [0x30, 0x31, 0x30, 0x31, 0x32, 0x30, 0x31, 0x30, 0x33] ⟨0x30, 0x31, 0x32⟩ =
      (0, some (.illegalChar 8)) ∧
    VectorToBoard [0xE2, 0xAD, 0x95, 0xE2, 0x9D, 0x8C, 0x78, 0x20, 0x20, 0x20, 0x20, 0x79, 0x20]
      ⟨0x20, 0x274C, 0x2B55⟩ = (0, some (.illegalChar 2)) := by
  refine ⟨?_, by decide, by decide⟩
  obtain ⟨k, c, hk, hn, hpre, hrun⟩ := vectorLoop_bad seq (runes s) 0 0 hbad
  have hk9 : k < 9 := by
    have := (List.getElem?_eq_some_iff.mp hk).1
    unfold RuneCountInString at hlen
    omega
  refine ⟨k, c, hk9, hk, hn, hpre, ?_⟩
  unfold VectorToBoard
  rw [if_neg (by omega), hrun, Nat.zero_add]

/-- C14 witness: the string "010120103" over '0', '1', '2'. -/
theorem vectorToBoard_illegalChar_witness :
    (RuneCountInString [0x30, 0x31, 0x30, 0x31, 0x32, 0x30, 0x31, 0x30, 0x33] = 9 ∧
      ∃ c ∈ runes [0x30, 0x31, 0x30, 0x31, 0x32, 0x30, 0x31, 0x30, 0x33],
        ¬ (Alphabet.mk 0x30 0x31 0x32).Has c) ∧
    ((∃ i c, i < 9 ∧
        (runes [0x30, 0x31, 0x30, 0x31, 0x32, 0x30, 0x31, 0x30, 0x33])[i]? = some c ∧
        ¬ (Alphabet.mk 0x30 0x31 0x32).Has c ∧
        (∀ r ∈ (runes [0x30, 0x31, 0x30, 0x31, 0x32, 0x30, 0x31, 0x30, 0x33]).take i,
          (Alphabet.mk 0x30 0x31 0x32).Has r) ∧
        VectorToBoard [0x30, 0x31, 0x30, 0x31, 0x32, 0x30, 0x31, 0x30, 0x33] ⟨0x30, 0x31, 0x32⟩ =
          (0, some (.illegalChar i))) ∧
      VectorToBoard [0x30, 0x31, 0x30, 0x31, 0x32, 0x30, 0x31, 0x30, 0x33] ⟨0x30, 0x31, 0x32⟩ =
        (0, some (.illegalChar 8)) ∧
      VectorToBoard [0xE2, 0xAD, 0x95, 0xE2, 0x9D, 0x8C, 0x78, 0x20, 0x20, 0x20, 0x20, 0x79, 0x20]
        ⟨0x20, 0x274C, 0x2B55⟩ = (0, some (.illegalChar 2))) :=
  ⟨⟨by decide, 0x33, by decide, by decide⟩,
    vectorToBoard_illegalChar [0x30, 0x31, 0x30, 0x31, 0x32, 0x30, 0x31, 0x30, 0x33]
      ⟨0x30, 0x31, 0x32⟩ (by decide) ⟨0x33, by decide, by decide⟩⟩

/-- On a board word none of whose cells 0..8 holds the value 3, `BoardToVector`
returns the string of nine runes, the `i`-th being `seq[getSlot(board, i)]`. -/
theorem boardToVector_of_cells (b : Nat) (seq : Alphabet) (h : ∀ i, i ≤ 8 → getSlot b i ≠ 3) :
    ∃ rs : List Int, rs.length = 9 ∧ BoardToVector b seq = some (stringOfRunes rs) ∧
      ∀ i, i ≤ 8 → rs[i]? = seq.index (getSlot b i) := by
  have hsome : ∀ i ∈ List.range 9,
      seq.index (getSlot b i) = some ((seq.index (getSlot b i)).getD 0) := by
    intro i hi
    have hi8 : i ≤ 8 := Nat.le_of_lt_succ (List.mem_range.mp hi)
    have hlt := getSlot_lt b i
    have h3 := h i hi8
    have : getSlot b i = 0 ∨ getSlot b i = 1 ∨ getSlot b i = 2 := by omega
    rcases this with e | e | e <;> rw [e] <;> rfl
  refine ⟨(List.range 9).map fun i => (seq.index (getSlot b i)).getD 0, by simp, ?_, ?_⟩
  · unfold BoardToVector
    rw [mapM_option_some _ _ _ hsome]
    rfl
  · intro i hi
    rw [hsome i (List.mem_range.mpr (by omega)), List.getElem?_map,
      List.getElem?_range (by omega)]
    rfl

/-- C15. On the board word 3, whose cell 0 holds the value 3, `BoardToVector`
panics in the index expression `seq[c]`, for the alphabet '0', '1', '2'; and for
every board word and alphabet it panics exactly when one of the cells 0..8 holds
the value 3. -/
theorem boardToVector_panics_on_three :
    BoardToVector 3 ⟨0x30, 0x31, 0x32⟩ = none ∧
    ∀ (b : Nat) (seq : Alphabet),
      BoardToVector b seq = none ↔ ∃ i, i ≤ 8 ∧ getSlot b i = 3 := by
  refine ⟨by decide, fun b seq => ?_⟩
  unfold BoardToVector
  rw [Option.map_eq_none', mapM_option_none]
  constructor
  · rintro ⟨i, hi, h⟩
    refine ⟨i, Nat.le_of_lt_succ (List.mem_range.mp hi), ?_⟩
    have hlt := getSlot_lt b i
    unfold Alphabet.index at h
    split at h
    · cases h
    · cases h
    · cases h
    · rename_i h0 h1 h2
      by_contra h3
      have : getSlot b i = 0 ∨ getSlot b i = 1 ∨ getSlot b i = 2 := by omega
      rcases this with e | e | e
      · exact h0 e
      · exact h1 e
      · exact h2 e
  · rintro ⟨i, hi, h⟩
    exact ⟨i, List.mem_range.mpr (by omega), by rw [h]; rfl⟩

/-- C16. For every board word and every alphabet, `BoardToVector` gives for
the word the same result as for the word with all bits above position 17
cleared; on the word of the test "upper bits are ignored" it gives "012000002". -/
theorem boardToVector_ignores_high_bits (b : Nat) (seq : Alphabet) :
    BoardToVector b seq = BoardToVector (b &&& 0x3FFFF) seq ∧
    BoardToVector 0b10101010101001100000000000100100 ⟨0x30, 0x31, 0x32⟩ =
      some [0x30, 0x31, 0x32, 0x30, 0x30, 0x30, 0x30, 0x30, 0x32] := by
  refine ⟨?_, by decide⟩
  unfold BoardToVector
  congr 1
  have e : ∀ i ∈ List.range 9, seq.index (getSlot b i) =
      seq.index (getSlot (b &&& 0x3FFFF) i) := by
    intro i hi
    rw [getSlot_land_mask b i (Nat.le_of_lt_succ (List.mem_range.mp hi))]
  generalize List.range 9 = l at e
  induction l with
  | nil => rfl
  | cons a t ih =>
    rw [List.mapM_cons, List.mapM_cons, e a (List.mem_cons_self _ _),
      ih (fun x hx => e x (List.mem_cons_of_mem _ hx))]

/-! ### Counts that do not fit an `int32` -/

theorem toInt32_two_pow_32 : toInt32 (2 ^ 32) = 0 := by
  unfold toInt32
  norm_num

theorem beInt32_zero : beInt32 0 = [0, 0, 0, 0] := by
  unfold beInt32 be32
  norm_num

theorem beInt32_one : beInt32 1 = [0, 0, 0, 1] := by
  unfold beInt32 be32
  norm_num

theorem length_flatMap_be32 (l : List Nat) : (l.flatMap be32).length = 4 * l.length := by
  induction l with
  | nil => rfl
  | cons a t ih =>
    rw [List.flatMap_cons, List.length_append, ih, length_be32, List.length_cons]
    omega

/-- The bytes that `Serialize` writes for `singleNode children`. -/
theorem serialize_singleNode (ε : Type) (children : List Nat) :
    (singleNode children).Serialize (bufferWriter ε) [] =
      .ok (beInt32 (toInt32 0) ++ beInt32 (toInt32 1) ++ be64 magic ++
        (be32 0 ++ beInt32 (toInt32 children.length) ++ children.flatMap be32)) := by
  have hk : (singleNode children).tree.keys = [0] := by
    simp [singleNode, AList.keys_insert]
  have hs : (singleNode children).statsMap.keys = [] := rfl
  have hn : (singleNode children).Next 0 = children := by
    unfold Computer.Next singleNode
    simp only []
    rw [AList.lookup_insert]
    rfl
  unfold Computer.Serialize
  simp only [bufferWriter, bind, Except.bind, hk, hs, sortKeys, List.insertionSort,
    List.orderedInsert, List.foldlM, List.length_nil, List.length_singleton, pure, Except.pure,
    hn, List.nil_append, List.append_assoc]

theorem wellTyped_singleNode (children : List Nat) (h : ∀ x ∈ children, x < 2 ^ 32) :
    (singleNode children).WellTyped := by
  refine ⟨fun e he => ?_, fun e he => ?_⟩
  · cases he
  · have he2 : e = ⟨0, children⟩ := by
      simpa [singleNode, AList.insert_entries] using he
    subst he2
    exact ⟨by norm_num, h⟩

/-- A node with `2 ^ 32` children is written with the count 0, and the first 24
bytes of the file are read back as a structure, without error. -/
theorem truncated_singleNode (children : List Nat) (hlen : children.length = 2 ^ 32)
    (hmem : ∀ x ∈ children, x < 2 ^ 32) :
    (singleNode children).WellTyped ∧
    ∃ file : List Nat, (singleNode children).Serialize (bufferWriter Unit) [] = .ok file ∧
      [0, 0, 0, 0, 0, 0, 0, 1, 0xb5, 0xde, 0xad, 0x01, 0x15, 0x14, 0x51, 0x03,
        0, 0, 0, 0, 0, 0, 0, 0] <+: file ∧
      [0, 0, 0, 0, 0, 0, 0, 1, 0xb5, 0xde, 0xad, 0x01, 0x15, 0x14, 0x51, 0x03,
        0, 0, 0, 0, 0, 0, 0, 0] ≠ file ∧
      Deserialize [0, 0, 0, 0, 0, 0, 0, 1, 0xb5, 0xde, 0xad, 0x01, 0x15, 0x14, 0x51, 0x03,
        0, 0, 0, 0, 0, 0, 0, 0] = .returned (singleNode []) none := by
  have hfile := serialize_singleNode Unit children
  rw [hlen, toInt32_two_pow_32, toInt32_of_lt (by norm_num : 0 < 2 ^ 31),
    toInt32_of_lt (by norm_num : 1 < 2 ^ 31)] at hfile
  have e0 : beInt32 ((0 : Nat) : Int) = [0, 0, 0, 0] := beInt32_zero
  have e1 : beInt32 ((1 : Nat) : Int) = [0, 0, 0, 1] := beInt32_one
  have e2 : be64 magic = [0xb5, 0xde, 0xad, 0x01, 0x15, 0x14, 0x51, 0x03] := by decide
  have e3 : be32 0 = [0, 0, 0, 0] := by decide
  rw [e0, e1, e2, e3, beInt32_zero] at hfile
  have hfile2 : (singleNode children).Serialize (bufferWriter Unit) [] =
      .ok ([0, 0, 0, 0, 0, 0, 0, 1, 0xb5, 0xde, 0xad, 0x01, 0x15, 0x14, 0x51, 0x03,
        0, 0, 0, 0, 0, 0, 0, 0] ++ children.flatMap be32) := hfile
  refine ⟨wellTyped_singleNode _ hmem, _, hfile2, List.prefix_append _ _, ?_, rfl⟩
  intro he
  have hl := congrArg List.length he
  rw [List.length_append, length_flatMap_be32, hlen] at hl
  simp only [List.length_cons, List.length_nil] at hl
  omega

/-- C18 as stated fails on a structure whose one node has `2 ^ 32` children:
the structure holds only `uint32` values, `Serialize` succeeds, the count
`int32(len(children))` is written as 0, and on the first 24 bytes of the file, a
proper prefix, `Deserialize` returns a structure and no error. -/
theorem deserialize_truncated_counterexample :
    wrappedChildren.WellTyped ∧
    ∃ file : List Nat, wrappedChildren.Serialize (bufferWriter Unit) [] = .ok file ∧
      [0, 0, 0, 0, 0, 0, 0, 1, 0xb5, 0xde, 0xad, 0x01, 0x15, 0x14, 0x51, 0x03,
        0, 0, 0, 0, 0, 0, 0, 0] <+: file ∧
      [0, 0, 0, 0, 0, 0, 0, 1, 0xb5, 0xde, 0xad, 0x01, 0x15, 0x14, 0x51, 0x03,
        0, 0, 0, 0, 0, 0, 0, 0] ≠ file ∧
      Deserialize [0, 0, 0, 0, 0, 0, 0, 1, 0xb5, 0xde, 0xad, 0x01, 0x15, 0x14, 0x51, 0x03,
        0, 0, 0, 0, 0, 0, 0, 0] = .returned (singleNode []) none :=
  truncated_singleNode (List.replicate (2 ^ 32) 0) (List.length_replicate _ _)
    (fun x hx => by rw [List.eq_of_mem_replicate hx]; norm_num)

end TicTacToe
